import Mathlib

/-!
Verification of the horizontal coordinate assignment core (`src/position/bk.js`)
of the dagre layout engine: a shallow embedding of the Brandes–Köpf coordinate
assignment module, together with proofs about its specified properties.

Conventions of the embedding:
* vertex ids are `String`s (JavaScript object keys);
* JavaScript numbers are rationals `ℚ`; a possibly-undefined/NaN number is
  `Option ℚ` (`none` plays the role of `undefined`/`NaN`, which propagate
  through arithmetic exactly as in JavaScript);
* JavaScript objects used as records become structures, objects used as
  dictionaries become association lists (`List (String × _)`) so that key
  iteration order is preserved, and objects used as total maps that are only
  ever read at initialised keys become Lean functions updated pointwise;
* the mutable state of each source function is threaded explicitly.
-/

namespace BK

/-- JavaScript `<` on strings: lexicographic comparison of UTF-16 code units
(all ids in this development are plain ASCII, where code points coincide). -/
def strLtB : List Char → List Char → Bool
  | [], [] => false
  | [], _ :: _ => true
  | _ :: _, [] => false
  | a :: as, b :: bs =>
    if a.toNat < b.toNat then true else if b.toNat < a.toNat then false else strLtB as bs

/-- JavaScript `v > w` for string ids, as used by `addConflict`/`hasConflict`. -/
def strGtB (v w : String) : Bool := strLtB w.toList v.toList

/-- A possibly-undefined (or NaN) JavaScript number. -/
abbrev JQ := Option ℚ

/-- JavaScript addition where `undefined`/`NaN` poisons the result. -/
def jsAdd : JQ → JQ → JQ
  | some a, some b => some (a + b)
  | _, _ => none

/-- JavaScript subtraction where `undefined`/`NaN` poisons the result. -/
def jsSub : JQ → JQ → JQ
  | some a, some b => some (a - b)
  | _, _ => none

/-- JavaScript unary minus where `undefined`/`NaN` poisons the result. -/
def jsNeg : JQ → JQ
  | some a => some (-a)
  | none => none

/-- `Math.max` (NaN poisons the result, as in JavaScript). -/
def jsMax : JQ → JQ → JQ
  | some a, some b => some (max a b)
  | _, _ => none

/-- Node attributes read by the module (`order`, `width`, `dummy`, `labelpos`,
`borderType`); `rank` is consumed by the layering-matrix collaborator.
`dummy` is `none` when falsy; a truthy value is `some tag`. -/
structure NodeLabel where
  order : ℕ := 0
  width : ℚ := 0
  dummy : Option String := none
  labelpos : Option String := none
  borderType : Option String := none
  rank : ℕ := 0
deriving DecidableEq

/-- The input graph capability set consumed by the module: node lookup,
adjacency, and the graph-level attributes `nodesep`, `edgesep`, `align`.
`label`, `preds` and `succs` are total functions; they are only consulted at
vertices present in the graph. -/
structure DGraph where
  nodesL : List String
  label : String → NodeLabel
  preds : String → List String
  succs : String → List String
  nodesep : ℚ
  edgesep : ℚ
  galign : Option String

/-- `sep(nodeSep, edgeSep, reverseSep)` from bk.js, applied to `(g, v, w)`:
minimum separation between layer-adjacent `w` (left) and `v` (right).
The JavaScript `var delta` stays undefined when `labelpos` is present but
neither `l` nor `r`; both that case and an absent `labelpos` make the
`if (delta)` guard falsy, which the value `0` models exactly. -/
def sep (nodeSep edgeSep : ℚ) (reverseSep : Bool) (g : DGraph) (v w : String) : ℚ :=
  let vLabel := g.label v
  let wLabel := g.label w
  let sum0 : ℚ := vLabel.width / 2
  let delta1 : ℚ :=
    match vLabel.labelpos with
    | some lp =>
      if lp.toLower = "l" then -vLabel.width / 2
      else if lp.toLower = "r" then vLabel.width / 2 else 0
    | none => 0
  let sum1 := if delta1 ≠ 0 then sum0 + (if reverseSep then delta1 else -delta1) else sum0
  let sum2 := sum1 + (if (g.label v).dummy.isSome then edgeSep else nodeSep) / 2
  let sum3 := sum2 + (if (g.label w).dummy.isSome then edgeSep else nodeSep) / 2
  let sum4 := sum3 + wLabel.width / 2
  let delta2 : ℚ :=
    match wLabel.labelpos with
    | some lp =>
      if lp.toLower = "l" then wLabel.width / 2
      else if lp.toLower = "r" then -wLabel.width / 2 else 0
    | none => 0
  if delta2 ≠ 0 then sum4 + (if reverseSep then delta2 else -delta2) else sum4

/-- `width(g, v)` from bk.js. -/
def width (g : DGraph) (v : String) : ℚ := (g.label v).width

/-- The conflict store. The JavaScript representation is a nested object
`{v: {w: true}}` keyed by the smaller id; membership is all that is ever read
from it (`_.has(conflicts[v], w)`), so the store is modelled by the list of
inserted canonical pairs, and `_.merge` of two stores by list append. -/
abbrev Conflicts := List (String × String)

/-- `addConflict` from bk.js: canonicalize the pair by the lexicographic
min/max of the two ids, then record it. -/
def addConflict (conflicts : Conflicts) (v w : String) : Conflicts :=
  if strGtB v w then (w, v) :: conflicts else (v, w) :: conflicts

/-- `hasConflict` from bk.js: canonicalize the pair the same way, then look
it up. -/
def hasConflict (conflicts : Conflicts) (v w : String) : Bool :=
  if strGtB v w then conflicts.contains (w, v) else conflicts.contains (v, w)

/-- `findOtherInnerSegmentNode` from bk.js: for a dummy `v`, its first dummy
predecessor (JavaScript `undefined` is `none`). -/
def findOtherInnerSegmentNode (g : DGraph) (v : String) : Option String :=
  if (g.label v).dummy.isSome then
    (g.preds v).find? (fun u => (g.label u).dummy.isSome)
  else none

/-- The predecessor check inside `findType1Conflicts`: mark `(u, scanNode)`
unless `u`'s order sits inside the `[k0, k1]` window or the edge is an inner
segment (both endpoints dummy). -/
def type1PredStep (g : DGraph) (k0 k1 : ℕ) (scanNode : String) (c : Conflicts)
    (u : String) : Conflicts :=
  let uLabel := g.label u
  let uPos := uLabel.order
  if (uPos < k0 ∨ k1 < uPos) ∧
      ¬(uLabel.dummy.isSome ∧ (g.label scanNode).dummy.isSome) then
    addConflict c u scanNode
  else c

/-- The `scanNode` loop body inside `findType1Conflicts`. -/
def type1ScanStep (g : DGraph) (k0 k1 : ℕ) (c : Conflicts) (scanNode : String) : Conflicts :=
  (g.preds scanNode).foldl (type1PredStep g k0 k1 scanNode) c

/-- One iteration of `visitLayer` in `findType1Conflicts`, on state
`(conflicts, k0, scanPos)` and the enumerated vertex `(i, v)`.
`layer.slice(scanPos, i + 1)` is `(layer.drop scanPos).take (i + 1 - scanPos)`. -/
def visitLayer1Step (g : DGraph) (prevLayerLength : ℕ) (layer : List String)
    (lastNode : Option String) (st : Conflicts × ℕ × ℕ) (iv : ℕ × String) :
    Conflicts × ℕ × ℕ :=
  let c := st.1
  let k0 := st.2.1
  let scanPos := st.2.2
  let i := iv.1
  let v := iv.2
  let w := findOtherInnerSegmentNode g v
  let k1 := match w with
    | some w' => (g.label w').order
    | none => prevLayerLength
  if w.isSome ∨ some v = lastNode then
    let c' := ((layer.drop scanPos).take (i + 1 - scanPos)).foldl
      (type1ScanStep g k0 k1) c
    (c', k1, i + 1)
  else (c, k0, scanPos)

/-- The body of `visitLayer` in `findType1Conflicts`: scan one layer against
its previous layer, threading the conflict store and the scan state. -/
def visitLayer1 (g : DGraph) (prevLayer layer : List String) (c : Conflicts) : Conflicts :=
  (layer.enum.foldl (visitLayer1Step g prevLayer.length layer layer.getLast?) (c, 0, 0)).1

/-- `findType1Conflicts` from bk.js: `_.reduce(layering, visitLayer)` visits
consecutive layer pairs, threading the closed-over conflict store. -/
def findType1Conflicts (g : DGraph) (layering : List (List String)) : Conflicts :=
  (layering.zip layering.tail).foldl (fun c pl => visitLayer1 g pl.1 pl.2 c) []

/-- JavaScript `a < b` where `b` may be `undefined` (any comparison with
`undefined` is false). -/
def jsLtOptZ (a : ℤ) : Option ℤ → Bool
  | some b => a < b
  | none => false

/-- `scan` in `findType2Conflicts`. `prevNorthBorder` may be the undefined
`nextNorthPos` (in the unconditional call), `nextNorthBorder` is always a
number at both call sites. `_.range(southPos, southEnd)` is ascending at both
call sites (`southPos ≤ southEnd` throughout). -/
def type2PredStep (g : DGraph) (prevNorthBorder : Option ℤ) (nextNorthBorder : ℤ)
    (v : String) (c : Conflicts) (u : String) : Conflicts :=
  let uNode := g.label u
  if uNode.dummy.isSome ∧
      (jsLtOptZ (uNode.order : ℤ) prevNorthBorder ∨
        (uNode.order : ℤ) > nextNorthBorder) then
    addConflict c u v
  else c

def scan2 (g : DGraph) (south : List String) (southPos southEnd : ℕ)
    (prevNorthBorder : Option ℤ) (nextNorthBorder : ℤ) (c : Conflicts) : Conflicts :=
  (List.range' southPos (southEnd - southPos)).foldl
    (fun c i =>
      match south.get? i with
      | none => c
      | some v =>
        if (g.label v).dummy.isSome then
          (g.preds v).foldl (type2PredStep g prevNorthBorder nextNorthBorder v) c
        else c) c

/-- The body of `visitLayer` in `findType2Conflicts`, threading
`(conflicts, prevNorthPos, nextNorthPos, southPos)` through the scan of one
north/south layer pair. -/
def visitLayer2Step (g : DGraph) (north south : List String)
    (st : Conflicts × ℤ × Option ℤ × ℕ) (iv : ℕ × String) :
    Conflicts × ℤ × Option ℤ × ℕ :=
  let c := st.1
  let prevNorthPos := st.2.1
  let nextNorthPos := st.2.2.1
  let southPos := st.2.2.2
  let southLookahead := iv.1
  let v := iv.2
  if (g.label v).dummy = some "border" then
    match g.preds v with
    | [] =>
      let c := scan2 g south southPos south.length nextNorthPos (north.length : ℤ) c
      (c, prevNorthPos, nextNorthPos, southPos)
    | p :: _ =>
      let nextNorthPos' := ((g.label p).order : ℤ)
      let c := scan2 g south southPos southLookahead (some prevNorthPos) nextNorthPos' c
      let southPos' := southLookahead
      let prevNorthPos' := nextNorthPos'
      let c := scan2 g south southPos' south.length (some nextNorthPos') (north.length : ℤ) c
      (c, prevNorthPos', some nextNorthPos', southPos')
  else
    let c := scan2 g south southPos south.length nextNorthPos (north.length : ℤ) c
    (c, prevNorthPos, nextNorthPos, southPos)

def visitLayer2 (g : DGraph) (north south : List String) (c : Conflicts) : Conflicts :=
  (south.enum.foldl (visitLayer2Step g north south) (c, -1, none, 0)).1

/-- `findType2Conflicts` from bk.js. -/
def findType2Conflicts (g : DGraph) (layering : List (List String)) : Conflicts :=
  (layering.zip layering.tail).foldl (fun c pl => visitLayer2 g pl.1 pl.2 c) []

/-! Coordinate maps. A JavaScript object with number values is modelled as an
insertion-ordered association list, so that value iteration (`_.values`,
`_.forIn`, `_.mapValues`) sees exactly the stored entries. -/

/-- A coordinate map: JS object keyed by vertex id with number values. -/
abbrev XMap := List (String × JQ)

/-- Property read `m[k]` (`none` for an absent key, indistinguishable from a
stored NaN in all the arithmetic this module performs on it). -/
def xget (m : XMap) (k : String) : JQ :=
  match m.find? (fun p => p.1 == k) with
  | some p => p.2
  | none => none

def xhas (m : XMap) (k : String) : Bool :=
  (m.find? (fun p => p.1 == k)).isSome

/-- Property write `m[k] = v`: replace in place, else append (JS objects keep
the original key position on re-assignment). -/
def xset (m : XMap) (k : String) (v : JQ) : XMap :=
  if xhas m k then m.map (fun p => if p.1 = k then (k, v) else p) else m ++ [(k, v)]

def xvals (m : XMap) : List JQ := m.map (fun p => p.2)

/-- lodash `_.max` over number values: NaN entries are never selected, the
empty list gives `undefined`. -/
def jsMaxList (l : List JQ) : JQ :=
  l.foldl
    (fun acc x =>
      match x with
      | none => acc
      | some q =>
        match acc with
        | none => some q
        | some b => if b < q then some q else acc)
    none

/-- lodash `_.min` over number values. -/
def jsMinList (l : List JQ) : JQ :=
  l.foldl
    (fun acc x =>
      match x with
      | none => acc
      | some q =>
        match acc with
        | none => some q
        | some b => if q < b then some q else acc)
    none

/-! The block graph: a `graphlib` `Graph` used only through `setNode`,
`setEdge`, `edge`, `nodes`, `inEdges`, `outEdges`. Nodes are kept in insertion
order; at most one edge per (source, target) pair (the default non-multigraph
behaviour); `setEdge` auto-creates its endpoints like graphlib does. -/

structure BEdge where
  v : String
  w : String
  weight : ℚ
deriving DecidableEq

structure BlockGraph where
  nodes : List String
  edges : List BEdge
deriving DecidableEq

def BlockGraph.setNode (bg : BlockGraph) (v : String) : BlockGraph :=
  if v ∈ bg.nodes then bg else { bg with nodes := bg.nodes ++ [v] }

/-- `blockGraph.edge(u, v)`: the stored weight, `undefined` when absent. -/
def BlockGraph.edgeW (bg : BlockGraph) (u v : String) : JQ :=
  match bg.edges.find? (fun e => e.v == u && e.w == v) with
  | some e => some e.weight
  | none => none

def BlockGraph.setEdge (bg : BlockGraph) (u v : String) (wt : ℚ) : BlockGraph :=
  let bg := (bg.setNode u).setNode v
  if bg.edges.any (fun e => e.v == u && e.w == v) then
    { bg with
      edges := bg.edges.map (fun e => if e.v == u && e.w == v then ⟨u, v, wt⟩ else e) }
  else { bg with edges := bg.edges ++ [⟨u, v, wt⟩] }

def BlockGraph.inEdges (bg : BlockGraph) (v : String) : List BEdge :=
  bg.edges.filter (fun e => e.w == v)

def BlockGraph.outEdges (bg : BlockGraph) (v : String) : List BEdge :=
  bg.edges.filter (fun e => e.v == v)

/-- One step of the per-layer walk of `buildBlockGraph`: set the block node
for `v`; when a left neighbour `u` exists, raise the block edge
`root u → root v` to at least `sepFn(g, v, u)`. -/
def buildBlockGraphStep (g : DGraph) (sepFn : DGraph → String → String → ℚ)
    (root : String → String) (st : BlockGraph × Option String) (v : String) :
    BlockGraph × Option String :=
  let vRoot := root v
  let bg := st.1.setNode vRoot
  match st.2 with
  | some u =>
    let uRoot := root u
    let prevMax := match bg.edgeW uRoot vRoot with
      | some q => q
      | none => 0
    (bg.setEdge uRoot vRoot (max (sepFn g v u) prevMax), some v)
  | none => (bg, some v)

/-- `buildBlockGraph` from bk.js (the left-neighbour variable `u` is freshly
undefined at the start of each layer). -/
def buildBlockGraph (g : DGraph) (layering : List (List String))
    (root : String → String) (reverseSep : Bool) : BlockGraph :=
  let sepFn := sep g.nodesep g.edgesep reverseSep
  layering.foldl
    (fun bg layer => (layer.foldl (buildBlockGraphStep g sepFn root) (bg, none)).1)
    ⟨[], []⟩

/-! Vertical alignment. `root`, `align` and `pos` are JS objects populated for
exactly the layering's vertices before use; they are modelled by total
functions (initially the identity, resp. constant 0) that are only ever read
at layering vertices. -/

structure VA where
  root : String → String
  align : String → String

/-- Pointwise update of a total map, modelling `obj[k] = v`. -/
def updFun {α : Type} (f : String → α) (k : String) (v : α) : String → α :=
  fun x => if x = k then v else f x

/-- The `pos` cache of `verticalAlignment`: position of each vertex within its
(oriented) layer. -/
def posOf (layering : List (List String)) : String → ℕ :=
  layering.foldl
    (fun pos layer => layer.enum.foldl (fun pos iv => updFun pos iv.2 iv.1) pos)
    (fun _ => 0)

/-- lodash `_.sortBy(ws, pos)`: stable ascending sort by the cached position. -/
def sortByPos (pos : String → ℕ) (ws : List String) : List String :=
  ws.mergeSort (fun a b => pos a ≤ pos b)

/-- The median-candidate loop body of `verticalAlignment`, on state
`(state, prevIdx)`. The JS update is `align[w] = v; align[v] = root[v] =
root[w]`, with `root[w]` read before any write. -/
def vaMedianStep (conflicts : Conflicts) (pos : String → ℕ) (v : String)
    (ws : List String) (p : VA × ℤ) (i : ℕ) : VA × ℤ :=
  let st := p.1
  let prevIdx := p.2
  match ws.get? i with
  | none => p
  | some w =>
    if st.align v = v ∧ prevIdx < (pos w : ℤ) ∧ hasConflict conflicts v w = false then
      let rw := st.root w
      (⟨updFun st.root v rw, updFun (updFun st.align w v) v rw⟩, (pos w : ℤ))
    else p

/-- The per-vertex body of `verticalAlignment`: take the median one or two
neighbours (`i ∈ {⌊(|ws|-1)/2⌋, ⌈(|ws|-1)/2⌉}`) of the sorted neighbour
list. -/
def vaVertexStep (conflicts : Conflicts) (pos : String → ℕ)
    (neighborFn : String → List String) (p : VA × ℤ) (v : String) : VA × ℤ :=
  let ws0 := neighborFn v
  if ws0.isEmpty then p
  else
    let ws := sortByPos pos ws0
    let lo := (ws.length - 1) / 2
    let hi := ws.length / 2
    (List.range' lo (hi + 1 - lo)).foldl (vaMedianStep conflicts pos v ws) p

/-- The per-layer body of `verticalAlignment` (`prevIdx` restarts at -1). -/
def vaLayerStep (conflicts : Conflicts) (pos : String → ℕ)
    (neighborFn : String → List String) (st : VA) (layer : List String) : VA :=
  (layer.foldl (vaVertexStep conflicts pos neighborFn) (st, (-1 : ℤ))).1

/-- `verticalAlignment` from bk.js. The graph itself is only consulted through
`neighborFn`. -/
def verticalAlignment (g : DGraph) (layering : List (List String))
    (conflicts : Conflicts) (neighborFn : String → List String) : VA :=
  let _ := g
  let pos := posOf layering
  layering.foldl (vaLayerStep conflicts pos neighborFn) ⟨fun v => v, fun v => v⟩

/-! Horizontal compaction. The recursive DFS sweeps of the source are rendered
with explicit fuel `|nodes| + 1`; on the acyclic block graphs required by the
preconditions the fuel is never exhausted, and the recursion matches the
source's unbounded recursion exactly. -/

/-- The accumulator of pass 2's `_.reduce`: `Number.POSITIVE_INFINITY`, NaN,
or a number. -/
inductive MinV where
  | inf : MinV
  | nan : MinV
  | val : ℚ → MinV
deriving DecidableEq

/-- `Math.min` as used by pass 2: NaN poisons, infinity is the identity. -/
def jsMinM : MinV → JQ → MinV
  | _, none => MinV.nan
  | MinV.nan, _ => MinV.nan
  | MinV.inf, some q => MinV.val q
  | MinV.val a, some q => MinV.val (min a q)

/-- The mutable state of `horizontalCompaction`: the `visited` marks (0 for
absent, 1 after pass 1, 2 after pass 2 — JS increments `true` to 2) and the
coordinate map `xs`. -/
structure CState where
  visited : String → ℕ
  xs : XMap

/-- The body of pass 1's `_.reduce` over the in-edges: recurse into the
in-neighbour, then raise the accumulator to `xs[e.v] + weight`. `rec` is the
recursive pass-1 call (at the next recursion depth). -/
def pass1Step (rec : String → CState → CState) (p : CState × JQ) (e : BEdge) :
    CState × JQ :=
  let s' := rec e.v p.1
  (s', jsMax p.2 (jsAdd (xget s'.xs e.v) (some e.weight)))

/-- Pass 1 of `horizontalCompaction`: place each block after all its
in-neighbours, via depth-first recursion (`xs[v] := max (0, max over in-edges
of xs[e.v] + weight)`), marking `v` visited before the recursive reduce. -/
def pass1 (bg : BlockGraph) : ℕ → String → CState → CState
  | 0, _, s => s
  | (fuel+1), v, s =>
    if s.visited v ≠ 0 then s
    else
      let s1 : CState := { s with visited := fun x => if x = v then 1 else s.visited x }
      let r := (bg.inEdges v).foldl (pass1Step (pass1 bg fuel)) (s1, some 0)
      { r.1 with xs := xset r.1.xs v r.2 }

def compact1 (bg : BlockGraph) (s : CState) : CState :=
  bg.nodes.foldl (fun s v => pass1 bg (bg.nodes.length + 1) v s) s

/-- The body of pass 2's `_.reduce` over the out-edges: recurse into the
out-neighbour, then lower the accumulator to `xs[e.w] - weight`. -/
def pass2Step (rec : String → CState → CState) (p : CState × MinV) (e : BEdge) :
    CState × MinV :=
  let s' := rec e.w p.1
  (s', jsMinM p.2 (jsSub (xget s'.xs e.w) (some e.weight)))

/-- Pass 2 of `horizontalCompaction`: pull each block right up to the least
slack of its out-edges (`xs[v] := max (xs[v], min over out-edges of
xs[e.w] - weight)`), unless the minimum stays infinite or `v` carries the
avoided `borderType`. -/
def pass2 (bg : BlockGraph) (g : DGraph) (borderType : String) :
    ℕ → String → CState → CState
  | 0, _, s => s
  | (fuel+1), v, s =>
    if s.visited v = 2 then s
    else
      let s1 : CState :=
        { s with visited := fun x => if x = v then s.visited v + 1 else s.visited x }
      let r := (bg.outEdges v).foldl (pass2Step (pass2 bg g borderType fuel)) (s1, MinV.inf)
      let s2 := r.1
      if r.2 ≠ MinV.inf ∧ (g.label v).borderType ≠ some borderType then
        match r.2 with
        | MinV.val q => { s2 with xs := xset s2.xs v (jsMax (xget s2.xs v) (some q)) }
        | MinV.nan => { s2 with xs := xset s2.xs v none }
        | MinV.inf => s2
      else s2

def compact2 (bg : BlockGraph) (g : DGraph) (borderType : String) (s : CState) : CState :=
  bg.nodes.foldl (fun s v => pass2 bg g borderType (bg.nodes.length + 1) v s) s

/-- The final loop of `horizontalCompaction`: `_.forEach(align, v => xs[v] =
xs[root[v]])` iterates over the values of the `align` object, whose keys are
the layering's vertices in layering order. -/
def hcAssign (root align : String → String) (vs : List String) (xs : XMap) : XMap :=
  vs.foldl (fun xs v0 => xset xs (align v0) (xget xs (root (align v0)))) xs

/-- `horizontalCompaction` from bk.js. -/
def horizontalCompaction (g : DGraph) (layering : List (List String))
    (root align : String → String) (reverseSep : Bool) : XMap :=
  let blockG := buildBlockGraph g layering root reverseSep
  let s1 := compact1 blockG ⟨fun _ => 0, []⟩
  let borderType := if reverseSep then "borderLeft" else "borderRight"
  let s2 := compact2 blockG g borderType s1
  hcAssign root align layering.flatten s2.xs

/-- The four biased coordinate maps, keyed `ul`, `ur`, `dl`, `dr` (their JS
object insertion order). -/
structure Xss where
  ul : XMap
  ur : XMap
  dl : XMap
  dr : XMap
deriving DecidableEq

/-- The width computed by `findSmallestWidthAlignment` for one alignment:
`max (xs[v] + width v / 2) - min (xs[v] - width v / 2)` over the map's
entries. -/
def mapWidth (g : DGraph) (xs : XMap) : JQ :=
  let maxVals := xs.map (fun p => jsAdd p.2 (some (width g p.1 / 2)))
  let minVals := xs.map (fun p => jsSub p.2 (some (width g p.1 / 2)))
  jsSub (jsMaxList maxVals) (jsMinList minVals)

/-- One step of lodash `_.minBy` as specialised in
`findSmallestWidthAlignment`: keep the incumbent unless the candidate's width
is strictly smaller; candidates with NaN width are never selected. -/
def minByStep (g : DGraph) (acc : Option (XMap × ℚ)) (xs : XMap) : Option (XMap × ℚ) :=
  match mapWidth g xs with
  | none => acc
  | some w =>
    match acc with
    | none => some (xs, w)
    | some pr => if w < pr.2 then some (xs, w) else acc

/-- lodash `_.minBy` over the candidate maps (first map of minimal width). -/
def minByWidth (g : DGraph) (l : List XMap) : Option XMap :=
  (l.foldl (minByStep g) none).map (fun pr => pr.1)

/-- `findSmallestWidthAlignment` from bk.js (`_.values(xss)` in key order). -/
def findSmallestWidthAlignment (g : DGraph) (xss : Xss) : Option XMap :=
  minByWidth g [xss.ul, xss.ur, xss.dl, xss.dr]

def negXMap (m : XMap) : XMap := m.map (fun p => (p.1, jsNeg p.2))

def shiftXMap (m : XMap) (delta : ℚ) : XMap :=
  m.map (fun p => (p.1, jsAdd p.2 (some delta)))

/-- The per-alignment body of `alignCoordinates`. The source skips the map
that is reference-identical to `alignTo`; structural equality stands in for
that here — for any additional map that is merely structurally equal to
`alignTo` the computed `delta` is 0 (or NaN), so the `if (delta)` guard skips
it as well and the two readings agree. -/
def alignCoordinates1 (alignToMin alignToMax : JQ) (alignTo : XMap) (isL : Bool)
    (xs : XMap) : XMap :=
  if xs = alignTo then xs
  else
    let xsVals := xvals xs
    let delta := if isL then jsSub alignToMin (jsMinList xsVals)
      else jsSub alignToMax (jsMaxList xsVals)
    match delta with
    | some d => if d ≠ 0 then shiftXMap xs d else xs
    | none => xs

/-- `alignCoordinates` from bk.js: left-biased alignments are shifted to share
the selected map's minimum, right-biased ones its maximum. -/
def alignCoordinates (xss : Xss) (alignTo : XMap) : Xss :=
  let vals := xvals alignTo
  let alignToMin := jsMinList vals
  let alignToMax := jsMaxList vals
  { ul := alignCoordinates1 alignToMin alignToMax alignTo true xss.ul
    ur := alignCoordinates1 alignToMin alignToMax alignTo false xss.ur
    dl := alignCoordinates1 alignToMin alignToMax alignTo true xss.dl
    dr := alignCoordinates1 alignToMin alignToMax alignTo false xss.dr }

/-- `xss[key]` for the balance lookup; any key other than the four alignment
names is absent (`undefined` in JS, where the subsequent property access would
fail — modelled as an undefined value). -/
def xssLookup (xss : Xss) (k : String) : Option XMap :=
  if k = "ul" then some xss.ul
  else if k = "ur" then some xss.ur
  else if k = "dl" then some xss.dl
  else if k = "dr" then some xss.dr
  else none

/-- The ascending comparator of `_.sortBy` on numbers (NaN/undefined entries
sort last). -/
def jqLe : JQ → JQ → Bool
  | some x, some y => x ≤ y
  | some _, none => true
  | none, some _ => false
  | none, none => true

/-- `_.sortBy` over the four per-vertex values. -/
def sortJQ (l : List JQ) : List JQ :=
  l.mergeSort jqLe

def jsHalf : JQ → JQ
  | some q => some (q / 2)
  | none => none

/-- `balance` from bk.js: with a graph-level `align`, pick that alignment's
value for every key of `xss.ul`; otherwise average the two middle of the four
sorted per-vertex values. -/
def balance (xss : Xss) (align : Option String) : XMap :=
  xss.ul.map (fun p =>
    let v := p.1
    match align with
    | some al =>
      match xssLookup xss al.toLower with
      | some m => (v, xget m v)
      | none => (v, none)
    | none =>
      let xs := sortJQ [xget xss.ul v, xget xss.ur v, xget xss.dl v, xget xss.dr v]
      (v, jsHalf (jsAdd (xs.getD 1 none) (xs.getD 2 none))))

/-- Modelled from the spec: `buildLayerMatrix` is imported from `../util`,
which is not among the given sources. Per §2 and §4.7 of the spec it builds
the layering matrix from the graph's rank/order assignment: `L[r]` lists the
vertices of rank `r` in order of their `order` attribute, for
`r = 0 .. maxRank`. -/
def buildLayerMatrix (g : DGraph) : List (List String) :=
  let maxRank := (g.nodesL.map (fun v => (g.label v).rank)).foldl max 0
  (List.range (maxRank + 1)).map (fun r =>
    (g.nodesL.filter (fun v => (g.label v).rank == r)).mergeSort
      (fun a b => (g.label a).order ≤ (g.label b).order))

/-- The four biased runs of `positionX`: orient the layering (reverse the
layer sequence for `d`, reverse each layer for `r`), pick the neighbour
capability (predecessors for `u`, successors for `d`), align, compact, and
negate the right-biased maps. -/
def positionXss (g : DGraph) : Xss :=
  let layering := buildLayerMatrix g
  let conflicts := findType1Conflicts g layering ++ findType2Conflicts g layering
  let layD := layering.reverse
  let mk := fun (lay : List (List String)) (nf : String → List String) (rev : Bool) =>
    let va := verticalAlignment g lay conflicts nf
    horizontalCompaction g lay va.root va.align rev
  { ul := mk layering g.preds false
    ur := negXMap (mk (layering.map List.reverse) g.preds true)
    dl := mk layD g.succs false
    dr := negXMap (mk (layD.map List.reverse) g.succs true) }

/-- The four maps after `alignCoordinates`. When `findSmallestWidthAlignment`
returns `undefined` (all four widths NaN, e.g. an empty graph), the JS
`alignCoordinates` call is a no-op: every `delta` is NaN and the `if (delta)`
guard fails. -/
def alignedXss (g : DGraph) : Xss :=
  let xss := positionXss g
  match findSmallestWidthAlignment g xss with
  | some alignTo => alignCoordinates xss alignTo
  | none => xss

/-- `positionX` from bk.js. -/
def positionX (g : DGraph) : XMap :=
  balance (alignedXss g) g.galign

/-- The two-node, one-rank graph of spec scenario S5: real nodes `a`, `b`
of width 100, `a.labelpos = 'l'`, `nodesep = 40`. -/
def s5Graph : DGraph where
  nodesL := ["a", "b"]
  label := fun v =>
    if v = "a" then { order := 0, width := 100, labelpos := some "l" }
    else if v = "b" then { order := 1, width := 100 }
    else {}
  preds := fun _ => []
  succs := fun _ => []
  nodesep := 40
  edgesep := 10
  galign := none

/-! Basic facts about the JavaScript string order and the conflict store. -/

theorem strLtB_asymm (a b : List Char) (h : strLtB a b = true) : strLtB b a = false := by
  induction a generalizing b with
  | nil =>
    cases b with
    | nil => simp [strLtB] at h
    | cons y ys => simp [strLtB]
  | cons x xs ih =>
    cases b with
    | nil => simp [strLtB] at h
    | cons y ys =>
      simp only [strLtB] at h ⊢
      by_cases h1 : x.toNat < y.toNat
      · have h2 : ¬ y.toNat < x.toNat := by omega
        simp [h1, h2]
      · by_cases h2 : y.toNat < x.toNat
        · simp [h1, h2] at h
        · simp only [h1, h2, if_false] at h ⊢
          exact ih _ h

theorem strLtB_eq_of_both_false (a b : List Char) (h1 : strLtB a b = false)
    (h2 : strLtB b a = false) : a = b := by
  induction a generalizing b with
  | nil =>
    cases b with
    | nil => rfl
    | cons y ys => simp [strLtB] at h1
  | cons x xs ih =>
    cases b with
    | nil => simp [strLtB] at h2
    | cons y ys =>
      simp only [strLtB] at h1 h2
      by_cases hxy : x.toNat < y.toNat
      · simp [hxy] at h1
      · by_cases hyx : y.toNat < x.toNat
        · simp [hxy, hyx] at h2
        · have hc : x = y := by
            have hn : x.toNat = y.toNat := by omega
            exact Char.eq_of_val_eq (UInt32.ext hn)
          simp only [hxy, hyx, if_false] at h1 h2
          rw [hc, ih _ h1 h2]

/-- Symmetry of the conflict lookup holds for any store value at all: the
lookup canonicalizes the pair exactly as the insertion does. -/
theorem hasConflict_comm (c : Conflicts) (v w : String) :
    hasConflict c v w = hasConflict c w v := by
  unfold hasConflict strGtB
  by_cases h1 : strLtB w.toList v.toList = true
  · have h2 := strLtB_asymm _ _ h1
    simp only [String.toList] at h1 h2
    simp [h1, h2]
  · by_cases h2 : strLtB v.toList w.toList = true
    · have h3 := strLtB_asymm _ _ h2
      simp only [String.toList] at h2 h3
      simp [h2, h3]
    · have hb1 : strLtB w.toList v.toList = false := by
        cases hx : strLtB w.toList v.toList
        · rfl
        · exact absurd hx h1
      have hb2 : strLtB v.toList w.toList = false := by
        cases hx : strLtB v.toList w.toList
        · rfl
        · exact absurd hx h2
      have hvw : v = w := String.ext (strLtB_eq_of_both_false _ _ hb2 hb1)
      simp [hvw]

/-- Fold preservation of a predicate, with membership of the visited element. -/
theorem foldl_preserve_mem {α β : Type} {P : β → Prop} {f : β → α → β} :
    ∀ (l : List α) (b : β), (∀ b' a, a ∈ l → P b' → P (f b' a)) → P b → P (l.foldl f b) := by
  intro l
  induction l with
  | nil => intro b _ hb; exact hb
  | cons x xs ih =>
    intro b h hb
    exact ih _ (fun b' a ha => h b' a (List.mem_cons_of_mem _ ha))
      (h b x (List.mem_cons_self _ _) hb)

theorem snd_mem_of_mem_enum {α : Type} {l : List α} {iv : ℕ × α} (h : iv ∈ l.enum) :
    iv.2 ∈ l := by
  have := List.enum_map_snd l
  rw [← this]
  exact List.mem_map_of_mem _ h

/-- C2 counterexample: at the exact S5 inputs (widths 100, `nodesep = 40`,
`a.labelpos = 'l'`, no labelpos on `b`) the separation returned with
`reverseSep = false` is 90, not the claimed 150; so the claim is false as
stated. The left-node rule of §4.1 applied to `a` gives `δ = +50` and adds
`-δ = -50` to the base sum `50 + 20 + 20 + 50 = 140`. -/
theorem c2_counterexample :
    sep 40 10 false s5Graph "b" "a" = 90 ∧ sep 40 10 false s5Graph "b" "a" ≠ 150 := by
  constructor
  · with_unfolding_all decide
  · with_unfolding_all decide

/-- C2 amended: for the S5 configuration and any `edgesep`, the separation
`sep(G, b, a)` is 90 without `reverseSep` (base sum 140 plus `-δ = -50`) and
190 with `reverseSep = true` (base sum 140 plus `+δ = +50`). -/
theorem c2_sep_labelpos :
    sep 40 10 false s5Graph "b" "a" = 90 ∧ sep 40 10 true s5Graph "b" "a" = 190 := by
  constructor
  · with_unfolding_all decide
  · with_unfolding_all decide

/-- A conflict store built by a sequence of `addConflict` insertions. -/
def buildConflicts (ps : List (String × String)) : Conflicts :=
  ps.foldl (fun c p => addConflict c p.1 p.2) []

/-- C7: for every conflict store built by any sequence of `addConflict` calls
and every pair of ids, `hasConflict c v w = hasConflict c w v`: both the
insertion and the lookup canonicalize the unordered pair by the lexicographic
min/max of the two ids. -/
theorem c7_hasConflict_symmetric (ps : List (String × String)) (v w : String) :
    hasConflict (buildConflicts ps) v w = hasConflict (buildConflicts ps) w v :=
  hasConflict_comm _ v w

/-- No stored pair joins two dummy endpoints. -/
def noInnerPair (g : DGraph) (c : Conflicts) : Prop :=
  ∀ p ∈ c, ¬((g.label p.1).dummy.isSome ∧ (g.label p.2).dummy.isSome)

theorem noInnerPair_addConflict {g : DGraph} {c : Conflicts} {u w : String}
    (hc : noInnerPair g c)
    (huw : ¬((g.label u).dummy.isSome ∧ (g.label w).dummy.isSome)) :
    noInnerPair g (addConflict c u w) := by
  unfold addConflict
  split
  · intro p hp
    rcases List.mem_cons.mp hp with rfl | hp
    · exact fun h => huw ⟨h.2, h.1⟩
    · exact hc p hp
  · intro p hp
    rcases List.mem_cons.mp hp with rfl | hp
    · exact huw
    · exact hc p hp

theorem noInnerPair_type1PredStep {g : DGraph} {k0 k1 : ℕ} {s : String}
    {c : Conflicts} {u : String} (hc : noInnerPair g c) :
    noInnerPair g (type1PredStep g k0 k1 s c u) := by
  unfold type1PredStep
  dsimp only
  split
  · next h => exact noInnerPair_addConflict hc h.2
  · exact hc

theorem noInnerPair_type1ScanStep {g : DGraph} {k0 k1 : ℕ} {c : Conflicts}
    {s : String} (hc : noInnerPair g c) :
    noInnerPair g (type1ScanStep g k0 k1 c s) :=
  foldl_preserve_mem _ _ (fun _ _ _ h => noInnerPair_type1PredStep h) hc

theorem noInnerPair_visitLayer1Step {g : DGraph} {pl : ℕ} {layer : List String}
    {ln : Option String} {st : Conflicts × ℕ × ℕ} {iv : ℕ × String}
    (hst : noInnerPair g st.1) :
    noInnerPair g (visitLayer1Step g pl layer ln st iv).1 := by
  unfold visitLayer1Step
  dsimp only
  split
  · exact foldl_preserve_mem _ _ (fun _ _ _ h => noInnerPair_type1ScanStep h) hst
  · exact hst

theorem noInnerPair_visitLayer1 {g : DGraph} {prevLayer layer : List String}
    {c : Conflicts} (hc : noInnerPair g c) :
    noInnerPair g (visitLayer1 g prevLayer layer c) := by
  unfold visitLayer1
  exact foldl_preserve_mem
    (P := fun st : Conflicts × ℕ × ℕ => noInnerPair g st.1) _ _
    (fun _ _ _ h => noInnerPair_visitLayer1Step h) hc

/-- C6: `findType1Conflicts` never records a pair whose two endpoints are both
dummy: every insertion is guarded by the inner-segment check, and the check is
symmetric in the stored (canonicalized) pair. -/
theorem c6_type1_no_inner_conflicts (g : DGraph) (layering : List (List String)) :
    ∀ p ∈ findType1Conflicts g layering,
      ¬((g.label p.1).dummy.isSome ∧ (g.label p.2).dummy.isSome) := by
  unfold findType1Conflicts
  exact foldl_preserve_mem (P := fun c => noInnerPair g c) _ _
    (fun _ _ _ h => noInnerPair_visitLayer1 h) (fun p hp => absurd hp (List.not_mem_nil p))

/-- The crossing-graph of the C6 witness: layers `[a, b]` over `[c, d]`, the
inner segment `b → c` (both dummy), and the real crossing edge `a → d`. -/
def c6g : DGraph where
  nodesL := ["a", "b", "c", "d"]
  label := fun v =>
    if v = "b" then { order := 1, dummy := some "e" }
    else if v = "c" then { order := 0, dummy := some "e" }
    else if v = "d" then { order := 1 }
    else { order := 0 }
  preds := fun v => if v = "c" then ["b"] else if v = "d" then ["a"] else []
  succs := fun _ => []
  nodesep := 50
  edgesep := 10
  galign := none

theorem c6_type1_no_inner_conflicts_witness :
    ("a", "d") ∈ findType1Conflicts c6g [["a", "b"], ["c", "d"]] ∧
      ¬((c6g.label "a").dummy.isSome ∧ (c6g.label "d").dummy.isSome) :=
  ⟨by with_unfolding_all decide,
    c6_type1_no_inner_conflicts c6g [["a", "b"], ["c", "d"]] ("a", "d")
      (by with_unfolding_all decide)⟩

theorem scan2_eq_of_no_north {g : DGraph} {south : List String}
    {southPos southEnd : ℕ} {nl : ℤ} {c : Conflicts}
    (hord : ∀ v ∈ south, ∀ u ∈ g.preds v, ((g.label u).order : ℤ) ≤ nl) :
    scan2 g south southPos southEnd none nl c = c := by
  unfold scan2
  apply foldl_preserve_mem (P := (· = c)) _ _ _ rfl
  intro b i _ hb
  cases hg : south.get? i with
  | none => simpa [hg] using hb
  | some v =>
    have hv : v ∈ south := List.get?_mem hg
    simp only [hg]
    split
    · apply foldl_preserve_mem (P := (· = c)) _ _ _ hb
      intro b' u hu hb'
      unfold type2PredStep
      dsimp only
      rw [if_neg]
      · exact hb'
      · rintro ⟨-, h | h⟩
        · simp [jsLtOptZ] at h
        · exact absurd (hord v hv u hu) (not_le.mpr h)
    · exact hb

theorem visitLayer2_eq_of_no_border {g : DGraph} {north south : List String}
    {c : Conflicts}
    (hnb : ∀ v ∈ south, (g.label v).dummy ≠ some "border")
    (hord : ∀ v ∈ south, ∀ u ∈ g.preds v, ((g.label u).order : ℤ) ≤ (north.length : ℤ)) :
    visitLayer2 g north south c = c := by
  unfold visitLayer2
  have h := foldl_preserve_mem
    (P := fun st : Conflicts × ℤ × Option ℤ × ℕ => st.1 = c ∧ st.2.2.1 = none)
    (f := visitLayer2Step g north south)
    south.enum (c, -1, none, 0) ?_ ⟨rfl, rfl⟩
  · exact h.1
  · intro st iv hmem hst
    unfold visitLayer2Step
    dsimp only
    rw [if_neg (hnb iv.2 (snd_mem_of_mem_enum hmem))]
    rw [hst.2, scan2_eq_of_no_north hord, hst.1]
    exact ⟨rfl, rfl⟩

/-- C9: when no vertex of the layering carries `dummy = "border"` and (as the
layering invariant guarantees) no predecessor order exceeds the north layer's
length, `findType2Conflicts` returns the empty conflict set: the border branch
never runs, so the north-border position stays undefined, the lower-bound
comparison against it is always false, and the upper bound `north.length` is
never exceeded. -/
theorem c9_type2_empty_without_border (g : DGraph) (layering : List (List String))
    (hb : ∀ l ∈ layering, ∀ v ∈ l, (g.label v).dummy ≠ some "border")
    (hord : ∀ pl ∈ layering.zip layering.tail, ∀ v ∈ pl.2, ∀ u ∈ g.preds v,
      ((g.label u).order : ℤ) ≤ (pl.1.length : ℤ)) :
    findType2Conflicts g layering = [] := by
  unfold findType2Conflicts
  apply foldl_preserve_mem (P := (· = ([] : Conflicts))) _ _ _ rfl
  intro b pl hmem hb'
  obtain ⟨north, south⟩ := pl
  have hsouth : south ∈ layering := List.mem_of_mem_tail (List.of_mem_zip hmem).2
  rw [visitLayer2_eq_of_no_border (fun v hv => hb south hsouth v hv)
    (fun v hv u hu => hord (north, south) hmem v hv u hu)]
  exact hb'

/-- The C9 witness graph: a two-layer edge-path chain of dummies `u → v`,
no border dummies anywhere. -/
def c9g : DGraph where
  nodesL := ["u", "v"]
  label := fun v =>
    if v = "v" then { order := 0, dummy := some "e" } else { order := 0, dummy := some "e" }
  preds := fun v => if v = "v" then ["u"] else []
  succs := fun _ => []
  nodesep := 50
  edgesep := 10
  galign := none

theorem c9_type2_empty_without_border_witness :
    findType2Conflicts c9g [["u"], ["v"]] = [] :=
  c9_type2_empty_without_border c9g [["u"], ["v"]]
    (by with_unfolding_all decide) (by with_unfolding_all decide)

/-- The graph of spec scenario S2: two real nodes `a`, `b` on rank 0 with
orders 0 and 1, both of width 50, `nodesep = 50`, `edgesep = 10`, no edges. -/
def s2Graph : DGraph where
  nodesL := ["a", "b"]
  label := fun v =>
    if v = "b" then { order := 1, width := 50, rank := 0 }
    else { order := 0, width := 50, rank := 0 }
  preds := fun _ => []
  succs := fun _ => []
  nodesep := 50
  edgesep := 10
  galign := none

/-- C8: on the S2 graph, `positionX` separates the two nodes by exactly
100 = 25 + 50 + 25 (two half-widths plus `nodesep`). -/
theorem c8_positionX_two_nodes :
    jsSub (xget (positionX s2Graph) "b") (xget (positionX s2Graph) "a") = some 100 := by
  with_unfolding_all decide

/-- The `_.minBy` fold started from an incumbent `(m, wm)` returns the first
candidate of minimal width, never larger than the incumbent. -/
theorem minByFold_spec (g : DGraph) :
    ∀ (l : List XMap) (m : XMap) (wm : ℚ), mapWidth g m = some wm →
      (∀ xs ∈ l, (mapWidth g xs).isSome) →
      ∃ m' wm',
        l.foldl (minByStep g) (some (m, wm)) = some (m', wm') ∧
        mapWidth g m' = some wm' ∧ wm' ≤ wm ∧
        (∀ xs ∈ l, ∀ wx, mapWidth g xs = some wx → wm' ≤ wx) ∧
        ((m' = m ∧ wm' = wm) ∨
          (wm' < wm ∧ ∃ pre post, l = pre ++ m' :: post ∧
            (∀ xs ∈ pre, ∀ wx, mapWidth g xs = some wx → wm' < wx))) := by
  intro l
  induction l with
  | nil =>
    intro m wm hm _
    exact ⟨m, wm, rfl, hm, le_refl _, by simp, Or.inl ⟨rfl, rfl⟩⟩
  | cons x rest ih =>
    intro m wm hm hw
    obtain ⟨wx, hwx⟩ := Option.isSome_iff_exists.mp (hw x (List.mem_cons_self _ _))
    by_cases hlt : wx < wm
    · have step_eq : minByStep g (some (m, wm)) x = some (x, wx) := by
        unfold minByStep
        rw [hwx]
        simp [hlt]
      rw [List.foldl_cons, step_eq]
      obtain ⟨m', wm', hfold, hm', hle, hall, hcase⟩ :=
        ih x wx hwx (fun xs hxs => hw xs (List.mem_cons_of_mem _ hxs))
      refine ⟨m', wm', hfold, hm', hle.trans hlt.le, ?_, ?_⟩
      · intro xs hxs wy hwy
        rcases List.mem_cons.mp hxs with rfl | hxs
        · rw [hwy] at hwx
          exact hle.trans_eq (Option.some_injective _ hwx).symm
        · exact hall xs hxs wy hwy
      · rcases hcase with ⟨rfl, rfl⟩ | ⟨hlt', pre, post, hde, hpre⟩
        · exact Or.inr ⟨hlt, [], rest, rfl, by simp⟩
        · refine Or.inr ⟨hlt'.trans hlt, x :: pre, post, by rw [hde, List.cons_append], ?_⟩
          intro xs hxs wy hwy
          rcases List.mem_cons.mp hxs with rfl | hxs
          · rw [hwy] at hwx
            exact hlt'.trans_eq (Option.some_injective _ hwx).symm
          · exact hpre xs hxs wy hwy
    · have step_eq : minByStep g (some (m, wm)) x = some (m, wm) := by
        unfold minByStep
        rw [hwx]
        simp [hlt]
      rw [List.foldl_cons, step_eq]
      obtain ⟨m', wm', hfold, hm', hle, hall, hcase⟩ :=
        ih m wm hm (fun xs hxs => hw xs (List.mem_cons_of_mem _ hxs))
      have hwmwx : wm ≤ wx := not_lt.mp hlt
      refine ⟨m', wm', hfold, hm', hle, ?_, ?_⟩
      · intro xs hxs wy hwy
        rcases List.mem_cons.mp hxs with rfl | hxs
        · rw [hwy] at hwx
          exact (hle.trans hwmwx).trans_eq (Option.some_injective _ hwx).symm
        · exact hall xs hxs wy hwy
      · rcases hcase with ⟨h1, h2⟩ | ⟨hlt', pre, post, hde, hpre⟩
        · exact Or.inl ⟨h1, h2⟩
        · refine Or.inr ⟨hlt', x :: pre, post, by rw [hde, List.cons_append], ?_⟩
          intro xs hxs wy hwy
          rcases List.mem_cons.mp hxs with rfl | hxs
          · rw [hwy] at hwx
            exact (hlt'.trans_le hwmwx).trans_eq (Option.some_injective _ hwx).symm
          · exact hpre xs hxs wy hwy

/-- C4: when all four alignment widths are defined,
`findSmallestWidthAlignment` returns one of the four maps whose width is at
most the width of each of the four, and ties go to the first map in the
iteration order `[ul, ur, dl, dr]` (every map before the selected one is
strictly wider). -/
theorem c4_findSmallestWidthAlignment (g : DGraph) (xss : Xss)
    (hw : ∀ xs ∈ [xss.ul, xss.ur, xss.dl, xss.dr], (mapWidth g xs).isSome) :
    ∃ m wm pre post,
      findSmallestWidthAlignment g xss = some m ∧
      mapWidth g m = some wm ∧
      [xss.ul, xss.ur, xss.dl, xss.dr] = pre ++ m :: post ∧
      (∀ xs ∈ [xss.ul, xss.ur, xss.dl, xss.dr], ∀ wx, mapWidth g xs = some wx → wm ≤ wx) ∧
      (∀ xs ∈ pre, ∀ wx, mapWidth g xs = some wx → wm < wx) := by
  obtain ⟨w1, hw1⟩ := Option.isSome_iff_exists.mp (hw xss.ul (by simp))
  have h0 : minByStep g none xss.ul = some (xss.ul, w1) := by
    unfold minByStep
    rw [hw1]
  obtain ⟨m', wm', hfold, hm', hle, hall, hcase⟩ :=
    minByFold_spec g [xss.ur, xss.dl, xss.dr] xss.ul w1 hw1
      (fun xs hxs => hw xs (List.mem_cons_of_mem _ hxs))
  have hres : findSmallestWidthAlignment g xss = some m' := by
    unfold findSmallestWidthAlignment minByWidth
    rw [List.foldl_cons, h0, hfold]
    rfl
  have hallFour : ∀ xs ∈ [xss.ul, xss.ur, xss.dl, xss.dr], ∀ wx,
      mapWidth g xs = some wx → wm' ≤ wx := by
    intro xs hxs wy hwy
    rcases List.mem_cons.mp hxs with rfl | hxs
    · rw [hwy] at hw1
      exact hle.trans_eq (Option.some_injective _ hw1).symm
    · exact hall xs hxs wy hwy
  rcases hcase with ⟨he1, he2⟩ | ⟨hlt, pre, post, hde, hpre⟩
  · refine ⟨m', wm', [], [xss.ur, xss.dl, xss.dr], hres, hm', ?_, hallFour, by simp⟩
    rw [he1]
    rfl
  · refine ⟨m', wm', xss.ul :: pre, post, hres, hm', by rw [List.cons_append, ← hde], hallFour, ?_⟩
    intro xs hxs wy hwy
    rcases List.mem_cons.mp hxs with rfl | hxs
    · rw [hwy] at hw1
      exact hlt.trans_eq (Option.some_injective _ hw1).symm
    · exact hpre xs hxs wy hwy

/-- A concrete quadruple of alignment maps for the C4 witness. -/
def c4xss : Xss where
  ul := [("a", some 0), ("b", some 100)]
  ur := [("a", some 0), ("b", some 100)]
  dl := [("a", some (-10)), ("b", some 100)]
  dr := [("a", some 0), ("b", some 100)]

theorem jqLe_trans : ∀ a b c : JQ, jqLe a b = true → jqLe b c = true → jqLe a c = true := by
  intro a b c hab hbc
  cases a <;> cases b <;> cases c <;> simp [jqLe] at * <;> exact hab.trans hbc

theorem jqLe_total : ∀ a b : JQ, (jqLe a b || jqLe b a) = true := by
  intro a b
  cases a <;> cases b <;> simp [jqLe] <;> exact le_total _ _

/-- Reading a key `k` from a map built by re-keying each entry of `m`
through the key-dependent value `f`. -/
theorem xget_map_by_key (f : String → JQ) (m : XMap) (k : String) :
    xget (m.map (fun p => (p.1, f p.1))) k = if xhas m k then f k else none := by
  induction m with
  | nil => rfl
  | cons p rest ih =>
    by_cases h : p.1 = k
    · simp [xget, xhas, List.find?, h]
    · have hne : (p.1 == k) = false := by simpa using h
      simp only [List.map_cons, xget, xhas, List.find?, hne] at ih ⊢
      exact ih

/-- `balance` preserves the key sequence of `xss.ul`. -/
theorem balance_map_fst (xss : Xss) (alopt : Option String) :
    (balance xss alopt).map Prod.fst = xss.ul.map Prod.fst := by
  unfold balance
  rw [List.map_map]
  apply List.map_congr_left
  intro p _
  cases alopt with
  | none => rfl
  | some al =>
    show (match xssLookup xss al.toLower with
      | some m => (p.1, xget m p.1)
      | none => (p.1, none)).1 = p.1
    cases xssLookup xss al.toLower <;> rfl

/-- Sorting four defined values yields four defined values in ascending
order, a permutation of the input. -/
theorem sortJQ_four (a b c d : ℚ) :
    ∃ q1 q2 q3 q4,
      sortJQ [some a, some b, some c, some d] = [some q1, some q2, some q3, some q4] ∧
      q1 ≤ q2 ∧ q2 ≤ q3 ∧ q3 ≤ q4 ∧ [q1, q2, q3, q4].Perm [a, b, c, d] := by
  have hperm := List.mergeSort_perm [some a, some b, some c, some d] jqLe
  have hsorted := List.sorted_mergeSort jqLe_trans jqLe_total [some a, some b, some c, some d]
  have hlen : ([some a, some b, some c, some d].mergeSort jqLe).length = 4 :=
    List.length_mergeSort _
  have hsome : ∀ x ∈ [some a, some b, some c, some d].mergeSort jqLe, x.isSome := by
    intro x hx
    have hm := hperm.mem_iff.mp hx
    simp only [List.mem_cons, List.not_mem_nil, or_false] at hm
    rcases hm with rfl | rfl | rfl | rfl
    · rfl
    · rfl
    · rfl
    · rfl
  set ls := [some a, some b, some c, some d].mergeSort jqLe with hls
  obtain ⟨x1, x2, x3, x4, hl⟩ : ∃ x1 x2 x3 x4, ls = [x1, x2, x3, x4] := by
    match ls, hlen with
    | [x1, x2, x3, x4], _ => exact ⟨x1, x2, x3, x4, rfl⟩
  rw [hl] at hperm hsorted hsome
  obtain ⟨q1, rfl⟩ := Option.isSome_iff_exists.mp (hsome x1 (by simp))
  obtain ⟨q2, rfl⟩ := Option.isSome_iff_exists.mp (hsome x2 (by simp))
  obtain ⟨q3, rfl⟩ := Option.isSome_iff_exists.mp (hsome x3 (by simp))
  obtain ⟨q4, rfl⟩ := Option.isSome_iff_exists.mp (hsome x4 (by simp))
  refine ⟨q1, q2, q3, q4, by rw [sortJQ, ← hls, hl], ?_, ?_, ?_, ?_⟩
  · have := List.pairwise_cons.mp hsorted
    simpa [jqLe] using this.1 (some q2) (by simp)
  · have := List.pairwise_cons.mp (List.pairwise_cons.mp hsorted).2
    simpa [jqLe] using this.1 (some q3) (by simp)
  · have := List.pairwise_cons.mp (List.pairwise_cons.mp (List.pairwise_cons.mp hsorted).2).2
    simpa [jqLe] using this.1 (some q4) (by simp)
  · have hmap := hperm.map (fun o : JQ => o.getD 0)
    simpa using hmap

/-- C3: `positionX` returns the balanced map over the aligned four-alignment
family: its key sequence is that of the `ul` map; with a graph-level `align`
naming one of the four alignments (case-insensitively), every key's value is
that alignment's value; without it, every key's value is the mean of the two
middle of the four per-alignment values sorted ascending. -/
theorem c3_balance_of_positionX (g : DGraph) :
    ((positionX g).map Prod.fst = (alignedXss g).ul.map Prod.fst) ∧
    (∀ al m, g.galign = some al → xssLookup (alignedXss g) al.toLower = some m →
      ∀ v, xget (positionX g) v =
        if xhas (alignedXss g).ul v then xget m v else none) ∧
    (g.galign = none →
      ∀ v, xhas (alignedXss g).ul v = true →
        ∀ xa xb xc xd,
          xget (alignedXss g).ul v = some xa → xget (alignedXss g).ur v = some xb →
          xget (alignedXss g).dl v = some xc → xget (alignedXss g).dr v = some xd →
          ∃ q1 q2 q3 q4, [q1, q2, q3, q4].Perm [xa, xb, xc, xd] ∧
            q1 ≤ q2 ∧ q2 ≤ q3 ∧ q3 ≤ q4 ∧
            xget (positionX g) v = some ((q2 + q3) / 2)) := by
  refine ⟨balance_map_fst _ _, ?_, ?_⟩
  · intro al m hal hm v
    show xget (balance (alignedXss g) g.galign) v = _
    rw [hal]
    unfold balance
    simp only [hm]
    exact xget_map_by_key (fun v => xget m v) _ v
  · intro hal v hv xa xb xc xd h1 h2 h3 h4
    obtain ⟨q1, q2, q3, q4, hsort, h12, h23, h34, hperm⟩ := sortJQ_four xa xb xc xd
    refine ⟨q1, q2, q3, q4, hperm, h12, h23, h34, ?_⟩
    show xget (balance (alignedXss g) g.galign) v = _
    rw [hal]
    unfold balance
    rw [xget_map_by_key
      (fun v => jsHalf (jsAdd
        ((sortJQ [xget (alignedXss g).ul v, xget (alignedXss g).ur v,
          xget (alignedXss g).dl v, xget (alignedXss g).dr v]).getD 1 none)
        ((sortJQ [xget (alignedXss g).ul v, xget (alignedXss g).ur v,
          xget (alignedXss g).dl v, xget (alignedXss g).dr v]).getD 2 none))) _ v]
    rw [if_pos hv, h1, h2, h3, h4, hsort]
    rfl

/-- The S2 graph with a forced `align = "UL"`, for the C3 witness. -/
def c3g : DGraph := { s2Graph with galign := some "UL" }

theorem c3_balance_of_positionX_witness :
    (xget (positionX c3g) "a" =
      if xhas (alignedXss c3g).ul "a" then xget (alignedXss c3g).ul "a" else none) ∧
    (∃ q1 q2 q3 q4, [q1, q2, q3, q4].Perm
        [(0 : ℚ), 0, 0, 0] ∧
      q1 ≤ q2 ∧ q2 ≤ q3 ∧ q3 ≤ q4 ∧
      xget (positionX s2Graph) "a" = some ((q2 + q3) / 2)) :=
  ⟨(c3_balance_of_positionX c3g).2.1 "UL" (alignedXss c3g).ul rfl
      (by with_unfolding_all decide) "a",
    (c3_balance_of_positionX s2Graph).2.2 rfl "a" (by with_unfolding_all decide)
      0 0 0 0 (by with_unfolding_all decide) (by with_unfolding_all decide)
      (by with_unfolding_all decide) (by with_unfolding_all decide)⟩

theorem c4_findSmallestWidthAlignment_witness :
    ∃ m wm pre post,
      findSmallestWidthAlignment s2Graph c4xss = some m ∧
      mapWidth s2Graph m = some wm ∧
      [c4xss.ul, c4xss.ur, c4xss.dl, c4xss.dr] = pre ++ m :: post ∧
      (∀ xs ∈ [c4xss.ul, c4xss.ur, c4xss.dl, c4xss.dr], ∀ wx,
        mapWidth s2Graph xs = some wx → wm ≤ wx) ∧
      (∀ xs ∈ pre, ∀ wx, mapWidth s2Graph xs = some wx → wm < wx) :=
  c4_findSmallestWidthAlignment s2Graph c4xss (by with_unfolding_all decide)

/-! Reading and writing coordinate maps. -/

theorem xget_replace_self (m : XMap) (k : String) (v : JQ) (hm : xhas m k = true) :
    xget (m.map (fun p => if p.1 = k then (k, v) else p)) k = v := by
  induction m with
  | nil => simp [xhas, List.find?] at hm
  | cons p rest ih =>
    by_cases hp : p.1 = k
    · simp [xget, List.find?, hp]
    · have hb : (p.1 == k) = false := by simpa using hp
      have hm' : xhas rest k = true := by simpa [xhas, List.find?, hb] using hm
      simpa [xget, List.find?, hp, hb] using ih hm'

theorem xget_replace_ne (m : XMap) (k k' : String) (v : JQ) (h : k' ≠ k) :
    xget (m.map (fun p => if p.1 = k then (k, v) else p)) k' = xget m k' := by
  induction m with
  | nil => rfl
  | cons p rest ih =>
    by_cases hp : p.1 = k
    · have h1 : (k == k') = false := by simpa using (Ne.symm h)
      have h2 : (p.1 == k') = false := by rw [hp]; simpa using (Ne.symm h)
      simpa [xget, List.find?, hp, h1, h2] using ih
    · have h3 : (if p.1 = k then (k, v) else p) = p := if_neg hp
      by_cases hp' : p.1 = k'
      · have hb : (p.1 == k') = true := by simpa using hp'
        simp only [List.map_cons, h3]
        simp [xget, List.find?, hb]
      · have h2 : (p.1 == k') = false := by simpa using hp'
        simp only [List.map_cons, h3]
        simpa [xget, List.find?, h2] using ih

theorem xget_append_single_self (m : XMap) (k : String) (v : JQ) (hm : xhas m k = false) :
    xget (m ++ [(k, v)]) k = v := by
  induction m with
  | nil => simp [xget, List.find?]
  | cons p rest ih =>
    have hb : (p.1 == k) = false := by
      cases hx : (p.1 == k) with
      | false => rfl
      | true => simp [xhas, List.find?, hx] at hm
    have hm' : xhas rest k = false := by simpa [xhas, List.find?, hb] using hm
    simpa [xget, List.find?, hb] using ih hm'

theorem xget_append_single_ne (m : XMap) (k k' : String) (v : JQ) (h : k' ≠ k) :
    xget (m ++ [(k, v)]) k' = xget m k' := by
  induction m with
  | nil =>
    have h1 : (k == k') = false := by simpa using (Ne.symm h)
    simp [xget, List.find?, h1]
  | cons p rest ih =>
    by_cases hp' : p.1 = k'
    · simp [xget, List.find?, hp']
    · have h2 : (p.1 == k') = false := by simpa using hp'
      simpa [xget, List.find?, h2] using ih

theorem xget_xset_self (m : XMap) (k : String) (v : JQ) : xget (xset m k v) k = v := by
  unfold xset
  by_cases hm : xhas m k
  · rw [if_pos hm]
    exact xget_replace_self m k v hm
  · rw [if_neg hm]
    exact xget_append_single_self m k v (by simpa using hm)

theorem xget_xset_ne (m : XMap) (k k' : String) (v : JQ) (h : k' ≠ k) :
    xget (xset m k v) k' = xget m k' := by
  unfold xset
  by_cases hm : xhas m k
  · rw [if_pos hm]
    exact xget_replace_ne m k k' v h
  · rw [if_neg hm]
    exact xget_append_single_ne m k k' v h

/-! Facts about the block graph construction: node sets only grow, edge
weights only grow, every edge's endpoints are nodes, and every edge is the
first (unique) stored edge for its ordered pair. -/

/-- `bg'` refines `bg`: every edge persists with the same endpoints and at
least the same weight. -/
def BGle (bg bg' : BlockGraph) : Prop :=
  ∀ e ∈ bg.edges, ∃ e' ∈ bg'.edges, e'.v = e.v ∧ e'.w = e.w ∧ e.weight ≤ e'.weight

theorem BGle.rfl' (bg : BlockGraph) : BGle bg bg :=
  fun e he => ⟨e, he, rfl, rfl, le_refl _⟩

theorem BGle.trans' {a b c : BlockGraph} (h1 : BGle a b) (h2 : BGle b c) : BGle a c := by
  intro e he
  obtain ⟨e', he', hv, hw, hle⟩ := h1 e he
  obtain ⟨e'', he'', hv', hw', hle'⟩ := h2 e' he'
  exact ⟨e'', he'', hv'.trans hv, hw'.trans hw, hle.trans hle'⟩

theorem setNode_edges (bg : BlockGraph) (v : String) : (bg.setNode v).edges = bg.edges := by
  unfold BlockGraph.setNode
  split <;> rfl

theorem mem_nodes_setNode (bg : BlockGraph) (v u : String) (h : u ∈ bg.nodes) :
    u ∈ (bg.setNode v).nodes := by
  unfold BlockGraph.setNode
  split
  · exact h
  · exact List.mem_append_left _ h

theorem mem_nodes_setNode_self (bg : BlockGraph) (v : String) : v ∈ (bg.setNode v).nodes := by
  unfold BlockGraph.setNode
  split
  · assumption
  · simp

theorem mem_nodes_setEdge (bg : BlockGraph) (u v x : String) (wt : ℚ)
    (h : x ∈ ((bg.setNode u).setNode v).nodes) : x ∈ (bg.setEdge u v wt).nodes := by
  unfold BlockGraph.setEdge
  dsimp only
  split <;> exact h

theorem setEdge_nodes_self (bg : BlockGraph) (u v : String) (wt : ℚ) :
    u ∈ (bg.setEdge u v wt).nodes ∧ v ∈ (bg.setEdge u v wt).nodes :=
  ⟨mem_nodes_setEdge _ _ _ _ _ (mem_nodes_setNode _ _ _ (mem_nodes_setNode_self _ _)),
    mem_nodes_setEdge _ _ _ _ _ (mem_nodes_setNode_self _ _)⟩

/-- Every stored edge is the first stored edge for its ordered pair: the
non-multigraph `setEdge` keeps at most one edge per pair. -/
def EdgeUniq (bg : BlockGraph) : Prop :=
  ∀ e ∈ bg.edges, bg.edgeW e.v e.w = some e.weight

/-- Endpoints of stored edges are nodes (graphlib `setEdge` auto-creates
them). -/
def EdgeEnds (bg : BlockGraph) : Prop :=
  ∀ e ∈ bg.edges, e.v ∈ bg.nodes ∧ e.w ∈ bg.nodes

theorem edgeW_setNode (bg : BlockGraph) (x a b : String) :
    (bg.setNode x).edgeW a b = bg.edgeW a b := by
  unfold BlockGraph.edgeW
  rw [setNode_edges]

theorem find?_replace_same (l : List BEdge) (u v : String) (wt : ℚ)
    (hany : l.any (fun e => e.v == u && e.w == v) = true) :
    List.find? (fun e => e.v == u && e.w == v)
      (l.map (fun e => if e.v == u && e.w == v then (⟨u, v, wt⟩ : BEdge) else e))
      = some ⟨u, v, wt⟩ := by
  induction l with
  | nil => simp at hany
  | cons e rest ih =>
    by_cases he : (e.v == u && e.w == v) = true
    · simp [List.find?, he]
    · have he' : (e.v == u && e.w == v) = false := by
        cases hx : (e.v == u && e.w == v)
        · rfl
        · exact absurd hx he
      have hany' : rest.any (fun e => e.v == u && e.w == v) = true := by
        simpa [List.any_cons, he'] using hany
      simpa [List.find?, he'] using ih hany'

theorem find?_replace_other (l : List BEdge) (u v : String) (wt : ℚ) (a b : String)
    (hne : ¬(a = u ∧ b = v)) :
    List.find? (fun e => e.v == a && e.w == b)
      (l.map (fun e => if e.v == u && e.w == v then (⟨u, v, wt⟩ : BEdge) else e))
      = List.find? (fun e => e.v == a && e.w == b) l := by
  induction l with
  | nil => rfl
  | cons e rest ih =>
    by_cases he : (e.v == u && e.w == v) = true
    · have hvw : e.v = u ∧ e.w = v := by
        have h' := he
        simp only [Bool.and_eq_true, beq_iff_eq] at h'
        exact h'
      have hev : e.v = u := hvw.1
      have hew : e.w = v := hvw.2
      have hnew : ((⟨u, v, wt⟩ : BEdge).v == a && (⟨u, v, wt⟩ : BEdge).w == b) = false := by
        simp only [Bool.and_eq_false_iff, beq_eq_false_iff_ne, ne_eq]
        by_cases hau : u = a
        · right
          intro hbv
          exact hne ⟨hau.symm, hbv.symm⟩
        · exact Or.inl hau
      have hold : (e.v == a && e.w == b) = false := by
        rw [hev, hew]
        simpa using hnew
      simp only [List.map_cons, List.find?, he, if_true, hnew, hold]
      exact ih
    · have he' : (if (e.v == u && e.w == v) = true then (⟨u, v, wt⟩ : BEdge) else e) = e :=
        if_neg he
      simp only [List.map_cons, he']
      cases hx : (e.v == a && e.w == b) with
      | true => simp [List.find?, hx]
      | false => simpa [List.find?, hx] using ih

theorem any_eq_false_find?_none (l : List BEdge) (p : BEdge → Bool)
    (h : l.any p = false) : l.find? p = none := by
  induction l with
  | nil => rfl
  | cons e rest ih =>
    have he : p e = false := by
      cases hx : p e
      · rfl
      · simp [List.any_cons, hx] at h
    have h' : rest.any p = false := by simpa [List.any_cons, he] using h
    simpa [List.find?, he] using ih h'

theorem setEdge_edgeW_self (bg : BlockGraph) (u v : String) (wt : ℚ) :
    (bg.setEdge u v wt).edgeW u v = some wt := by
  unfold BlockGraph.setEdge
  dsimp only
  rw [setNode_edges, setNode_edges]
  split
  · next hany =>
    unfold BlockGraph.edgeW
    dsimp only
    rw [find?_replace_same bg.edges u v wt hany]
  · next hany =>
    have hany' : bg.edges.any (fun e => e.v == u && e.w == v) = false := by
      cases hx : bg.edges.any (fun e => e.v == u && e.w == v)
      · rfl
      · exact absurd hx hany
    unfold BlockGraph.edgeW
    dsimp only
    rw [List.find?_append, any_eq_false_find?_none _ _ hany']
    simp [List.find?]

theorem setEdge_edgeW_other (bg : BlockGraph) (u v : String) (wt : ℚ) (a b : String)
    (hne : ¬(a = u ∧ b = v)) :
    (bg.setEdge u v wt).edgeW a b = bg.edgeW a b := by
  unfold BlockGraph.setEdge
  dsimp only
  rw [setNode_edges, setNode_edges]
  split
  · unfold BlockGraph.edgeW
    dsimp only
    rw [find?_replace_other bg.edges u v wt a b hne]
  · unfold BlockGraph.edgeW
    dsimp only
    rw [List.find?_append]
    have hlast : List.find? (fun e => e.v == a && e.w == b) [(⟨u, v, wt⟩ : BEdge)] = none := by
      have : ((⟨u, v, wt⟩ : BEdge).v == a && (⟨u, v, wt⟩ : BEdge).w == b) = false := by
        simp only [Bool.and_eq_false_iff, beq_eq_false_iff_ne, ne_eq]
        by_cases hau : u = a
        · right
          intro hbv
          exact hne ⟨hau.symm, hbv.symm⟩
        · exact Or.inl hau
      simp [List.find?, this]
    rw [hlast]
    cases List.find? (fun e => e.v == a && e.w == b) bg.edges <;> rfl

theorem mem_edges_setEdge_self (bg : BlockGraph) (u v : String) (wt : ℚ) :
    (⟨u, v, wt⟩ : BEdge) ∈ (bg.setEdge u v wt).edges := by
  unfold BlockGraph.setEdge
  dsimp only
  rw [setNode_edges, setNode_edges]
  split
  · next hany =>
    obtain ⟨e, he, hpe⟩ := List.any_eq_true.mp hany
    exact List.mem_map.mpr ⟨e, he, by simp [hpe]⟩
  · exact List.mem_append_right _ (List.mem_singleton.mpr rfl)

theorem mem_edges_setEdge_other (bg : BlockGraph) (u v : String) (wt : ℚ) (e : BEdge)
    (he : e ∈ bg.edges) (hne : ¬(e.v = u ∧ e.w = v)) :
    e ∈ (bg.setEdge u v wt).edges := by
  unfold BlockGraph.setEdge
  dsimp only
  rw [setNode_edges, setNode_edges]
  split
  · refine List.mem_map.mpr ⟨e, he, ?_⟩
    have hpe : (e.v == u && e.w == v) = false := by
      simp only [Bool.and_eq_false_iff, beq_eq_false_iff_ne, ne_eq]
      by_cases h1 : e.v = u
      · exact Or.inr (fun h2 => hne ⟨h1, h2⟩)
      · exact Or.inl h1
    simp [hpe]
  · exact List.mem_append_left _ he

theorem mem_edges_setEdge_elim (bg : BlockGraph) (u v : String) (wt : ℚ) (e : BEdge)
    (he : e ∈ (bg.setEdge u v wt).edges) :
    e = ⟨u, v, wt⟩ ∨ (e ∈ bg.edges ∧ ¬(e.v = u ∧ e.w = v)) := by
  unfold BlockGraph.setEdge at he
  dsimp only at he
  rw [setNode_edges, setNode_edges] at he
  by_cases hany : (bg.edges.any fun e => e.v == u && e.w == v) = true
  · rw [if_pos hany] at he
    obtain ⟨e0, he0, heq⟩ := List.mem_map.mp he
    by_cases hp : (e0.v == u && e0.w == v) = true
    · rw [if_pos hp] at heq
      exact Or.inl heq.symm
    · rw [if_neg hp] at heq
      subst heq
      refine Or.inr ⟨he0, ?_⟩
      intro ⟨h1, h2⟩
      exact hp (by simp [h1, h2])
  · rw [if_neg hany] at he
    rcases List.mem_append.mp he with h | h
    · refine Or.inr ⟨h, ?_⟩
      intro ⟨h1, h2⟩
      have : bg.edges.any (fun e => e.v == u && e.w == v) = true :=
        List.any_eq_true.mpr ⟨e, h, by simp [h1, h2]⟩
      exact hany this
    · exact Or.inl (List.mem_singleton.mp h)

theorem edgeUniq_setEdge (bg : BlockGraph) (u v : String) (wt : ℚ)
    (h : EdgeUniq bg) : EdgeUniq (bg.setEdge u v wt) := by
  intro e he
  rcases mem_edges_setEdge_elim bg u v wt e he with rfl | ⟨he0, hne⟩
  · exact setEdge_edgeW_self bg u v wt
  · rw [setEdge_edgeW_other bg u v wt e.v e.w hne]
    exact h e he0

theorem edgeEnds_setEdge (bg : BlockGraph) (u v : String) (wt : ℚ)
    (h : EdgeEnds bg) : EdgeEnds (bg.setEdge u v wt) := by
  intro e he
  rcases mem_edges_setEdge_elim bg u v wt e he with rfl | ⟨he0, _⟩
  · exact setEdge_nodes_self bg u v wt
  · obtain ⟨h1, h2⟩ := h e he0
    exact ⟨mem_nodes_setEdge _ _ _ _ _ (mem_nodes_setNode _ _ _ (mem_nodes_setNode _ _ _ h1)),
      mem_nodes_setEdge _ _ _ _ _ (mem_nodes_setNode _ _ _ (mem_nodes_setNode _ _ _ h2))⟩

theorem bgle_setEdge (bg : BlockGraph) (u v : String) (wt : ℚ)
    (huniq : EdgeUniq bg) (hup : ∀ q, bg.edgeW u v = some q → q ≤ wt) :
    BGle bg (bg.setEdge u v wt) := by
  intro e he
  by_cases hp : e.v = u ∧ e.w = v
  · have hq : bg.edgeW u v = some e.weight := by
      rw [← hp.1, ← hp.2]
      exact huniq e he
    exact ⟨⟨u, v, wt⟩, mem_edges_setEdge_self bg u v wt, hp.1.symm, hp.2.symm,
      hup e.weight hq⟩
  · exact ⟨e, mem_edges_setEdge_other bg u v wt e he hp, rfl, rfl, le_refl _⟩

theorem bgle_setNode (bg : BlockGraph) (x : String) : BGle bg (bg.setNode x) := by
  intro e he
  rw [setNode_edges]
  exact ⟨e, he, rfl, rfl, le_refl _⟩

theorem edgeUniq_setNode (bg : BlockGraph) (x : String) (h : EdgeUniq bg) :
    EdgeUniq (bg.setNode x) := by
  intro e he
  rw [setNode_edges] at he
  rw [edgeW_setNode]
  exact h e he

theorem edgeEnds_setNode (bg : BlockGraph) (x : String) (h : EdgeEnds bg) :
    EdgeEnds (bg.setNode x) := by
  intro e he
  rw [setNode_edges] at he
  obtain ⟨h1, h2⟩ := h e he
  exact ⟨mem_nodes_setNode _ _ _ h1, mem_nodes_setNode _ _ _ h2⟩

/-- One step of the block-graph walk: invariants are preserved, weights grow,
the walk state becomes `some v`, and a left neighbour contributes an edge of
weight at least the separation. -/
theorem buildBlockGraphStep_spec (g : DGraph) (sepFn : DGraph → String → String → ℚ)
    (root : String → String) (st : BlockGraph × Option String) (v : String)
    (hu : EdgeUniq st.1) (he : EdgeEnds st.1) :
    EdgeUniq (buildBlockGraphStep g sepFn root st v).1 ∧
    EdgeEnds (buildBlockGraphStep g sepFn root st v).1 ∧
    BGle st.1 (buildBlockGraphStep g sepFn root st v).1 ∧
    (buildBlockGraphStep g sepFn root st v).2 = some v ∧
    (∀ u0, st.2 = some u0 →
      ∃ e ∈ (buildBlockGraphStep g sepFn root st v).1.edges,
        e.v = root u0 ∧ e.w = root v ∧ sepFn g v u0 ≤ e.weight) := by
  unfold buildBlockGraphStep
  cases hst : st.2 with
  | none =>
    dsimp only
    refine ⟨edgeUniq_setNode _ _ hu, edgeEnds_setNode _ _ he, bgle_setNode _ _, rfl, ?_⟩
    intro u0 h0
    cases h0
  | some u0 =>
    dsimp only
    have hu1 : EdgeUniq (st.1.setNode (root v)) := edgeUniq_setNode _ _ hu
    have he1 : EdgeEnds (st.1.setNode (root v)) := edgeEnds_setNode _ _ he
    have hup : ∀ q, (st.1.setNode (root v)).edgeW (root u0) (root v) = some q →
        q ≤ max (sepFn g v u0)
          (match (st.1.setNode (root v)).edgeW (root u0) (root v) with
            | some q' => q'
            | none => 0) := by
      intro q hq
      rw [hq]
      exact le_max_right _ _
    refine ⟨edgeUniq_setEdge _ _ _ _ hu1, edgeEnds_setEdge _ _ _ _ he1,
      (bgle_setNode st.1 (root v)).trans' (bgle_setEdge _ _ _ _ hu1 hup), rfl, ?_⟩
    intro u0' h0
    obtain rfl : u0 = u0' := by injection h0
    exact ⟨⟨root u0, root v, _⟩, mem_edges_setEdge_self _ _ _ _, rfl, rfl, le_max_left _ _⟩

/-- Folding one layer: all consecutive pairs of the layer (and the carried-in
left neighbour paired with the layer's head) put suitably weighted edges into
the block graph. -/
theorem buildBlockGraph_layer_spec (g : DGraph) (sepFn : DGraph → String → String → ℚ)
    (root : String → String) :
    ∀ (layer : List String) (st : BlockGraph × Option String),
      EdgeUniq st.1 → EdgeEnds st.1 →
      EdgeUniq (layer.foldl (buildBlockGraphStep g sepFn root) st).1 ∧
      EdgeEnds (layer.foldl (buildBlockGraphStep g sepFn root) st).1 ∧
      BGle st.1 (layer.foldl (buildBlockGraphStep g sepFn root) st).1 ∧
      (∀ i u v, layer.get? i = some u → layer.get? (i+1) = some v →
        ∃ e ∈ (layer.foldl (buildBlockGraphStep g sepFn root) st).1.edges,
          e.v = root u ∧ e.w = root v ∧ sepFn g v u ≤ e.weight) ∧
      (∀ u0 v, st.2 = some u0 → layer.get? 0 = some v →
        ∃ e ∈ (layer.foldl (buildBlockGraphStep g sepFn root) st).1.edges,
          e.v = root u0 ∧ e.w = root v ∧ sepFn g v u0 ≤ e.weight) := by
  intro layer
  induction layer with
  | nil =>
    intro st hu he
    refine ⟨hu, he, BGle.rfl' _, ?_, ?_⟩
    · intro i u v hgu
      simp at hgu
    · intro u0 v _ hgv
      simp at hgv
  | cons x rest ih =>
    intro st hu he
    obtain ⟨hu1, he1, hle1, hst1, hlink1⟩ := buildBlockGraphStep_spec g sepFn root st x hu he
    obtain ⟨hu2, he2, hle2, hpairs2, hlink2⟩ :=
      ih (buildBlockGraphStep g sepFn root st x) hu1 he1
    rw [List.foldl_cons]
    refine ⟨hu2, he2, hle1.trans' hle2, ?_, ?_⟩
    · intro i u v hgu hgv
      cases i with
      | zero =>
        have hux : x = u := by simpa using hgu
        subst hux
        exact hlink2 x v hst1 (by simpa using hgv)
      | succ j =>
        exact hpairs2 j u v (by simpa using hgu) (by simpa using hgv)
    · intro u0 v h0 hgv
      have hvx : x = v := by simpa using hgv
      subst hvx
      obtain ⟨e, hee, h1, h2, h3⟩ := hlink1 u0 h0
      obtain ⟨e', hee', h1', h2', h3'⟩ := hle2 e hee
      exact ⟨e', hee', h1'.trans h1, h2'.trans h2, h3.trans h3'⟩

/-- `buildBlockGraph` invariants and the per-pair weight bound: for every pair
of horizontally adjacent vertices `u`, `v` of any layer, the block graph has
an edge `root u → root v` of weight at least `sep(g, v, u)`. -/
theorem buildBlockGraph_spec (g : DGraph) (layering : List (List String))
    (root : String → String) (reverseSep : Bool) :
    EdgeUniq (buildBlockGraph g layering root reverseSep) ∧
    EdgeEnds (buildBlockGraph g layering root reverseSep) ∧
    ∀ layer ∈ layering, ∀ i u v, layer.get? i = some u → layer.get? (i+1) = some v →
      ∃ e ∈ (buildBlockGraph g layering root reverseSep).edges,
        e.v = root u ∧ e.w = root v ∧
          sep g.nodesep g.edgesep reverseSep g v u ≤ e.weight := by
  unfold buildBlockGraph
  generalize hsep : sep g.nodesep g.edgesep reverseSep = sepFn
  suffices h : ∀ (ls : List (List String)) (bg0 : BlockGraph),
      EdgeUniq bg0 → EdgeEnds bg0 →
      EdgeUniq (ls.foldl
        (fun bg layer => (layer.foldl (buildBlockGraphStep g sepFn root) (bg, none)).1) bg0) ∧
      EdgeEnds (ls.foldl
        (fun bg layer => (layer.foldl (buildBlockGraphStep g sepFn root) (bg, none)).1) bg0) ∧
      BGle bg0 (ls.foldl
        (fun bg layer => (layer.foldl (buildBlockGraphStep g sepFn root) (bg, none)).1) bg0) ∧
      ∀ layer ∈ ls, ∀ i u v, layer.get? i = some u → layer.get? (i+1) = some v →
        ∃ e ∈ (ls.foldl
            (fun bg layer => (layer.foldl (buildBlockGraphStep g sepFn root) (bg, none)).1)
            bg0).edges,
          e.v = root u ∧ e.w = root v ∧ sepFn g v u ≤ e.weight by
    have h0 := h layering ⟨[], []⟩ (fun e he => absurd he (List.not_mem_nil e))
      (fun e he => absurd he (List.not_mem_nil e))
    exact ⟨h0.1, h0.2.1, h0.2.2.2⟩
  intro ls
  induction ls with
  | nil =>
    intro bg0 hu he
    exact ⟨hu, he, BGle.rfl' _, fun layer hl => absurd hl (List.not_mem_nil layer)⟩
  | cons l rest ih =>
    intro bg0 hu he
    obtain ⟨hu1, he1, hle1, hpairs1, _⟩ :=
      buildBlockGraph_layer_spec g sepFn root l (bg0, none) hu he
    obtain ⟨hu2, he2, hle2, hpairs2⟩ :=
      ih (l.foldl (buildBlockGraphStep g sepFn root) (bg0, none)).1 hu1 he1
    rw [List.foldl_cons]
    refine ⟨hu2, he2, hle1.trans' hle2, ?_⟩
    intro layer hl i u v hgu hgv
    rcases List.mem_cons.mp hl with rfl | hl
    · obtain ⟨e, hee, h1, h2, h3⟩ := hpairs1 i u v hgu hgv
      obtain ⟨e', hee', h1', h2', h3'⟩ := hle2 e hee
      exact ⟨e', hee', h1'.trans h1, h2'.trans h2, h3.trans h3'⟩
    · exact hpairs2 layer hl i u v hgu hgv

/-- The final assignment loop of `horizontalCompaction`: block roots keep
their values, untouched keys keep their values, and every vertex in the image
of `align` receives its root's value. -/
theorem hcAssign_spec (root align : String → String)
    (hidem : ∀ v, root (root v) = root v) :
    ∀ (vs : List String) (xs0 : XMap),
      (∀ r, root r = r → xget (hcAssign root align vs xs0) r = xget xs0 r) ∧
      (∀ k, (∀ v0 ∈ vs, align v0 ≠ k) → xget (hcAssign root align vs xs0) k = xget xs0 k) ∧
      (∀ w, (∃ v0 ∈ vs, align v0 = w) →
        xget (hcAssign root align vs xs0) w = xget xs0 (root w)) := by
  intro vs
  induction vs with
  | nil =>
    intro xs0
    refine ⟨fun r _ => rfl, fun k _ => rfl, ?_⟩
    rintro w ⟨v0, hv0, -⟩
    exact absurd hv0 (List.not_mem_nil v0)
  | cons v0 vs ih =>
    intro xs0
    have hfold : hcAssign root align (v0 :: vs) xs0
        = hcAssign root align vs (xset xs0 (align v0) (xget xs0 (root (align v0)))) := rfl
    obtain ⟨ih1, ih2, ih3⟩ := ih (xset xs0 (align v0) (xget xs0 (root (align v0))))
    have f1 : ∀ r, root r = r →
        xget (xset xs0 (align v0) (xget xs0 (root (align v0)))) r = xget xs0 r := by
      intro r hr
      by_cases hrw : r = align v0
      · subst hrw
        rw [xget_xset_self, hr]
      · exact xget_xset_ne _ _ _ _ hrw
    refine ⟨?_, ?_, ?_⟩
    · intro r hr
      rw [hfold, ih1 r hr, f1 r hr]
    · intro k hk
      have hkv : k ≠ align v0 := fun h => hk v0 (List.mem_cons_self _ _) h.symm
      rw [hfold, ih2 k (fun v1 hv1 => hk v1 (List.mem_cons_of_mem _ hv1)),
        xget_xset_ne _ _ _ _ hkv]
    · intro w hw
      by_cases hvs : ∃ v1 ∈ vs, align v1 = w
      · rw [hfold, ih3 w hvs]
        have hroot : root (root w) = root w := hidem w
        by_cases hrw : root w = align v0
        · rw [hrw, xget_xset_self]
          rw [← hrw, hroot]
        · rw [xget_xset_ne _ _ _ _ hrw]
      · obtain ⟨v1, hv1, hal⟩ := hw
        have hv0w : align v0 = w := by
          rcases List.mem_cons.mp hv1 with rfl | hmem
          · exact hal
          · exact absurd ⟨v1, hmem, hal⟩ hvs
        rw [hfold, ih2 w (fun v2 hv2 h2 => hvs ⟨v2, hv2, h2⟩)]
        rw [← hv0w, xget_xset_self, hv0w]

/-! Pass 1: after the depth-first placement sweep, every visited block has a
defined coordinate and every block-graph edge constraint `xs[e.v] + weight ≤
xs[e.w]` holds. -/

/-- Every defined coordinate belongs to a visited block and dominates all its
in-edges. -/
def GOODx (bg : BlockGraph) (s : CState) : Prop :=
  ∀ u x, xget s.xs u = some x → s.visited u ≠ 0 ∧
    ∀ e ∈ bg.edges, e.w = u → ∃ xp, xget s.xs e.v = some xp ∧ xp + e.weight ≤ x

theorem pass1_spec (bg : BlockGraph) (rk : String → ℕ)
    (hrk : ∀ e ∈ bg.edges, rk e.v < rk e.w) :
    ∀ (fuel : ℕ) (v : String) (s : CState), rk v < fuel →
      GOODx bg s →
      (∀ u, s.visited u ≠ 0 → xget s.xs u = none → rk v < rk u) →
      GOODx bg (pass1 bg fuel v s) ∧
      ((pass1 bg fuel v s).visited v ≠ 0 ∧ ∃ x, xget (pass1 bg fuel v s).xs v = some x) ∧
      (∀ u, s.visited u ≠ 0 →
        (pass1 bg fuel v s).visited u = s.visited u ∧
        xget (pass1 bg fuel v s).xs u = xget s.xs u) ∧
      (∀ u, (pass1 bg fuel v s).visited u ≠ 0 → xget (pass1 bg fuel v s).xs u = none →
        s.visited u ≠ 0 ∧ xget s.xs u = none) ∧
      (∀ u, (pass1 bg fuel v s).visited u = s.visited u ∨ (pass1 bg fuel v s).visited u = 1) := by
  intro fuel
  induction fuel with
  | zero =>
    intro v s hf
    exact absurd hf (Nat.not_lt_zero _)
  | succ fuel ih =>
    intro v s hf hgood hstin
    by_cases hv : s.visited v ≠ 0
    · have hs' : pass1 bg (fuel + 1) v s = s := by
        unfold pass1
        rw [if_pos hv]
      rw [hs']
      have hxv : ∃ x, xget s.xs v = some x := by
        cases hx : xget s.xs v with
        | none => exact absurd (hstin v hv hx) (lt_irrefl _)
        | some x => exact ⟨x, rfl⟩
      exact ⟨hgood, ⟨hv, hxv⟩, fun u _ => ⟨rfl, rfl⟩, fun u h1 h2 => ⟨h1, h2⟩,
        fun u => Or.inl rfl⟩
    · have hv0 : s.visited v = 0 := by
        by_contra hc
        exact hv hc
      have hxvnone : xget s.xs v = none := by
        cases hx : xget s.xs v with
        | none => rfl
        | some x => exact absurd ((hgood v x hx).1) (by rw [hv0]; simp)
      have hs' : pass1 bg (fuel + 1) v s
          = (let s1 : CState :=
              { s with visited := fun x => if x = v then 1 else s.visited x }
            let r := (bg.inEdges v).foldl (pass1Step (pass1 bg fuel)) (s1, some 0)
            { r.1 with xs := xset r.1.xs v r.2 }) := by
        unfold pass1
        rw [if_neg hv]
      have hfold : ∀ (es : List BEdge), (∀ e ∈ es, e ∈ bg.edges ∧ e.w = v) →
          ∀ (s0 : CState) (m0 : JQ),
            GOODx bg s0 → s0.visited v ≠ 0 → xget s0.xs v = none →
            (∀ u, u ≠ v → s0.visited u ≠ 0 → xget s0.xs u = none → rk v < rk u) →
            GOODx bg (es.foldl (pass1Step (pass1 bg fuel)) (s0, m0)).1 ∧
            (∀ u, s0.visited u ≠ 0 →
              (es.foldl (pass1Step (pass1 bg fuel)) (s0, m0)).1.visited u = s0.visited u ∧
              xget (es.foldl (pass1Step (pass1 bg fuel)) (s0, m0)).1.xs u = xget s0.xs u) ∧
            (∀ u, (es.foldl (pass1Step (pass1 bg fuel)) (s0, m0)).1.visited u ≠ 0 →
              xget (es.foldl (pass1Step (pass1 bg fuel)) (s0, m0)).1.xs u = none →
              s0.visited u ≠ 0 ∧ xget s0.xs u = none) ∧
            (∀ u, (es.foldl (pass1Step (pass1 bg fuel)) (s0, m0)).1.visited u = s0.visited u ∨
              (es.foldl (pass1Step (pass1 bg fuel)) (s0, m0)).1.visited u = 1) ∧
            (∀ μ0, m0 = some μ0 → ∃ μ,
              (es.foldl (pass1Step (pass1 bg fuel)) (s0, m0)).2 = some μ ∧ μ0 ≤ μ ∧
              ∀ e ∈ es, ∃ xa,
                xget (es.foldl (pass1Step (pass1 bg fuel)) (s0, m0)).1.xs e.v = some xa ∧
                xa + e.weight ≤ μ) := by
        intro es
        induction es with
        | nil =>
          intro _ s0 m0 hg0 _ _ _
          refine ⟨hg0, fun u _ => ⟨rfl, rfl⟩, fun u h1 h2 => ⟨h1, h2⟩, fun u => Or.inl rfl, ?_⟩
          intro μ0 hm0
          exact ⟨μ0, hm0, le_refl _, fun e he => absurd he (List.not_mem_nil e)⟩
        | cons e es ihes =>
          intro hes s0 m0 hg0 hv0' hxv0 hstin0
          have hein : e ∈ bg.edges ∧ e.w = v := hes e (List.mem_cons_self _ _)
          have hrkev : rk e.v < rk v := by
            have := hrk e hein.1
            rw [hein.2] at this
            exact this
          have hrkfuel : rk e.v < fuel := by
            have h1 : rk v < fuel + 1 := hf
            omega
          obtain ⟨hg1, ⟨hvis1, xa, hxa⟩, hc1, hf1, he1⟩ :=
            ih e.v s0 hrkfuel hg0
              (fun u hu hx => by
                by_cases huv : u = v
                · subst huv
                  exact hrkev
                · exact hrkev.trans (hstin0 u huv hu hx))
          have hvfacts : (pass1 bg fuel e.v s0).visited v ≠ 0 ∧
              xget (pass1 bg fuel e.v s0).xs v = none := by
            obtain ⟨h1, h2⟩ := hc1 v hv0'
            rw [h1, h2]
            exact ⟨hv0', hxv0⟩
          have hstep : pass1Step (pass1 bg fuel) (s0, m0) e
              = (pass1 bg fuel e.v s0,
                 jsMax m0 (jsAdd (xget (pass1 bg fuel e.v s0).xs e.v) (some e.weight))) := rfl
          obtain ⟨hg2, hc2, hf2, he2, hm2⟩ :=
            ihes (fun e' he' => hes e' (List.mem_cons_of_mem _ he'))
              (pass1 bg fuel e.v s0)
              (jsMax m0 (jsAdd (xget (pass1 bg fuel e.v s0).xs e.v) (some e.weight)))
              hg1 hvfacts.1 hvfacts.2
              (fun u hu h1 h2 => by
                obtain ⟨h3, h4⟩ := hf1 u h1 h2
                exact hstin0 u hu h3 h4)
          rw [List.foldl_cons, hstep]
          refine ⟨hg2, ?_, ?_, ?_, ?_⟩
          · intro u hu
            obtain ⟨h1, h2⟩ := hc1 u hu
            obtain ⟨h3, h4⟩ := hc2 u (by rw [h1]; exact hu)
            exact ⟨by rw [h3, h1], by rw [h4, h2]⟩
          · intro u h1 h2
            obtain ⟨h3, h4⟩ := hf2 u h1 h2
            exact hf1 u h3 h4
          · intro u
            rcases he2 u with h1 | h1
            · rcases he1 u with h2 | h2
              · exact Or.inl (by rw [h1, h2])
              · exact Or.inr (by rw [h1, h2])
            · exact Or.inr h1
          · intro μ0 hm0
            have hm1 : jsMax m0 (jsAdd (xget (pass1 bg fuel e.v s0).xs e.v) (some e.weight))
                = some (max μ0 (xa + e.weight)) := by
              rw [hm0, hxa]
              rfl
            rw [hm1] at hm2 hc2 ⊢
            obtain ⟨μ, hμ, hμle, hμes⟩ := hm2 (max μ0 (xa + e.weight)) rfl
            refine ⟨μ, hμ, (le_max_left _ _).trans hμle, ?_⟩
            intro e' he'
            rcases List.mem_cons.mp he' with rfl | he'
            · have hkeep := (hc2 e'.v hvis1).2
              refine ⟨xa, ?_, (le_max_right μ0 _).trans hμle⟩
              rw [hkeep]
              exact hxa
            · exact hμes e' he'
      rw [hs']
      dsimp only
      set s1 : CState := { s with visited := fun x => if x = v then 1 else s.visited x }
        with hs1
      have hg1 : GOODx bg s1 := by
        intro u x hx
        obtain ⟨h1, h2⟩ := hgood u x hx
        refine ⟨?_, h2⟩
        show (if u = v then 1 else s.visited u) ≠ 0
        by_cases huv : u = v
        · rw [if_pos huv]
          simp
        · rw [if_neg huv]
          exact h1
      have hv1 : s1.visited v ≠ 0 := by
        show (if v = v then 1 else s.visited v) ≠ 0
        rw [if_pos rfl]
        simp
      have hxv1 : xget s1.xs v = none := hxvnone
      have hstin1 : ∀ u, u ≠ v → s1.visited u ≠ 0 → xget s1.xs u = none → rk v < rk u := by
        intro u hu h1 h2
        have h1' : s.visited u ≠ 0 := by
          have : (if u = v then 1 else s.visited u) ≠ 0 := h1
          rwa [if_neg hu] at this
        exact hstin u h1' h2
      have hmem : ∀ e ∈ bg.inEdges v, e ∈ bg.edges ∧ e.w = v := by
        intro e he
        have h1 := List.mem_filter.mp he
        exact ⟨h1.1, by simpa using h1.2⟩
      obtain ⟨hgF, hcF, hfF, heF, hmF⟩ := hfold (bg.inEdges v) hmem s1 (some 0) hg1 hv1 hxv1 hstin1
      obtain ⟨μ, hμ2, hμ0, hμes⟩ := hmF 0 rfl
      set R := (bg.inEdges v).foldl (pass1Step (pass1 bg fuel)) (s1, some 0) with hRdef
      rw [hμ2]
      have hvS2 : R.1.visited v ≠ 0 := by
        rw [(hcF v hv1).1]
        exact hv1
      have hxS2v : xget R.1.xs v = none := by
        rw [(hcF v hv1).2]
        exact hxv1
      have noSelf : ∀ e ∈ bg.edges, e.w = v → e.v ≠ v := by
        intro e he hew hev
        have := hrk e he
        rw [hew, hev] at this
        exact absurd this (lt_irrefl _)
      refine ⟨?_, ⟨hvS2, μ, by rw [xget_xset_self]⟩, ?_, ?_, ?_⟩
      · intro u x hx
        by_cases huv : u = v
        · subst huv
          rw [xget_xset_self] at hx
          have hxμ : x = μ := by injection hx.symm
          subst hxμ
          refine ⟨hvS2, ?_⟩
          intro e he hew
          have hein : e ∈ bg.inEdges u := by
            refine List.mem_filter.mpr ⟨he, ?_⟩
            simpa using hew
          obtain ⟨xa, hxa, hle⟩ := hμes e hein
          refine ⟨xa, ?_, hle⟩
          rw [xget_xset_ne _ _ _ _ (noSelf e he hew), hxa]
        · rw [xget_xset_ne _ _ _ _ huv] at hx
          obtain ⟨h1, h2⟩ := hgF u x hx
          refine ⟨h1, ?_⟩
          intro e he hew
          obtain ⟨xp, hxp, hle⟩ := h2 e he hew
          have hevv : e.v ≠ v := by
            intro hev
            rw [hev, hxS2v] at hxp
            cases hxp
          refine ⟨xp, ?_, hle⟩
          rw [xget_xset_ne _ _ _ _ hevv]
          exact hxp
      · intro u hu
        have huv : u ≠ v := fun h => hv (by rw [← h]; exact hu)
        have h1 : s1.visited u = s.visited u := by
          show (if u = v then 1 else s.visited u) = s.visited u
          rw [if_neg huv]
        obtain ⟨h3, h4⟩ := hcF u (by rw [h1]; exact hu)
        refine ⟨by rw [h3, h1], ?_⟩
        rw [xget_xset_ne _ _ _ _ huv, h4]
      · intro u h1 h2
        have huv : u ≠ v := by
          intro h
          rw [h, xget_xset_self] at h2
          cases h2
        rw [xget_xset_ne _ _ _ _ huv] at h2
        obtain ⟨h3, h4⟩ := hfF u h1 h2
        have h5 : s1.visited u = s.visited u := by
          show (if u = v then 1 else s.visited u) = s.visited u
          rw [if_neg huv]
        exact ⟨by rw [← h5]; exact h3, h4⟩
      · intro u
        rcases heF u with h1 | h1
        · by_cases huv : u = v
          · subst huv
            refine Or.inr ?_
            rw [h1]
            show (if u = u then 1 else s.visited u) = 1
            rw [if_pos rfl]
          · refine Or.inl ?_
            rw [h1]
            show (if u = v then 1 else s.visited u) = s.visited u
            rw [if_neg huv]
        · exact Or.inr h1
/-- After pass 1's sweep over all block-graph nodes: the coordinate
constraints hold, every node is visited with a defined coordinate, and no
node is left half-processed. -/
theorem compact1_spec (bg : BlockGraph) (rk : String → ℕ)
    (hrk : ∀ e ∈ bg.edges, rk e.v < rk e.w)
    (hbd : ∀ v ∈ bg.nodes, rk v < bg.nodes.length + 1) :
    GOODx bg (compact1 bg ⟨fun _ => 0, []⟩) ∧
    (∀ u, (compact1 bg ⟨fun _ => 0, []⟩).visited u ≠ 0 →
      ∃ x, xget (compact1 bg ⟨fun _ => 0, []⟩).xs u = some x) ∧
    (∀ u, (compact1 bg ⟨fun _ => 0, []⟩).visited u = 0 ∨
      (compact1 bg ⟨fun _ => 0, []⟩).visited u = 1) ∧
    (∀ v ∈ bg.nodes, (compact1 bg ⟨fun _ => 0, []⟩).visited v ≠ 0) := by
  have main : ∀ (ns : List String), (∀ v ∈ ns, v ∈ bg.nodes) → ∀ (s : CState),
      GOODx bg s → (∀ u, s.visited u ≠ 0 → ∃ x, xget s.xs u = some x) →
      (∀ u, s.visited u = 0 ∨ s.visited u = 1) →
      GOODx bg (ns.foldl (fun s v => pass1 bg (bg.nodes.length + 1) v s) s) ∧
      (∀ u, (ns.foldl (fun s v => pass1 bg (bg.nodes.length + 1) v s) s).visited u ≠ 0 →
        ∃ x, xget (ns.foldl (fun s v => pass1 bg (bg.nodes.length + 1) v s) s).xs u = some x) ∧
      (∀ u, (ns.foldl (fun s v => pass1 bg (bg.nodes.length + 1) v s) s).visited u = 0 ∨
        (ns.foldl (fun s v => pass1 bg (bg.nodes.length + 1) v s) s).visited u = 1) ∧
      (∀ u, s.visited u ≠ 0 →
        (ns.foldl (fun s v => pass1 bg (bg.nodes.length + 1) v s) s).visited u ≠ 0) ∧
      (∀ v ∈ ns, (ns.foldl (fun s v => pass1 bg (bg.nodes.length + 1) v s) s).visited v ≠ 0) := by
    intro ns
    induction ns with
    | nil =>
      intro _ s hg hn h01
      exact ⟨hg, hn, h01, fun u hu => hu, fun v hv => absurd hv (List.not_mem_nil v)⟩
    | cons v ns ihn =>
      intro hns s hg hn h01
      obtain ⟨hg1, ⟨hb1, hb2⟩, hc1, hf1, he1⟩ :=
        pass1_spec bg rk hrk (bg.nodes.length + 1) v s
          (hbd v (hns v (List.mem_cons_self _ _))) hg
          (fun u hu hx => absurd (hn u hu) (by rw [hx]; rintro ⟨x, hx'⟩; cases hx'))
      have hn1 : ∀ u, (pass1 bg (bg.nodes.length + 1) v s).visited u ≠ 0 →
          ∃ x, xget (pass1 bg (bg.nodes.length + 1) v s).xs u = some x := by
        intro u hu
        cases hx : xget (pass1 bg (bg.nodes.length + 1) v s).xs u with
        | some x => exact ⟨x, rfl⟩
        | none =>
          obtain ⟨h1, h2⟩ := hf1 u hu hx
          obtain ⟨x, hx'⟩ := hn u h1
          rw [h2] at hx'
          cases hx'
      have h011 : ∀ u, (pass1 bg (bg.nodes.length + 1) v s).visited u = 0 ∨
          (pass1 bg (bg.nodes.length + 1) v s).visited u = 1 := by
        intro u
        rcases he1 u with h | h
        · rw [h]
          exact h01 u
        · exact Or.inr h
      obtain ⟨hg2, hn2, h012, hf2, hv2⟩ :=
        ihn (fun x hx => hns x (List.mem_cons_of_mem _ hx))
          (pass1 bg (bg.nodes.length + 1) v s) hg1 hn1 h011
      rw [List.foldl_cons]
      refine ⟨hg2, hn2, h012, ?_, ?_⟩
      · intro u hu
        exact hf2 u (by rw [(hc1 u hu).1]; exact hu)
      · intro x hx
        rcases List.mem_cons.mp hx with rfl | hx
        · exact hf2 x hb1
        · exact hv2 x hx
  have h0g : GOODx bg (⟨fun _ => 0, []⟩ : CState) := by
    intro u x hx
    cases hx
  obtain ⟨hg, hn, h01, _, hv⟩ := main bg.nodes (fun v hv => hv) ⟨fun _ => 0, []⟩ h0g
    (fun u hu => absurd rfl hu) (fun u => Or.inl rfl)
  exact ⟨hg, hn, h01, hv⟩

/-! Pass 2: the edge constraints survive the right-pulling sweep. -/

/-- Every block-graph node has a defined coordinate. -/
def SOMES (bg : BlockGraph) (s : CState) : Prop :=
  ∀ u ∈ bg.nodes, ∃ x, xget s.xs u = some x

/-- Every block-graph node is visited once or done. -/
def V12 (bg : BlockGraph) (s : CState) : Prop :=
  ∀ u ∈ bg.nodes, s.visited u = 1 ∨ s.visited u = 2

/-- Every block-graph edge constraint holds. -/
def INV2 (bg : BlockGraph) (s : CState) : Prop :=
  ∀ e ∈ bg.edges, ∃ xa xb, xget s.xs e.v = some xa ∧ xget s.xs e.w = some xb ∧
    xa + e.weight ≤ xb

theorem pass2_spec (bg : BlockGraph) (g : DGraph) (bt : String) (rk : String → ℕ)
    (hrk : ∀ e ∈ bg.edges, rk e.v < rk e.w)
    (hend : EdgeEnds bg)
    (hbd : ∀ u ∈ bg.nodes, rk u ≤ bg.nodes.length) :
    ∀ (fuel : ℕ) (v : String) (s : CState), v ∈ bg.nodes →
      bg.nodes.length - rk v < fuel →
      V12 bg s → SOMES bg s → INV2 bg s →
      V12 bg (pass2 bg g bt fuel v s) ∧
      SOMES bg (pass2 bg g bt fuel v s) ∧
      INV2 bg (pass2 bg g bt fuel v s) ∧
      (pass2 bg g bt fuel v s).visited v = 2 ∧
      (∀ u, s.visited u = 2 →
        (pass2 bg g bt fuel v s).visited u = 2 ∧
        xget (pass2 bg g bt fuel v s).xs u = xget s.xs u) ∧
      (∀ u, (pass2 bg g bt fuel v s).visited u = s.visited u ∨
        (pass2 bg g bt fuel v s).visited u = 2) := by
  intro fuel
  induction fuel with
  | zero =>
    intro v s _ hf
    exact absurd hf (Nat.not_lt_zero _)
  | succ fuel ih =>
    intro v s hvmem hf hV hS hI
    by_cases hdone : s.visited v = 2
    · have hs' : pass2 bg g bt (fuel + 1) v s = s := by
        unfold pass2
        rw [if_pos hdone]
      rw [hs']
      exact ⟨hV, hS, hI, hdone, fun u h => ⟨h, rfl⟩, fun u => Or.inl rfl⟩
    · have hv1 : s.visited v = 1 := by
        rcases hV v hvmem with h | h
        · exact h
        · exact absurd h hdone
      have hs' : pass2 bg g bt (fuel + 1) v s
          = (let s1 : CState :=
              { s with visited := fun x => if x = v then s.visited v + 1 else s.visited x }
            let r := (bg.outEdges v).foldl (pass2Step (pass2 bg g bt fuel)) (s1, MinV.inf)
            let s2 := r.1
            if r.2 ≠ MinV.inf ∧ (g.label v).borderType ≠ some bt then
              match r.2 with
              | MinV.val q => { s2 with xs := xset s2.xs v (jsMax (xget s2.xs v) (some q)) }
              | MinV.nan => { s2 with xs := xset s2.xs v none }
              | MinV.inf => s2
            else s2) := by
        unfold pass2
        rw [if_neg hdone]
      have hfold : ∀ (es : List BEdge), (∀ e ∈ es, e ∈ bg.edges ∧ e.v = v) →
          ∀ (s0 : CState) (m0 : MinV),
            V12 bg s0 → SOMES bg s0 → INV2 bg s0 → m0 ≠ MinV.nan →
            V12 bg (es.foldl (pass2Step (pass2 bg g bt fuel)) (s0, m0)).1 ∧
            SOMES bg (es.foldl (pass2Step (pass2 bg g bt fuel)) (s0, m0)).1 ∧
            INV2 bg (es.foldl (pass2Step (pass2 bg g bt fuel)) (s0, m0)).1 ∧
            (∀ u, s0.visited u = 2 →
              (es.foldl (pass2Step (pass2 bg g bt fuel)) (s0, m0)).1.visited u = 2 ∧
              xget (es.foldl (pass2Step (pass2 bg g bt fuel)) (s0, m0)).1.xs u
                = xget s0.xs u) ∧
            (∀ u, (es.foldl (pass2Step (pass2 bg g bt fuel)) (s0, m0)).1.visited u
                = s0.visited u ∨
              (es.foldl (pass2Step (pass2 bg g bt fuel)) (s0, m0)).1.visited u = 2) ∧
            ((es.foldl (pass2Step (pass2 bg g bt fuel)) (s0, m0)).2 ≠ MinV.nan) ∧
            (∀ μ, (es.foldl (pass2Step (pass2 bg g bt fuel)) (s0, m0)).2 = MinV.val μ →
              (∀ e ∈ es, ∃ xq,
                xget (es.foldl (pass2Step (pass2 bg g bt fuel)) (s0, m0)).1.xs e.w
                  = some xq ∧ μ ≤ xq - e.weight) ∧
              (∀ μ0, m0 = MinV.val μ0 → μ ≤ μ0)) := by
        intro es
        induction es with
        | nil =>
          intro _ s0 m0 hV0 hS0 hI0 hm0
          refine ⟨hV0, hS0, hI0, fun u h => ⟨h, rfl⟩, fun u => Or.inl rfl, hm0, ?_⟩
          intro μ hμ
          exact ⟨fun e he => absurd he (List.not_mem_nil e), fun μ0 h0 => by
            rw [h0] at hμ
            injection hμ with h
            rw [h]⟩
        | cons e es ihes =>
          intro hes s0 m0 hV0 hS0 hI0 hm0
          have hein : e ∈ bg.edges ∧ e.v = v := hes e (List.mem_cons_self _ _)
          have hrkew : rk v < rk e.w := by
            have := hrk e hein.1
            rw [hein.2] at this
            exact this
          have hwmem : e.w ∈ bg.nodes := (hend e hein.1).2
          have hfw : bg.nodes.length - rk e.w < fuel := by
            have h1 := hbd e.w hwmem
            have h2 := hbd v hvmem
            omega
          obtain ⟨hV1, hS1, hI1, hd1, hβ1, hε1⟩ := ih e.w s0 hwmem hfw hV0 hS0 hI0
          obtain ⟨xq, hxq⟩ := hS1 e.w hwmem
          have hstep : pass2Step (pass2 bg g bt fuel) (s0, m0) e
              = (pass2 bg g bt fuel e.w s0,
                 jsMinM m0 (jsSub (xget (pass2 bg g bt fuel e.w s0).xs e.w)
                   (some e.weight))) := rfl
          have hm1eq : jsMinM m0 (jsSub (xget (pass2 bg g bt fuel e.w s0).xs e.w)
              (some e.weight)) = jsMinM m0 (some (xq - e.weight)) := by
            rw [hxq]
            rfl
          have hm1ne : jsMinM m0 (some (xq - e.weight)) ≠ MinV.nan := by
            cases m0 with
            | inf => simp [jsMinM]
            | nan => exact absurd rfl hm0
            | val a => simp [jsMinM]
          obtain ⟨hV2, hS2, hI2, hβ2, hε2, hnan2, hval2⟩ :=
            ihes (fun e' he' => hes e' (List.mem_cons_of_mem _ he'))
              (pass2 bg g bt fuel e.w s0)
              (jsMinM m0 (jsSub (xget (pass2 bg g bt fuel e.w s0).xs e.w) (some e.weight)))
              hV1 hS1 hI1 (by rw [hm1eq]; exact hm1ne)
          rw [List.foldl_cons, hstep]
          refine ⟨hV2, hS2, hI2, ?_, ?_, hnan2, ?_⟩
          · intro u hu
            obtain ⟨h1, h2⟩ := hβ1 u hu
            obtain ⟨h3, h4⟩ := hβ2 u h1
            exact ⟨h3, by rw [h4, h2]⟩
          · intro u
            rcases hε2 u with h1 | h1
            · rcases hε1 u with h2 | h2
              · exact Or.inl (by rw [h1, h2])
              · exact Or.inr (by rw [h1, h2])
            · exact Or.inr h1
          · intro μ hμ
            obtain ⟨hes2, hmle2⟩ := hval2 μ hμ
            have hμ1 : μ ≤ xq - e.weight := by
              rw [hm1eq] at hmle2
              cases m0 with
              | inf => exact hmle2 (xq - e.weight) rfl
              | nan => exact absurd rfl hm0
              | val a =>
                have := hmle2 (min a (xq - e.weight)) rfl
                exact this.trans (min_le_right _ _)
            refine ⟨?_, ?_⟩
            · intro e' he'
              rcases List.mem_cons.mp he' with rfl | he'
              · obtain ⟨h3, h4⟩ := hβ2 e'.w hd1
                exact ⟨xq, by rw [h4]; exact hxq, hμ1⟩
              · exact hes2 e' he'
            · intro μ0 h0
              subst h0
              rw [hm1eq] at hmle2
              exact (hmle2 (min μ0 (xq - e.weight)) rfl).trans (min_le_left _ _)
      rw [hs']
      dsimp only
      set s1 : CState :=
        { s with visited := fun x => if x = v then s.visited v + 1 else s.visited x }
        with hs1
      have hV1 : V12 bg s1 := by
        intro u hu
        show (if u = v then s.visited v + 1 else s.visited u) = 1 ∨
          (if u = v then s.visited v + 1 else s.visited u) = 2
        by_cases huv : u = v
        · rw [if_pos huv, hv1]
          exact Or.inr rfl
        · rw [if_neg huv]
          exact hV u hu
      have hS1 : SOMES bg s1 := hS
      have hI1 : INV2 bg s1 := hI
      have hd1 : s1.visited v = 2 := by
        show (if v = v then s.visited v + 1 else s.visited v) = 2
        rw [if_pos rfl, hv1]
      have hmem : ∀ e ∈ bg.outEdges v, e ∈ bg.edges ∧ e.v = v := by
        intro e he
        have h1 := List.mem_filter.mp he
        exact ⟨h1.1, by simpa using h1.2⟩
      obtain ⟨hVF, hSF, hIF, hβF, hεF, hnanF, hvalF⟩ :=
        hfold (bg.outEdges v) hmem s1 MinV.inf hV1 hS1 hI1 (by simp)
      set R := (bg.outEdges v).foldl (pass2Step (pass2 bg g bt fuel)) (s1, MinV.inf)
        with hRdef
      have hdR : R.1.visited v = 2 := (hβF v hd1).1
      have noSelf : ∀ e ∈ bg.edges, e.v ≠ e.w := by
        intro e he hv'
        have := hrk e he
        rw [hv'] at this
        exact absurd this (lt_irrefl _)
      have hβs : ∀ u, s.visited u = 2 → R.1.visited u = 2 ∧ xget R.1.xs u = xget s.xs u := by
        intro u hu
        have huv : u ≠ v := by
          intro h
          rw [h, hv1] at hu
          cases hu
        have h1 : s1.visited u = s.visited u := by
          show (if u = v then s.visited v + 1 else s.visited u) = s.visited u
          rw [if_neg huv]
        exact hβF u (by rw [h1]; exact hu)
      have hεs : ∀ u, R.1.visited u = s.visited u ∨ R.1.visited u = 2 := by
        intro u
        rcases hεF u with h1 | h1
        · by_cases huv : u = v
          · subst huv
            rw [h1, hs1]
            right
            show (if u = u then s.visited u + 1 else s.visited u) = 2
            rw [if_pos rfl, hv1]
          · left
            rw [h1]
            show (if u = v then s.visited v + 1 else s.visited u) = s.visited u
            rw [if_neg huv]
        · exact Or.inr h1
      cases hm : R.2 with
      | nan => exact absurd hm hnanF
      | inf =>
        have hcond : ¬(MinV.inf ≠ MinV.inf ∧ (g.label v).borderType ≠ some bt) := by
          rintro ⟨h1, -⟩
          exact h1 rfl
        rw [if_neg hcond]
        exact ⟨hVF, hSF, hIF, hdR, hβs, hεs⟩
      | val μ =>
        obtain ⟨hesR, -⟩ := hvalF μ hm
        by_cases hbt : (g.label v).borderType ≠ some bt
        · have hcond : (MinV.val μ ≠ MinV.inf ∧ (g.label v).borderType ≠ some bt) :=
            ⟨by simp, hbt⟩
          rw [if_pos hcond]
          dsimp only
          obtain ⟨xv0, hxv0⟩ := hSF v hvmem
          have hmax : jsMax (xget R.1.xs v) (some μ) = some (max xv0 μ) := by
            rw [hxv0]
            rfl
          rw [hmax]
          refine ⟨hVF, ?_, ?_, hdR, ?_, hεs⟩
          · intro u hu
            by_cases huv : u = v
            · subst huv
              exact ⟨max xv0 μ, by rw [xget_xset_self]⟩
            · obtain ⟨x, hx⟩ := hSF u hu
              exact ⟨x, by rw [xget_xset_ne _ _ _ _ huv]; exact hx⟩
          · intro e he
            obtain ⟨xa, xb, hxa, hxb, hle⟩ := hIF e he
            by_cases hev : e.v = v
            · have hew : e.w ≠ v := by
                rw [← hev]
                exact (noSelf e he).symm
              have hxav : xa = xv0 := by
                rw [hev] at hxa
                rw [hxa] at hxv0
                injection hxv0
              have heout : e ∈ bg.outEdges v := by
                refine List.mem_filter.mpr ⟨he, ?_⟩
                simpa using hev
              obtain ⟨xq, hxq, hqle⟩ := hesR e heout
              have hxqb : xq = xb := by
                rw [hxq] at hxb
                injection hxb
              refine ⟨max xv0 μ, xb, ?_, ?_, ?_⟩
              · rw [hev, xget_xset_self]
              · rw [xget_xset_ne _ _ _ _ hew]
                exact hxb
              · have h1 : xv0 + e.weight ≤ xb := by
                  rw [← hxav]
                  exact hle
                have h2 : μ + e.weight ≤ xb := by
                  rw [hxqb] at hqle
                  linarith
                rcases max_choice xv0 μ with hc | hc
                · rw [hc]
                  exact h1
                · rw [hc]
                  exact h2
            · by_cases hew : e.w = v
              · have hxbv : xb = xv0 := by
                  rw [hew] at hxb
                  rw [hxb] at hxv0
                  injection hxv0
                refine ⟨xa, max xv0 μ, ?_, ?_, ?_⟩
                · rw [xget_xset_ne _ _ _ _ hev]
                  exact hxa
                · rw [hew, xget_xset_self]
                · have : xa + e.weight ≤ xv0 := by
                    rw [← hxbv]
                    exact hle
                  exact this.trans (le_max_left _ _)
              · refine ⟨xa, xb, ?_, ?_, hle⟩
                · rw [xget_xset_ne _ _ _ _ hev]
                  exact hxa
                · rw [xget_xset_ne _ _ _ _ hew]
                  exact hxb
          · intro u hu
            obtain ⟨h1, h2⟩ := hβs u hu
            have huv : u ≠ v := by
              intro h
              rw [h, hv1] at hu
              cases hu
            exact ⟨h1, by rw [xget_xset_ne _ _ _ _ huv]; exact h2⟩
        · have hcond : ¬(MinV.val μ ≠ MinV.inf ∧ (g.label v).borderType ≠ some bt) := by
            rintro ⟨-, h2⟩
            exact hbt h2
          rw [if_neg hcond]
          exact ⟨hVF, hSF, hIF, hdR, hβs, hεs⟩

theorem compact2_spec (bg : BlockGraph) (g : DGraph) (bt : String) (rk : String → ℕ)
    (hrk : ∀ e ∈ bg.edges, rk e.v < rk e.w)
    (hend : EdgeEnds bg)
    (hbd : ∀ u ∈ bg.nodes, rk u ≤ bg.nodes.length) :
    ∀ (s : CState), V12 bg s → SOMES bg s → INV2 bg s →
      V12 bg (compact2 bg g bt s) ∧ SOMES bg (compact2 bg g bt s) ∧
      INV2 bg (compact2 bg g bt s) := by
  have main : ∀ (ns : List String), (∀ v ∈ ns, v ∈ bg.nodes) → ∀ (s : CState),
      V12 bg s → SOMES bg s → INV2 bg s →
      V12 bg (ns.foldl (fun s v => pass2 bg g bt (bg.nodes.length + 1) v s) s) ∧
      SOMES bg (ns.foldl (fun s v => pass2 bg g bt (bg.nodes.length + 1) v s) s) ∧
      INV2 bg (ns.foldl (fun s v => pass2 bg g bt (bg.nodes.length + 1) v s) s) := by
    intro ns
    induction ns with
    | nil =>
      intro _ s h1 h2 h3
      exact ⟨h1, h2, h3⟩
    | cons v ns ihn =>
      intro hns s h1 h2 h3
      obtain ⟨hV, hS, hI, -, -, -⟩ :=
        pass2_spec bg g bt rk hrk hend hbd (bg.nodes.length + 1) v s
          (hns v (List.mem_cons_self _ _))
          (by have := Nat.sub_le bg.nodes.length (rk v); omega) h1 h2 h3
      rw [List.foldl_cons]
      exact ihn (fun x hx => hns x (List.mem_cons_of_mem _ hx))
        (pass2 bg g bt (bg.nodes.length + 1) v s) hV hS hI
  intro s h1 h2 h3
  exact main bg.nodes (fun v hv => hv) s h1 h2 h3

/-- C1: for every run of `horizontalCompaction` over an oriented layering with
an acyclic block graph (witnessed by a rank function on its nodes), an
idempotent `root` map and an `align` map covering the layering's vertices, and
for every horizontally adjacent pair `u` (left), `v` (right) of any layer:
the pass-1 coordinates of the two blocks already satisfy
`xs[root v] - xs[root u] ≥ sep(g, v, u)`, and the final coordinates (after
pass 2 and the per-vertex assignment) still satisfy
`xs[v] - xs[u] ≥ sep(g, v, u)`. -/
theorem c1_horizontalCompaction_separation
    (g : DGraph) (layering : List (List String)) (root align : String → String)
    (reverseSep : Bool) (rk : String → ℕ)
    (hrk : ∀ e ∈ (buildBlockGraph g layering root reverseSep).edges, rk e.v < rk e.w)
    (hbd : ∀ u ∈ (buildBlockGraph g layering root reverseSep).nodes,
      rk u ≤ (buildBlockGraph g layering root reverseSep).nodes.length)
    (hidem : ∀ x, root (root x) = root x)
    (layer : List String) (hlayer : layer ∈ layering)
    (i : ℕ) (u v : String)
    (hu : layer.get? i = some u) (hv : layer.get? (i + 1) = some v)
    (hucover : ∃ u0 ∈ layering.flatten, align u0 = u)
    (hvcover : ∃ v0 ∈ layering.flatten, align v0 = v) :
    (∃ yu yv,
      xget (compact1 (buildBlockGraph g layering root reverseSep)
        ⟨fun _ => 0, []⟩).xs (root u) = some yu ∧
      xget (compact1 (buildBlockGraph g layering root reverseSep)
        ⟨fun _ => 0, []⟩).xs (root v) = some yv ∧
      sep g.nodesep g.edgesep reverseSep g v u ≤ yv - yu) ∧
    (∃ xu xv,
      xget (horizontalCompaction g layering root align reverseSep) u = some xu ∧
      xget (horizontalCompaction g layering root align reverseSep) v = some xv ∧
      sep g.nodesep g.edgesep reverseSep g v u ≤ xv - xu) := by
  obtain ⟨huniq, hend, hpairs⟩ := buildBlockGraph_spec g layering root reverseSep
  obtain ⟨e, hee, hev, hew, hsep⟩ := hpairs layer hlayer i u v hu hv
  obtain ⟨hg1, hn1, h011, hvN1⟩ :=
    compact1_spec (buildBlockGraph g layering root reverseSep) rk hrk
      (fun x hx => (hbd x hx).trans_lt (Nat.lt_succ_self _))
  have hV1 : V12 (buildBlockGraph g layering root reverseSep)
      (compact1 (buildBlockGraph g layering root reverseSep) ⟨fun _ => 0, []⟩) := by
    intro x hx
    rcases h011 x with h | h
    · exact absurd h (hvN1 x hx)
    · exact Or.inl h
  have hS1 : SOMES (buildBlockGraph g layering root reverseSep)
      (compact1 (buildBlockGraph g layering root reverseSep) ⟨fun _ => 0, []⟩) :=
    fun x hx => hn1 x (hvN1 x hx)
  have hI1 : INV2 (buildBlockGraph g layering root reverseSep)
      (compact1 (buildBlockGraph g layering root reverseSep) ⟨fun _ => 0, []⟩) := by
    intro e' he'
    obtain ⟨xb, hxb⟩ := hS1 e'.w (hend e' he').2
    obtain ⟨-, h2⟩ := hg1 e'.w xb hxb
    obtain ⟨xp, hxp, hle⟩ := h2 e' he' rfl
    exact ⟨xp, xb, hxp, hxb, hle⟩
  constructor
  · obtain ⟨ya, yb, hya, hyb, hle⟩ := hI1 e hee
    refine ⟨ya, yb, by rw [← hev]; exact hya, by rw [← hew]; exact hyb, ?_⟩
    have := hsep
    linarith
  · obtain ⟨hV2, hS2, hI2⟩ :=
      compact2_spec (buildBlockGraph g layering root reverseSep) g
        (if reverseSep then "borderLeft" else "borderRight") rk hrk hend hbd
        (compact1 (buildBlockGraph g layering root reverseSep) ⟨fun _ => 0, []⟩)
        hV1 hS1 hI1
    obtain ⟨za, zb, hza, hzb, hle2⟩ := hI2 e hee
    obtain ⟨-, -, himg⟩ := hcAssign_spec root align hidem layering.flatten
      (compact2 (buildBlockGraph g layering root reverseSep) g
        (if reverseSep then "borderLeft" else "borderRight")
        (compact1 (buildBlockGraph g layering root reverseSep) ⟨fun _ => 0, []⟩)).xs
    have hfin : horizontalCompaction g layering root align reverseSep
        = hcAssign root align layering.flatten
          (compact2 (buildBlockGraph g layering root reverseSep) g
            (if reverseSep then "borderLeft" else "borderRight")
            (compact1 (buildBlockGraph g layering root reverseSep) ⟨fun _ => 0, []⟩)).xs := rfl
    rw [hfin]
    refine ⟨za, zb, ?_, ?_, ?_⟩
    · rw [himg u hucover, ← hev]
      exact hza
    · rw [himg v hvcover, ← hew]
      exact hzb
    · linarith

/-- The witness instantiation of C1 on the S2 graph: layering `[[a, b]]`,
identity `root`/`align`, block edge `a → b` of weight 100. -/
theorem c1_horizontalCompaction_separation_witness :
    (∃ yu yv,
      xget (compact1 (buildBlockGraph s2Graph [["a", "b"]] (fun x => x) false)
        ⟨fun _ => 0, []⟩).xs "a" = some yu ∧
      xget (compact1 (buildBlockGraph s2Graph [["a", "b"]] (fun x => x) false)
        ⟨fun _ => 0, []⟩).xs "b" = some yv ∧
      sep s2Graph.nodesep s2Graph.edgesep false s2Graph "b" "a" ≤ yv - yu) ∧
    (∃ xu xv,
      xget (horizontalCompaction s2Graph [["a", "b"]] (fun x => x) (fun x => x) false) "a"
        = some xu ∧
      xget (horizontalCompaction s2Graph [["a", "b"]] (fun x => x) (fun x => x) false) "b"
        = some xv ∧
      sep s2Graph.nodesep s2Graph.edgesep false s2Graph "b" "a" ≤ xv - xu) :=
  c1_horizontalCompaction_separation s2Graph [["a", "b"]] (fun x => x) (fun x => x) false
    (fun x => if x = "b" then 1 else 0)
    (by with_unfolding_all decide)
    (by with_unfolding_all decide)
    (fun _ => rfl)
    ["a", "b"] (by simp)
    0 "a" "b" (by decide) (by decide)
    ⟨"a", by simp, rfl⟩ ⟨"b", by simp, rfl⟩

/-! Vertical alignment: blocks are cyclic chains. The invariant below
describes the `root`/`align` state at any point of the layer sweep: the
processed vertices partition into chains of consecutive layers, each chain
closed into a cycle by `align`, rooted at its topmost member. -/

/-- A block chain under state `st`: nonempty, all members rooted at the head,
`align` links successive members one layer apart, and the last member's
`align` closes the cycle back to the head. -/
def ChainOK (layerOf : String → ℕ) (st : VA) (b : List String) : Prop :=
  b ≠ [] ∧
  (∀ x ∈ b, st.root x = b.headI) ∧
  List.Chain' (fun x y => st.align x = y ∧ layerOf y = layerOf x + 1) b ∧
  st.align b.getLastI = b.headI

theorem chain'_layer_get {layerOf : String → ℕ} {st : VA} :
    ∀ (b : List String),
      List.Chain' (fun x y => st.align x = y ∧ layerOf y = layerOf x + 1) b →
      ∀ (i : ℕ) (h : i < b.length), layerOf (b.get ⟨i, h⟩) = layerOf b.headI + i := by
  intro b
  induction b with
  | nil =>
    intro _ i h
    simp at h
  | cons x rest ih =>
    intro hch i h
    cases rest with
    | nil =>
      have hi0 : i = 0 := by simpa using h
      subst hi0
      simp [List.headI]
    | cons y rest' =>
      obtain ⟨hxy, hch'⟩ := List.chain'_cons.mp hch
      cases i with
      | zero => simp [List.headI]
      | succ i' =>
        have h' : i' < (y :: rest').length := by
          simpa using h
        have := ih hch' i' h'
        have hheads : layerOf (y :: rest').headI = layerOf x + 1 := by
          simp [List.headI, hxy.2]
        show layerOf ((y :: rest').get ⟨i', h'⟩) = layerOf (x :: y :: rest').headI + (i' + 1)
        rw [this, hheads]
        simp [List.headI]
        omega

theorem chainOK_layer_mem {layerOf : String → ℕ} {st : VA} {b : List String}
    (hb : ChainOK layerOf st b) :
    ∀ x ∈ b, layerOf b.headI ≤ layerOf x ∧ layerOf x ≤ layerOf b.getLastI := by
  obtain ⟨hne, -, hch, -⟩ := hb
  intro x hx
  obtain ⟨⟨i, hi⟩, hget⟩ := List.mem_iff_get.mp hx
  have h1 := chain'_layer_get b hch i hi
  have hlt : b.length - 1 < b.length := by
    cases b
    · exact absurd rfl hne
    · simp
  have hlast : b.getLastI = b.get ⟨b.length - 1, hlt⟩ := by
    cases b with
    | nil => exact absurd rfl hne
    | cons x rest =>
      rw [List.getLastI_eq_getLast?, List.getLast?_eq_getLast _ (by simp)]
      simp only [Option.iget_some]
      rw [List.getLast_eq_getElem]
      simp [List.get_eq_getElem]
  have h2 := chain'_layer_get b hch (b.length - 1) hlt
  rw [hget] at h1
  constructor
  · omega
  · rw [hlast, h2]
    have : i ≤ b.length - 1 := by omega
    omega

theorem chainOK_nodup {layerOf : String → ℕ} {st : VA} {b : List String}
    (hb : ChainOK layerOf st b) : b.Nodup := by
  obtain ⟨-, -, hch, -⟩ := hb
  rw [List.nodup_iff_injective_get]
  intro ⟨i, hi⟩ ⟨j, hj⟩ hij
  have h1 := chain'_layer_get b hch i hi
  have h2 := chain'_layer_get b hch j hj
  have : layerOf (b.get ⟨i, hi⟩) = layerOf (b.get ⟨j, hj⟩) := by rw [hij]
  rw [h1, h2] at this
  have : i = j := by omega
  simp [this]

theorem chainOK_layer_inj {layerOf : String → ℕ} {st : VA} {b : List String}
    (hb : ChainOK layerOf st b) :
    ∀ x ∈ b, ∀ y ∈ b, layerOf x = layerOf y → x = y := by
  obtain ⟨-, -, hch, -⟩ := hb
  intro x hx y hy hxy
  obtain ⟨⟨i, hi⟩, hgx⟩ := List.mem_iff_get.mp hx
  obtain ⟨⟨j, hj⟩, hgy⟩ := List.mem_iff_get.mp hy
  have h1 := chain'_layer_get b hch i hi
  have h2 := chain'_layer_get b hch j hj
  rw [hgx] at h1
  rw [hgy] at h2
  have : i = j := by omega
  rw [← hgx, ← hgy]
  simp [this]

theorem getLastI_mem {b : List String} (hne : b ≠ []) : b.getLastI ∈ b := by
  cases b with
  | nil => exact absurd rfl hne
  | cons x rest =>
    rw [List.getLastI_eq_getLast?, List.getLast?_eq_getLast _ (by simp)]
    exact List.getLast_mem _

theorem headI_mem {b : List String} (hne : b ≠ []) : b.headI ∈ b := by
  cases b with
  | nil => exact absurd rfl hne
  | cons x rest => simp [List.headI]

theorem headI_eq_get {b : List String} (hne : b ≠ []) :
    b.headI = b.get ⟨0, List.length_pos.mpr hne⟩ := by
  cases b with
  | nil => exact absurd rfl hne
  | cons x rest => rfl

theorem getLastI_eq_get {b : List String} (hlt : b.length - 1 < b.length) :
    b.getLastI = b.get ⟨b.length - 1, hlt⟩ := by
  cases b with
  | nil => simp at hlt
  | cons x rest =>
    rw [List.getLastI_eq_getLast?, List.getLast?_eq_getLast _ (by simp)]
    simp only [Option.iget_some]
    rw [List.getLast_eq_getElem]
    simp [List.get_eq_getElem]

theorem headI_append_left {b l : List String} (hne : b ≠ []) :
    (b ++ l).headI = b.headI := by
  cases b with
  | nil => exact absurd rfl hne
  | cons x rest => rfl

theorem getLastI_concat {l : List String} {v : String} : (l ++ [v]).getLastI = v := by
  rw [List.getLastI_eq_getLast?, List.getLast?_concat]

theorem flatten_map_singleton (V : List String) :
    (V.map (fun v => [v])).flatten = V := by
  induction V with
  | nil => rfl
  | cons x rest ih => simp [ih]

theorem chainOK_single {layerOf : String → ℕ} {st : VA} {v : String}
    (hr : st.root v = v) (ha : st.align v = v) : ChainOK layerOf st [v] := by
  refine ⟨by simp, ?_, by simp, ?_⟩
  · intro x hx
    simp only [List.mem_singleton] at hx
    subst hx
    simpa [List.headI] using hr
  · rw [List.getLastI_eq_getLast?]
    simpa [List.headI] using ha

theorem chainOK_align_get {layerOf : String → ℕ} {st : VA} {b : List String}
    (hb : ChainOK layerOf st b) (j : ℕ) (hj : j < b.length) :
    st.align (b.get ⟨j, hj⟩) =
      b.get ⟨(j + 1) % b.length, Nat.mod_lt _ (Nat.lt_of_le_of_lt (Nat.zero_le j) hj)⟩ := by
  obtain ⟨hne, -, hch, hcl⟩ := hb
  rcases Nat.lt_or_ge j (b.length - 1) with hj1 | hj1
  · have hmod : (j + 1) % b.length = j + 1 := Nat.mod_eq_of_lt (by omega)
    have hfe : (⟨(j + 1) % b.length, Nat.mod_lt _ (Nat.lt_of_le_of_lt (Nat.zero_le j) hj)⟩ :
        Fin b.length) = ⟨j + 1, by omega⟩ := Fin.ext hmod
    rw [hfe]
    exact (List.chain'_iff_get.mp hch j (by omega)).1
  · have hj2 : j = b.length - 1 := by omega
    have hmod : (j + 1) % b.length = 0 := by
      rw [show j + 1 = b.length by omega, Nat.mod_self]
    have hfe : (⟨(j + 1) % b.length, Nat.mod_lt _ (Nat.lt_of_le_of_lt (Nat.zero_le j) hj)⟩ :
        Fin b.length) = ⟨0, List.length_pos.mpr hne⟩ := Fin.ext hmod
    rw [hfe, ← headI_eq_get hne]
    have hg : b.get ⟨j, hj⟩ = b.getLastI := by
      rw [getLastI_eq_get (show b.length - 1 < b.length by omega)]
      exact congrArg b.get (Fin.ext hj2)
    rw [hg, hcl]

theorem chainOK_align_self {layerOf : String → ℕ} {st : VA} {b : List String} {v : String}
    (hb : ChainOK layerOf st b) (hv : v ∈ b) (ha : st.align v = v) : b = [v] := by
  have hnd := chainOK_nodup hb
  obtain ⟨⟨j, hj⟩, hg⟩ := List.mem_iff_get.mp hv
  have hstep := chainOK_align_get hb j hj
  rw [hg, ha, ← hg] at hstep
  have hfin := List.nodup_iff_injective_get.mp hnd hstep
  have hjj : j = (j + 1) % b.length := congrArg Fin.val hfin
  have hlen1 : b.length = 1 := by
    by_contra hne1
    rcases Nat.lt_or_ge j (b.length - 1) with h | h
    · have : (j + 1) % b.length = j + 1 := Nat.mod_eq_of_lt (by omega)
      omega
    · have : (j + 1) % b.length = 0 := by
        rw [show j + 1 = b.length by omega, Nat.mod_self]
      omega
  obtain ⟨a, rfl⟩ := List.length_eq_one.mp hlen1
  simp only [List.mem_singleton] at hv
  rw [hv]

theorem chainOK_congr {layerOf : String → ℕ} {st st' : VA} {b : List String}
    (hr : ∀ x ∈ b, st'.root x = st.root x) (ha : ∀ x ∈ b, st'.align x = st.align x)
    (hb : ChainOK layerOf st b) : ChainOK layerOf st' b := by
  obtain ⟨hne, hroot, hch, hcl⟩ := hb
  refine ⟨hne, ?_, ?_, ?_⟩
  · intro x hx
    rw [hr x hx]
    exact hroot x hx
  · rw [List.chain'_iff_get] at hch ⊢
    intro i h
    obtain ⟨h1, h2⟩ := hch i h
    refine ⟨?_, h2⟩
    rw [ha _ (List.get_mem _ _ _)]
    exact h1
  · rw [ha _ (getLastI_mem hne)]
    exact hcl

theorem chainOK_penult_layer {layerOf : String → ℕ} {st : VA} {b : List String}
    (hb : ChainOK layerOf st b) (h2 : 2 ≤ b.length) :
    layerOf b.dropLast.getLastI + 1 = layerOf b.getLastI ∧ b.dropLast.getLastI ∈ b := by
  have hch := hb.2.2.1
  have hld : b.dropLast.length = b.length - 1 := List.length_dropLast b
  have hlt1 : b.length - 1 < b.length := by omega
  have hlt2 : b.length - 2 < b.length := by omega
  have hpen : b.dropLast.getLastI = b.get ⟨b.length - 2, hlt2⟩ := by
    rw [getLastI_eq_get (show b.dropLast.length - 1 < b.dropLast.length by omega)]
    have hfe : (⟨b.dropLast.length - 1, by omega⟩ : Fin b.dropLast.length) =
        ⟨b.length - 2, by omega⟩ := by
      rw [Fin.mk_eq_mk]
      omega
    rw [hfe]
    simp [List.get_eq_getElem, List.getElem_dropLast]
  constructor
  · rw [hpen, getLastI_eq_get hlt1,
      chain'_layer_get b hch _ hlt2, chain'_layer_get b hch _ hlt1]
    omega
  · rw [hpen]
    exact List.get_mem _ _ _

theorem chainOK_extend {layerOf : String → ℕ} {st : VA} {bw : List String} {v w rw0 : String}
    (hb : ChainOK layerOf st bw)
    (hlast : bw.getLastI = w)
    (hvnot : v ∉ bw)
    (hlv : layerOf v = layerOf w + 1)
    (hrw : rw0 = st.root w) :
    ChainOK layerOf ⟨updFun st.root v rw0, updFun (updFun st.align w v) v rw0⟩ (bw ++ [v]) := by
  have hndb := chainOK_nodup hb
  obtain ⟨hne, hroot, hch, hcl⟩ := hb
  have hwmem : w ∈ bw := hlast ▸ getLastI_mem hne
  have hwv : w ≠ v := fun h => hvnot (h ▸ hwmem)
  have hhead : (bw ++ [v]).headI = bw.headI := headI_append_left hne
  refine ⟨by simp, ?_, ?_, ?_⟩
  · intro x hx
    rw [hhead]
    rcases List.mem_append.mp hx with hx | hx
    · have hxv : x ≠ v := fun h => hvnot (h ▸ hx)
      show updFun st.root v rw0 x = _
      simp only [updFun, if_neg hxv]
      exact hroot x hx
    · simp only [List.mem_singleton] at hx
      subst hx
      show updFun st.root x rw0 x = _
      simp only [updFun, if_pos rfl]
      rw [hrw]
      exact hroot w hwmem
  · refine List.chain'_append.mpr ⟨?_, by simp, ?_⟩
    · rw [List.chain'_iff_get] at hch ⊢
      intro i hi
      obtain ⟨h1, h2⟩ := hch i hi
      refine ⟨?_, h2⟩
      have hib : i < bw.length := by omega
      have hxmem : bw.get ⟨i, hib⟩ ∈ bw := List.get_mem _ _ _
      have hxv : bw.get ⟨i, hib⟩ ≠ v := fun h => hvnot (h ▸ hxmem)
      have hxw : bw.get ⟨i, hib⟩ ≠ w := by
        intro h
        have hw2 : bw.get ⟨bw.length - 1, by omega⟩ = w := by
          rw [← getLastI_eq_get (show bw.length - 1 < bw.length by omega)]
          exact hlast
        have := List.nodup_iff_injective_get.mp hndb (h.trans hw2.symm)
        have := congrArg Fin.val this
        simp at this
        omega
      show (updFun (updFun st.align w v) v rw0) (bw.get ⟨i, hib⟩) = _
      simp only [updFun, if_neg hxv, if_neg hxw]
      exact h1
    · intro x hxl y hy
      simp only [List.head?_cons, Option.mem_def, Option.some.injEq] at hy
      have hxw : x = w := by
        have hsome : bw.getLast? = some x := hxl
        have : bw.getLastI = x := by
          rw [List.getLastI_eq_getLast?, hsome]
        rw [← this, hlast]
      constructor
      · show (updFun (updFun st.align w v) v rw0) x = y
        rw [hxw]
        simp only [updFun, if_neg hwv, if_pos rfl, if_true]
        exact hy
      · rw [← hy, hxw, hlv]
  · rw [getLastI_concat, hhead]
    show (updFun (updFun st.align w v) v rw0) v = bw.headI
    simp only [updFun, if_pos rfl]
    rw [hrw]
    exact hroot w hwmem

/-- The sweep invariant of `verticalAlignment` at current layer index `t` with
current `prevIdx`: the layering's vertices `V` partition into closed chains,
every chain of length at least 2 ends at a layer index at most `t`, and such a
chain ending exactly at layer `t` has its next-to-last vertex at a position at
most `prevIdx`. -/
def VaInv (layerOf pos : String → ℕ) (V : List String) (t : ℕ) (prevIdx : ℤ)
    (st : VA) : Prop :=
  ∃ B : List (List String),
    (∀ b ∈ B, ChainOK layerOf st b) ∧
    B.flatten.Perm V ∧
    (∀ b ∈ B, 2 ≤ b.length → layerOf b.getLastI ≤ t) ∧
    (∀ b ∈ B, 2 ≤ b.length → layerOf b.getLastI = t →
      (pos b.dropLast.getLastI : ℤ) ≤ prevIdx)

theorem va_median_step_inv {layerOf pos : String → ℕ} {V : List String} {t : ℕ}
    {conflicts : Conflicts} {v : String} {ws : List String} {p : VA × ℤ} {i : ℕ}
    (hndV : V.Nodup) (hvV : v ∈ V) (hlv : layerOf v = t)
    (hws : ∀ w ∈ ws, 1 ≤ t ∧ layerOf w = t - 1 ∧ w ∈ V)
    (hinv : VaInv layerOf pos V t p.2 p.1) :
    VaInv layerOf pos V t (vaMedianStep conflicts pos v ws p i).2
      (vaMedianStep conflicts pos v ws p i).1 := by
  rcases hg : ws.get? i with _ | w
  · simpa only [vaMedianStep, hg] using hinv
  · simp only [vaMedianStep, hg]
    by_cases hcond : p.1.align v = v ∧ p.2 < (pos w : ℤ) ∧
        hasConflict conflicts v w = false
    · rw [if_pos hcond]
      obtain ⟨ha, hpi, -⟩ := hcond
      obtain ⟨ht1, hlw, hwV⟩ := hws w (List.get?_mem hg)
      obtain ⟨B, hCH, hperm, hB4, hB5⟩ := hinv
      have hndB : B.flatten.Nodup := (hperm.nodup_iff).mpr hndV
      have hwB : w ∈ B.flatten := hperm.mem_iff.mpr hwV
      obtain ⟨bw, hbwB, hwbw⟩ := List.mem_flatten.mp hwB
      have hCHw := hCH bw hbwB
      have hlastw : bw.getLastI = w := by
        rcases Nat.lt_or_ge bw.length 2 with h1 | h2
        · have hpos := List.length_pos.mpr hCHw.1
          have hlen1 : bw.length = 1 := by omega
          obtain ⟨a, rfl⟩ := List.length_eq_one.mp hlen1
          simp only [List.mem_singleton] at hwbw
          rw [List.getLastI_eq_getLast?]
          simp [hwbw]
        · have hle := hB4 bw hbwB h2
          have hmem := chainOK_layer_mem hCHw w hwbw
          rcases Nat.lt_or_ge (layerOf bw.getLastI) t with hlt | hge
          · exact chainOK_layer_inj hCHw bw.getLastI (getLastI_mem hCHw.1) w hwbw
              (by omega)
          · have heq : layerOf bw.getLastI = t := by omega
            have hb5 := hB5 bw hbwB h2 heq
            obtain ⟨hpl, hpmem⟩ := chainOK_penult_layer hCHw h2
            have hpw : bw.dropLast.getLastI = w :=
              chainOK_layer_inj hCHw _ hpmem w hwbw (by omega)
            rw [hpw] at hb5
            omega
      have hvB : v ∈ B.flatten := hperm.mem_iff.mpr hvV
      obtain ⟨bv, hbvB, hvbv⟩ := List.mem_flatten.mp hvB
      have hbv1 : bv = [v] := chainOK_align_self (hCH bv hbvB) hvbv ha
      have hvnotbw : v ∉ bw := by
        intro hmem
        have hb1 := chainOK_align_self hCHw hmem ha
        rw [hb1] at hwbw
        simp only [List.mem_singleton] at hwbw
        rw [hwbw] at hlw
        omega
      obtain ⟨B1, B2, hsplitB⟩ := List.append_of_mem hbwB
      have hbvB12 : bv ∈ B1 ++ B2 := by
        rw [hsplitB] at hbvB
        rcases List.mem_append.mp hbvB with h | h
        · exact List.mem_append.mpr (Or.inl h)
        · rcases List.mem_cons.mp h with h | h
          · exact absurd (h ▸ hvbv) hvnotbw
          · exact List.mem_append.mpr (Or.inr h)
      obtain ⟨C1, C2, hsplitC⟩ := List.append_of_mem hbvB12
      have hflat : B.flatten = B1.flatten ++ (bw ++ B2.flatten) := by
        rw [hsplitB]
        simp
      have hflat2 : B1.flatten ++ B2.flatten = C1.flatten ++ v :: C2.flatten := by
        have h := congrArg List.flatten hsplitC
        simpa [List.flatten_append, List.flatten_cons, hbv1] using h
      have hnd' : (B1.flatten ++ (bw ++ B2.flatten)).Nodup := hflat ▸ hndB
      have hd1 : List.Disjoint B1.flatten (bw ++ B2.flatten) :=
        List.disjoint_of_nodup_append hnd'
      have hnd'' : (bw ++ B2.flatten).Nodup := (List.nodup_append.mp hnd').2.1
      have hd2 : List.Disjoint bw B2.flatten := List.disjoint_of_nodup_append hnd''
      have hsub : (B1.flatten ++ B2.flatten).Sublist (B1.flatten ++ (bw ++ B2.flatten)) :=
        (List.Sublist.refl B1.flatten).append (List.sublist_append_right bw B2.flatten)
      have hnd12 : (B1.flatten ++ B2.flatten).Nodup := hnd'.sublist hsub
      have hndC : (C1.flatten ++ v :: C2.flatten).Nodup := hflat2 ▸ hnd12
      have hvC1 : v ∉ C1.flatten := by
        intro hm
        exact (List.disjoint_of_nodup_append hndC) hm (List.mem_cons_self v _)
      have hvC2 : v ∉ C2.flatten := by
        have := (List.nodup_append.mp hndC).2.1
        exact (List.nodup_cons.mp this).1
      have hwB1 : w ∉ B1.flatten := fun hm =>
        hd1 hm (List.mem_append.mpr (Or.inl hwbw))
      have hwB2 : w ∉ B2.flatten := fun hm => hd2 hwbw hm
      have hw12 : w ∉ C1.flatten ++ v :: C2.flatten := by
        rw [← hflat2]
        intro hm
        rcases List.mem_append.mp hm with hm | hm
        · exact hwB1 hm
        · exact hwB2 hm
      have hwC1 : w ∉ C1.flatten := fun hm => hw12 (List.mem_append.mpr (Or.inl hm))
      have hwC2 : w ∉ C2.flatten := fun hm =>
        hw12 (List.mem_append.mpr (Or.inr (List.mem_cons_of_mem v hm)))
      have hmemB : ∀ b ∈ C1 ++ C2, b ∈ B := by
        intro b hb
        rw [hsplitB]
        rcases List.mem_append.mp hb with h | h
        · have : b ∈ C1 ++ bv :: C2 := List.mem_append.mpr (Or.inl h)
          rw [← hsplitC] at this
          rcases List.mem_append.mp this with h' | h'
          · exact List.mem_append.mpr (Or.inl h')
          · exact List.mem_append.mpr (Or.inr (List.mem_cons_of_mem bw h'))
        · have : b ∈ C1 ++ bv :: C2 :=
            List.mem_append.mpr (Or.inr (List.mem_cons_of_mem bv h))
          rw [← hsplitC] at this
          rcases List.mem_append.mp this with h' | h'
          · exact List.mem_append.mpr (Or.inl h')
          · exact List.mem_append.mpr (Or.inr (List.mem_cons_of_mem bw h'))
      have hfresh : ∀ b ∈ C1 ++ C2, ∀ x ∈ b, x ≠ v ∧ x ≠ w := by
        intro b hb x hx
        rcases List.mem_append.mp hb with h | h
        · have hxf : x ∈ C1.flatten := List.mem_flatten.mpr ⟨b, h, hx⟩
          exact ⟨fun he => hvC1 (he ▸ hxf), fun he => hwC1 (he ▸ hxf)⟩
        · have hxf : x ∈ C2.flatten := List.mem_flatten.mpr ⟨b, h, hx⟩
          exact ⟨fun he => hvC2 (he ▸ hxf), fun he => hwC2 (he ▸ hxf)⟩
      refine ⟨(bw ++ [v]) :: (C1 ++ C2), ?_, ?_, ?_, ?_⟩
      · intro b hb
        rcases List.mem_cons.mp hb with hb | hb
        · subst hb
          exact chainOK_extend hCHw hlastw hvnotbw (by omega) rfl
        · refine chainOK_congr ?_ ?_ (hCH b (hmemB b hb))
          · intro x hx
            obtain ⟨hxv, -⟩ := hfresh b hb x hx
            show updFun p.1.root v (p.1.root w) x = _
            simp only [updFun, if_neg hxv]
          · intro x hx
            obtain ⟨hxv, hxw⟩ := hfresh b hb x hx
            show updFun (updFun p.1.align w v) v (p.1.root w) x = _
            simp only [updFun, if_neg hxv, if_neg hxw]
      · have hp1 : List.Perm (B1.flatten ++ (bw ++ B2.flatten))
            (bw ++ (B1.flatten ++ B2.flatten)) := by
          rw [← List.append_assoc, ← List.append_assoc]
          exact List.perm_append_comm.append_right B2.flatten
        have hmid : List.Perm (v :: (C1.flatten ++ C2.flatten))
            (B1.flatten ++ B2.flatten) := by
          rw [hflat2]
          exact List.perm_middle.symm
        have hfl' : ((bw ++ [v]) :: (C1 ++ C2)).flatten =
            bw ++ (v :: (C1.flatten ++ C2.flatten)) := by
          simp
        have hpB : List.Perm ((bw ++ [v]) :: (C1 ++ C2)).flatten B.flatten := by
          rw [hfl', hflat]
          exact List.Perm.trans (List.Perm.append_left bw hmid) hp1.symm
        exact hpB.trans hperm
      · intro b hb h2
        rcases List.mem_cons.mp hb with hb | hb
        · subst hb
          rw [getLastI_concat, hlv]
        · exact hB4 b (hmemB b hb) h2
      · intro b hb h2 hend
        rcases List.mem_cons.mp hb with hb | hb
        · subst hb
          rw [List.dropLast_concat, hlastw]
        · have := hB5 b (hmemB b hb) h2 hend
          omega
    · rw [if_neg hcond]
      exact hinv

theorem va_median_fold_inv {layerOf pos : String → ℕ} {V : List String} {t : ℕ}
    {conflicts : Conflicts} {v : String} {ws : List String}
    (hndV : V.Nodup) (hvV : v ∈ V) (hlv : layerOf v = t)
    (hws : ∀ w ∈ ws, 1 ≤ t ∧ layerOf w = t - 1 ∧ w ∈ V) :
    ∀ (is : List ℕ) (p : VA × ℤ), VaInv layerOf pos V t p.2 p.1 →
      VaInv layerOf pos V t ((is.foldl (vaMedianStep conflicts pos v ws) p).2)
        ((is.foldl (vaMedianStep conflicts pos v ws) p).1) := by
  intro is
  induction is with
  | nil => exact fun p h => h
  | cons j rest ih =>
    intro p h
    exact ih _ (va_median_step_inv hndV hvV hlv hws h)

theorem va_vertex_step_inv {layerOf pos : String → ℕ} {V : List String} {t : ℕ}
    {conflicts : Conflicts} {nf : String → List String} {v : String} {p : VA × ℤ}
    (hndV : V.Nodup) (hvV : v ∈ V) (hlv : layerOf v = t)
    (hnf : ∀ w ∈ nf v, 1 ≤ t ∧ layerOf w = t - 1 ∧ w ∈ V)
    (hinv : VaInv layerOf pos V t p.2 p.1) :
    VaInv layerOf pos V t ((vaVertexStep conflicts pos nf p v).2)
      ((vaVertexStep conflicts pos nf p v).1) := by
  simp only [vaVertexStep]
  by_cases he : (nf v).isEmpty = true
  · rw [if_pos he]
    exact hinv
  · rw [if_neg he]
    refine va_median_fold_inv hndV hvV hlv ?_ _ p hinv
    intro w hw
    exact hnf w ((List.mergeSort_perm (nf v) _).mem_iff.mp hw)

theorem va_layer_fold_inv {layerOf pos : String → ℕ} {V : List String} {t : ℕ}
    {conflicts : Conflicts} {nf : String → List String}
    (hndV : V.Nodup) :
    ∀ (layer : List String) (p : VA × ℤ),
      (∀ v ∈ layer, layerOf v = t ∧ v ∈ V ∧
        ∀ w ∈ nf v, 1 ≤ t ∧ layerOf w = t - 1 ∧ w ∈ V) →
      VaInv layerOf pos V t p.2 p.1 →
      VaInv layerOf pos V t
        ((layer.foldl (vaVertexStep conflicts pos nf) p).2)
        ((layer.foldl (vaVertexStep conflicts pos nf) p).1) := by
  intro layer
  induction layer with
  | nil => exact fun p _ h => h
  | cons v rest ih =>
    intro p hc h
    obtain ⟨h1, h2, h3⟩ := hc v (List.mem_cons_self v rest)
    exact ih _ (fun u hu => hc u (List.mem_cons_of_mem v hu))
      (va_vertex_step_inv hndV h2 h1 h3 h)

theorem va_inv_advance {layerOf pos : String → ℕ} {V : List String} {t : ℕ}
    {pI : ℤ} {st : VA} (h : VaInv layerOf pos V t pI st) :
    VaInv layerOf pos V (t + 1) (-1) st := by
  obtain ⟨B, hCH, hperm, hB4, hB5⟩ := h
  exact ⟨B, hCH, hperm,
    fun b hb h2 => le_trans (hB4 b hb h2) (by omega),
    fun b hb h2 hend => absurd (hB4 b hb h2) (by omega)⟩

theorem va_outer_inv {layerOf pos : String → ℕ} {V : List String}
    {conflicts : Conflicts} {nf : String → List String}
    (hndV : V.Nodup) :
    ∀ (Ls : List (List String)) (t0 : ℕ) (st : VA),
      (∀ i l, Ls.get? i = some l → ∀ v ∈ l, layerOf v = t0 + i ∧ v ∈ V ∧
        ∀ w ∈ nf v, 1 ≤ t0 + i ∧ layerOf w = t0 + i - 1 ∧ w ∈ V) →
      VaInv layerOf pos V t0 (-1) st →
      ∃ t' p', VaInv layerOf pos V t' p'
        (Ls.foldl (vaLayerStep conflicts pos nf) st) := by
  intro Ls
  induction Ls with
  | nil => exact fun t0 st _ h => ⟨t0, -1, h⟩
  | cons l rest ih =>
    intro t0 st hc h
    have hc0 := hc 0 l rfl
    have hstep : VaInv layerOf pos V t0
        ((l.foldl (vaVertexStep conflicts pos nf) (st, -1)).2)
        (vaLayerStep conflicts pos nf st l) := by
      exact va_layer_fold_inv hndV l (st, -1)
        (fun v hv => by simpa using hc0 v hv) h
    have hadv := va_inv_advance hstep
    refine ih (t0 + 1) _ ?_ hadv
    intro i l' hgi v hv
    obtain ⟨h1, h2, h3⟩ := hc (i + 1) l' (by simpa using hgi) v hv
    refine ⟨by omega, h2, ?_⟩
    intro w hw
    obtain ⟨g1, g2, g3⟩ := h3 w hw
    exact ⟨by omega, by omega, g3⟩

theorem va_inv_init {layerOf pos : String → ℕ} (V : List String) :
    VaInv layerOf pos V 0 (-1) ⟨fun v => v, fun v => v⟩ := by
  refine ⟨V.map (fun v => [v]), ?_, ?_, ?_, ?_⟩
  · intro b hb
    obtain ⟨v, hv, rfl⟩ := List.mem_map.mp hb
    exact chainOK_single rfl rfl
  · rw [flatten_map_singleton]
  · intro b hb h2
    obtain ⟨v, hv, rfl⟩ := List.mem_map.mp hb
    simp at h2
  · intro b hb h2
    obtain ⟨v, hv, rfl⟩ := List.mem_map.mp hb
    simp at h2

theorem chainOK_iterate_get {layerOf : String → ℕ} {st : VA} {b : List String}
    (hb : ChainOK layerOf st b) :
    ∀ (m j : ℕ) (hj : j < b.length),
      st.align^[m] (b.get ⟨j, hj⟩) =
        b.get ⟨(j + m) % b.length, Nat.mod_lt _ (Nat.lt_of_le_of_lt (Nat.zero_le j) hj)⟩ := by
  intro m
  induction m with
  | zero =>
    intro j hj
    simp only [Function.iterate_zero, id]
    exact congrArg b.get (Fin.mk_eq_mk.mpr (by simp [Nat.mod_eq_of_lt hj]))
  | succ m ih =>
    intro j hj
    rw [Function.iterate_succ_apply', ih j hj, chainOK_align_get hb _ _]
    exact congrArg b.get (Fin.mk_eq_mk.mpr (by rw [Nat.mod_add_mod, Nat.add_assoc]))

theorem chainOK_cycle {layerOf : String → ℕ} {st : VA} {b : List String}
    (hb : ChainOK layerOf st b) :
    (∀ x ∈ b, st.align^[b.length] x = x) ∧
    (∀ x ∈ b, ∀ i : ℕ, st.align^[i] x ∈ b) ∧
    (∀ x ∈ b, ∀ y ∈ b, ∃ i, i < b.length ∧ st.align^[i] x = y) ∧
    (∀ x ∈ b, ∀ i j : ℕ, i < b.length → j < b.length →
      st.align^[i] x = st.align^[j] x → i = j) := by
  have hnd := chainOK_nodup hb
  refine ⟨?_, ?_, ?_, ?_⟩
  · intro x hx
    obtain ⟨⟨jx, hjx⟩, hgx⟩ := List.mem_iff_get.mp hx
    rw [← hgx, chainOK_iterate_get hb b.length jx hjx]
    exact congrArg b.get
      (Fin.mk_eq_mk.mpr (by rw [Nat.add_mod_right, Nat.mod_eq_of_lt hjx]))
  · intro x hx i
    obtain ⟨⟨jx, hjx⟩, hgx⟩ := List.mem_iff_get.mp hx
    rw [← hgx, chainOK_iterate_get hb i jx hjx]
    exact List.get_mem _ _ _
  · intro x hx y hy
    obtain ⟨⟨jx, hjx⟩, hgx⟩ := List.mem_iff_get.mp hx
    obtain ⟨⟨jy, hjy⟩, hgy⟩ := List.mem_iff_get.mp hy
    refine ⟨(jy + b.length - jx) % b.length,
      Nat.mod_lt _ (Nat.lt_of_le_of_lt (Nat.zero_le jx) hjx), ?_⟩
    rw [← hgx, chainOK_iterate_get hb _ jx hjx, ← hgy]
    refine congrArg b.get (Fin.mk_eq_mk.mpr ?_)
    rw [Nat.add_mod_mod, show jx + (jy + b.length - jx) = jy + b.length by omega,
      Nat.add_mod_right, Nat.mod_eq_of_lt hjy]
  · intro x hx i j hi hj hij
    obtain ⟨⟨jx, hjx⟩, hgx⟩ := List.mem_iff_get.mp hx
    rw [← hgx, chainOK_iterate_get hb i jx hjx, chainOK_iterate_get hb j jx hjx] at hij
    have hfin := List.nodup_iff_injective_get.mp hnd hij
    have hval : (jx + i) % b.length = (jx + j) % b.length := congrArg Fin.val hfin
    have hmeq : Nat.ModEq b.length i j :=
      Nat.ModEq.add_left_cancel' jx hval
    have : i % b.length = j % b.length := hmeq
    rw [Nat.mod_eq_of_lt hi, Nat.mod_eq_of_lt hj] at this
    exact this

/-- C5: for every graph, conflict store, oriented layering with pairwise
distinct vertices (`layerOf` naming each vertex's layer index), and neighbour
function sending each layer-`i` vertex to layer-`i-1` vertices, the pair
`(root, align)` returned by `verticalAlignment` satisfies
`root (root v) = root v` and `root (align v) = root v` for every layering
vertex `v`, and the layering's vertices partition into blocks on each of which
`align` forms a single cycle: iterating `align` from any member stays in the
block, returns to the start after exactly block-size steps, reaches every
member, and never repeats within one lap; moreover `root` is constantly the
block's first member and distinct members lie on distinct layers. -/
theorem c5_verticalAlignment_blocks
    (g : DGraph) (layering : List (List String)) (conflicts : Conflicts)
    (neighborFn : String → List String) (layerOf : String → ℕ)
    (hnd : layering.flatten.Nodup)
    (hlay : ∀ i l, layering.get? i = some l → ∀ v ∈ l, layerOf v = i)
    (hnf : ∀ i l, layering.get? i = some l → ∀ v ∈ l, ∀ w ∈ neighborFn v,
      ∃ l', 1 ≤ i ∧ layering.get? (i - 1) = some l' ∧ w ∈ l') :
    (∀ v ∈ layering.flatten,
      (verticalAlignment g layering conflicts neighborFn).root
        ((verticalAlignment g layering conflicts neighborFn).root v) =
      (verticalAlignment g layering conflicts neighborFn).root v) ∧
    (∀ v ∈ layering.flatten,
      (verticalAlignment g layering conflicts neighborFn).root
        ((verticalAlignment g layering conflicts neighborFn).align v) =
      (verticalAlignment g layering conflicts neighborFn).root v) ∧
    ∃ B : List (List String), B.flatten.Perm layering.flatten ∧
      ∀ b ∈ B,
        (∀ x ∈ b,
          (verticalAlignment g layering conflicts neighborFn).root x = b.headI) ∧
        (∀ x ∈ b, ∀ i : ℕ,
          (verticalAlignment g layering conflicts neighborFn).align^[i] x ∈ b) ∧
        (∀ x ∈ b,
          (verticalAlignment g layering conflicts neighborFn).align^[b.length] x = x) ∧
        (∀ x ∈ b, ∀ y ∈ b, ∃ i, i < b.length ∧
          (verticalAlignment g layering conflicts neighborFn).align^[i] x = y) ∧
        (∀ x ∈ b, ∀ i j : ℕ, i < b.length → j < b.length →
          (verticalAlignment g layering conflicts neighborFn).align^[i] x =
            (verticalAlignment g layering conflicts neighborFn).align^[j] x → i = j) ∧
        (∀ x ∈ b, ∀ y ∈ b, layerOf x = layerOf y → x = y) := by
  have hcond : ∀ i l, layering.get? i = some l → ∀ v ∈ l,
      layerOf v = 0 + i ∧ v ∈ layering.flatten ∧
      ∀ w ∈ neighborFn v, 1 ≤ 0 + i ∧ layerOf w = 0 + i - 1 ∧
        w ∈ layering.flatten := by
    intro i l hgi v hv
    refine ⟨by rw [Nat.zero_add]; exact hlay i l hgi v hv, ?_, ?_⟩
    · exact List.mem_flatten.mpr ⟨l, List.get?_mem hgi, hv⟩
    · intro w hw
      obtain ⟨l', h1, h2, h3⟩ := hnf i l hgi v hv w hw
      refine ⟨by omega, ?_, List.mem_flatten.mpr ⟨l', List.get?_mem h2, h3⟩⟩
      rw [Nat.zero_add]
      exact hlay (i - 1) l' h2 w h3
  obtain ⟨t', p', hinv⟩ :=
    @va_outer_inv layerOf (posOf layering) layering.flatten conflicts neighborFn
      hnd layering 0 ⟨fun v => v, fun v => v⟩ hcond (va_inv_init layering.flatten)
  have hva : layering.foldl (vaLayerStep conflicts (posOf layering) neighborFn)
      ⟨fun v => v, fun v => v⟩ = verticalAlignment g layering conflicts neighborFn := rfl
  rw [hva] at hinv
  obtain ⟨B, hCH, hperm, -, -⟩ := hinv
  refine ⟨?_, ?_, B, hperm, ?_⟩
  · intro v hv
    obtain ⟨b, hbB, hvb⟩ := List.mem_flatten.mp (hperm.mem_iff.mpr hv)
    have hCb := hCH b hbB
    rw [hCb.2.1 v hvb, hCb.2.1 b.headI (headI_mem hCb.1)]
  · intro v hv
    obtain ⟨b, hbB, hvb⟩ := List.mem_flatten.mp (hperm.mem_iff.mpr hv)
    have hCb := hCH b hbB
    have hmem1 : (verticalAlignment g layering conflicts neighborFn).align v ∈ b := by
      have := (chainOK_cycle hCb).2.1 v hvb 1
      simpa using this
    rw [hCb.2.1 _ hmem1, hCb.2.1 v hvb]
  · intro b hbB
    have hCb := hCH b hbB
    obtain ⟨hret, hmem, hreach, hinj⟩ := chainOK_cycle hCb
    exact ⟨hCb.2.1, hmem, hret, hreach, hinj, chainOK_layer_inj hCb⟩

/-- A two-layer layering for exercising `verticalAlignment`. -/
def c5layering : List (List String) := [["a"], ["b"]]

/-- Neighbour function for `c5layering`: the sole predecessor of b is a. -/
def c5nf : String → List String := fun v => if v = "b" then ["a"] else []

/-- Layer index of each `c5layering` vertex. -/
def c5lo : String → ℕ := fun v => if v = "b" then 1 else 0

theorem c5_verticalAlignment_blocks_witness :
    (∀ v ∈ c5layering.flatten,
      (verticalAlignment s2Graph c5layering [] c5nf).root
        ((verticalAlignment s2Graph c5layering [] c5nf).root v) =
      (verticalAlignment s2Graph c5layering [] c5nf).root v) ∧
    (∀ v ∈ c5layering.flatten,
      (verticalAlignment s2Graph c5layering [] c5nf).root
        ((verticalAlignment s2Graph c5layering [] c5nf).align v) =
      (verticalAlignment s2Graph c5layering [] c5nf).root v) ∧
    ∃ B : List (List String), B.flatten.Perm c5layering.flatten ∧
      ∀ b ∈ B,
        (∀ x ∈ b,
          (verticalAlignment s2Graph c5layering [] c5nf).root x = b.headI) ∧
        (∀ x ∈ b, ∀ i : ℕ,
          (verticalAlignment s2Graph c5layering [] c5nf).align^[i] x ∈ b) ∧
        (∀ x ∈ b,
          (verticalAlignment s2Graph c5layering [] c5nf).align^[b.length] x = x) ∧
        (∀ x ∈ b, ∀ y ∈ b, ∃ i, i < b.length ∧
          (verticalAlignment s2Graph c5layering [] c5nf).align^[i] x = y) ∧
        (∀ x ∈ b, ∀ i j : ℕ, i < b.length → j < b.length →
          (verticalAlignment s2Graph c5layering [] c5nf).align^[i] x =
            (verticalAlignment s2Graph c5layering [] c5nf).align^[j] x → i = j) ∧
        (∀ x ∈ b, ∀ y ∈ b, c5lo x = c5lo y → x = y) := by
  refine c5_verticalAlignment_blocks s2Graph c5layering [] c5nf c5lo
    (by with_unfolding_all decide) ?_ ?_
  · intro i l h v hv
    rcases i with _ | _ | i
    · rw [show c5layering.get? 0 = some ["a"] from rfl] at h
      injection h with h
      subst h
      simp only [List.mem_singleton] at hv
      subst hv
      with_unfolding_all decide
    · rw [show c5layering.get? 1 = some ["b"] from rfl] at h
      injection h with h
      subst h
      simp only [List.mem_singleton] at hv
      subst hv
      with_unfolding_all decide
    · rw [show c5layering.get? (i + 2) = none from rfl] at h
      cases h
  · intro i l h v hv w hw
    rcases i with _ | _ | i
    · rw [show c5layering.get? 0 = some ["a"] from rfl] at h
      injection h with h
      subst h
      simp only [List.mem_singleton] at hv
      subst hv
      rw [show c5nf "a" = [] from by with_unfolding_all decide] at hw
      cases hw
    · rw [show c5layering.get? 1 = some ["b"] from rfl] at h
      injection h with h
      subst h
      simp only [List.mem_singleton] at hv
      subst hv
      rw [show c5nf "b" = ["a"] from by with_unfolding_all decide] at hw
      simp only [List.mem_singleton] at hw
      subst hw
      exact ⟨["a"], by omega, rfl, by simp⟩
    · rw [show c5layering.get? (i + 2) = none from rfl] at h
      cases h

/-! A state-threaded rendering of the same pipeline, for the frame effect of
`positionX` on its input graph. Every access the source makes to `g` —
`g.node(v)`, `g.predecessors(v)`, `g.successors(v)`, `g.graph()`, `g.nodes()`
— becomes a primitive that consumes the current graph state and returns the
next one, and each function threads that state through its calls in source
order. The rendering computes the same coordinate map as the direct one, and
the graph state it returns is the one it was given: the module performs reads
only. -/

/-- `g.node(v)` as a state transition. -/
def nodeT (g : DGraph) (v : String) : NodeLabel × DGraph := (g.label v, g)

/-- `g.predecessors(v)` as a state transition. -/
def predsT (g : DGraph) (v : String) : List String × DGraph := (g.preds v, g)

/-- `g.successors(v)` as a state transition. -/
def succsT (g : DGraph) (v : String) : List String × DGraph := (g.succs v, g)

/-- `g.graph()` as a state transition: the graph-level attributes read by this
module (`nodesep`, `edgesep`, `align`). -/
def graphLabelT (g : DGraph) : (ℚ × ℚ × Option String) × DGraph :=
  ((g.nodesep, g.edgesep, g.galign), g)

/-- Threading a fold: when every step returns the graph it was given, the
whole fold does, and its value component is the direct fold. -/
theorem foldl_thread {α β : Type} (g : DGraph) (f : α → β → α)
    (fT : α × DGraph → β → α × DGraph)
    (h : ∀ a b, fT (a, g) b = (f a b, g)) :
    ∀ (l : List β) (a : α), l.foldl fT (a, g) = (l.foldl f a, g) := by
  intro l
  induction l with
  | nil => intro a; rfl
  | cons b rest ih =>
    intro a
    rw [List.foldl_cons, List.foldl_cons, h a b]
    exact ih (f a b)

/-- `sep(nodeSep, edgeSep, reverseSep)(g, v, w)`, threaded. -/
def sepT (nodeSep edgeSep : ℚ) (reverseSep : Bool) (g : DGraph) (v w : String) :
    ℚ × DGraph :=
  let pv := nodeT g v
  let vLabel := pv.1
  let pw := nodeT pv.2 w
  let wLabel := pw.1
  let sum0 : ℚ := vLabel.width / 2
  let delta1 : ℚ :=
    match vLabel.labelpos with
    | some lp =>
      if lp.toLower = "l" then -vLabel.width / 2
      else if lp.toLower = "r" then vLabel.width / 2 else 0
    | none => 0
  let sum1 := if delta1 ≠ 0 then sum0 + (if reverseSep then delta1 else -delta1) else sum0
  let sum2 := sum1 + (if vLabel.dummy.isSome then edgeSep else nodeSep) / 2
  let sum3 := sum2 + (if wLabel.dummy.isSome then edgeSep else nodeSep) / 2
  let sum4 := sum3 + wLabel.width / 2
  let delta2 : ℚ :=
    match wLabel.labelpos with
    | some lp =>
      if lp.toLower = "l" then wLabel.width / 2
      else if lp.toLower = "r" then -wLabel.width / 2 else 0
    | none => 0
  (if delta2 ≠ 0 then sum4 + (if reverseSep then delta2 else -delta2) else sum4, pw.2)

theorem sepT_run (nodeSep edgeSep : ℚ) (reverseSep : Bool) (g : DGraph)
    (v w : String) :
    sepT nodeSep edgeSep reverseSep g v w = (sep nodeSep edgeSep reverseSep g v w, g) :=
  rfl

/-- `width(g, v)`, threaded. -/
def widthT (g : DGraph) (v : String) : ℚ × DGraph :=
  let p := nodeT g v
  (p.1.width, p.2)

theorem widthT_run (g : DGraph) (v : String) : widthT g v = (width g v, g) := rfl

/-- The `_.find` over predecessors inside `findOtherInnerSegmentNode`,
threaded: test each candidate's label in order. -/
def findDummyPredT : DGraph → List String → Option String × DGraph
  | g, [] => (none, g)
  | g, u :: rest =>
    let p := nodeT g u
    if p.1.dummy.isSome then (some u, p.2) else findDummyPredT p.2 rest

theorem findDummyPredT_run (g : DGraph) :
    ∀ l : List String,
      findDummyPredT g l = (l.find? (fun u => (g.label u).dummy.isSome), g) := by
  intro l
  induction l with
  | nil => rfl
  | cons u rest ih =>
    show findDummyPredT g (u :: rest) = _
    rw [findDummyPredT]
    by_cases hd : ((g.label u).dummy.isSome : Bool)
    · simp [nodeT, hd, List.find?]
    · simp only [nodeT, Bool.not_eq_true] at hd
      simp [nodeT, hd, List.find?, ih]

/-- `findOtherInnerSegmentNode`, threaded. -/
def findOtherInnerSegmentNodeT (g : DGraph) (v : String) : Option String × DGraph :=
  let p := nodeT g v
  if p.1.dummy.isSome then
    let q := predsT p.2 v
    findDummyPredT q.2 q.1
  else (none, p.2)

theorem findOtherInnerSegmentNodeT_run (g : DGraph) (v : String) :
    findOtherInnerSegmentNodeT g v = (findOtherInnerSegmentNode g v, g) := by
  rw [findOtherInnerSegmentNodeT, findOtherInnerSegmentNode]
  by_cases hd : ((g.label v).dummy.isSome : Bool)
  · simp only [nodeT, predsT, hd, if_pos]
    exact findDummyPredT_run g (g.preds v)
  · simp only [nodeT, predsT, Bool.not_eq_true] at hd ⊢
    simp [hd]

/-- The predecessor check of `findType1Conflicts`, threaded. -/
def type1PredStepT (k0 k1 : ℕ) (scanNode : String) (p : Conflicts × DGraph)
    (u : String) : Conflicts × DGraph :=
  let q := nodeT p.2 u
  let uLabel := q.1
  let uPos := uLabel.order
  let r := nodeT q.2 scanNode
  if (uPos < k0 ∨ k1 < uPos) ∧ ¬(uLabel.dummy.isSome ∧ r.1.dummy.isSome) then
    (addConflict p.1 u scanNode, r.2)
  else (p.1, r.2)

theorem ite_pair {α β : Type} (c : Prop) [Decidable c] (a b : α) (g : β) :
    (if c then (a, g) else (b, g)) = ((if c then a else b), g) := by
  by_cases h : c
  · rw [if_pos h, if_pos h]
  · rw [if_neg h, if_neg h]

theorem type1PredStepT_run (g : DGraph) (k0 k1 : ℕ) (scanNode : String)
    (c : Conflicts) (u : String) :
    type1PredStepT k0 k1 scanNode (c, g) u = (type1PredStep g k0 k1 scanNode c u, g) := by
  rw [type1PredStepT, type1PredStep]
  exact ite_pair _ _ _ _

/-- The `scanNode` loop of `findType1Conflicts`, threaded. -/
def type1ScanStepT (k0 k1 : ℕ) (p : Conflicts × DGraph) (scanNode : String) :
    Conflicts × DGraph :=
  let q := predsT p.2 scanNode
  q.1.foldl (type1PredStepT k0 k1 scanNode) (p.1, q.2)

theorem type1ScanStepT_run (g : DGraph) (k0 k1 : ℕ) (c : Conflicts)
    (scanNode : String) :
    type1ScanStepT k0 k1 (c, g) scanNode = (type1ScanStep g k0 k1 c scanNode, g) := by
  rw [type1ScanStepT, type1ScanStep]
  exact foldl_thread g _ _ (fun a b => type1PredStepT_run g k0 k1 scanNode a b) _ c

/-- One enumerated step of `visitLayer` in `findType1Conflicts`, threaded. -/
def visitLayer1StepT (prevLayerLength : ℕ) (layer : List String)
    (lastNode : Option String) (st : (Conflicts × ℕ × ℕ) × DGraph) (iv : ℕ × String) :
    (Conflicts × ℕ × ℕ) × DGraph :=
  let c := st.1.1
  let k0 := st.1.2.1
  let scanPos := st.1.2.2
  let i := iv.1
  let v := iv.2
  let wp := findOtherInnerSegmentNodeT st.2 v
  let w := wp.1
  let kp : ℕ × DGraph := match w with
    | some w' =>
      let r := nodeT wp.2 w'
      (r.1.order, r.2)
    | none => (prevLayerLength, wp.2)
  let k1 := kp.1
  if w.isSome ∨ some v = lastNode then
    let r := ((layer.drop scanPos).take (i + 1 - scanPos)).foldl
      (type1ScanStepT k0 k1) (c, kp.2)
    ((r.1, k1, i + 1), r.2)
  else ((c, k0, scanPos), kp.2)

theorem visitLayer1StepT_run (g : DGraph) (pll : ℕ) (layer : List String)
    (lastNode : Option String) (s : Conflicts × ℕ × ℕ) (iv : ℕ × String) :
    visitLayer1StepT pll layer lastNode (s, g) iv =
      (visitLayer1Step g pll layer lastNode s iv, g) := by
  obtain ⟨c, k0, sp⟩ := s
  rw [visitLayer1StepT, visitLayer1Step]
  simp only [findOtherInnerSegmentNodeT_run]
  cases hw : findOtherInnerSegmentNode g iv.2 with
  | none =>
    by_cases hc : ((Option.none : Option String).isSome = true ∨ some iv.2 = lastNode)
    · rw [if_pos hc, if_pos hc]
      rw [foldl_thread g _ _ (fun a b => type1ScanStepT_run g k0 pll a b)]
    · rw [if_neg hc, if_neg hc]
  | some w' =>
    dsimp only [nodeT]
    by_cases hc : ((Option.some w').isSome = true ∨ some iv.2 = lastNode)
    · rw [if_pos hc, if_pos hc]
      rw [foldl_thread g _ _
        (fun a b => type1ScanStepT_run g k0 ((g.label w').order) a b)]
    · rw [if_neg hc, if_neg hc]

/-- `visitLayer` of `findType1Conflicts`, threaded. -/
def visitLayer1T (prevLayer layer : List String) (p : Conflicts × DGraph) :
    Conflicts × DGraph :=
  let r := layer.enum.foldl (visitLayer1StepT prevLayer.length layer layer.getLast?)
    ((p.1, 0, 0), p.2)
  (r.1.1, r.2)

theorem visitLayer1T_run (g : DGraph) (prevLayer layer : List String) (c : Conflicts) :
    visitLayer1T prevLayer layer (c, g) = (visitLayer1 g prevLayer layer c, g) := by
  rw [visitLayer1T, visitLayer1]
  rw [foldl_thread g _ _
    (fun a b => visitLayer1StepT_run g prevLayer.length layer layer.getLast? a b)]

/-- `findType1Conflicts`, threaded. -/
def findType1ConflictsT (layering : List (List String)) (g : DGraph) :
    Conflicts × DGraph :=
  (layering.zip layering.tail).foldl (fun p pl => visitLayer1T pl.1 pl.2 p) ([], g)

theorem findType1ConflictsT_run (g : DGraph) (layering : List (List String)) :
    findType1ConflictsT layering g = (findType1Conflicts g layering, g) := by
  rw [findType1ConflictsT, findType1Conflicts]
  exact foldl_thread g _ _ (fun a b => visitLayer1T_run g b.1 b.2 a) _ []

/-- The predecessor check of `scan` in `findType2Conflicts`, threaded. -/
def type2PredStepT (prevNorthBorder : Option ℤ) (nextNorthBorder : ℤ) (v : String)
    (p : Conflicts × DGraph) (u : String) : Conflicts × DGraph :=
  let q := nodeT p.2 u
  let uNode := q.1
  if uNode.dummy.isSome ∧
      (jsLtOptZ (uNode.order : ℤ) prevNorthBorder ∨
        (uNode.order : ℤ) > nextNorthBorder) then
    (addConflict p.1 u v, q.2)
  else (p.1, q.2)

theorem type2PredStepT_run (g : DGraph) (prevNB : Option ℤ) (nextNB : ℤ)
    (v : String) (c : Conflicts) (u : String) :
    type2PredStepT prevNB nextNB v (c, g) u = (type2PredStep g prevNB nextNB v c u, g) := by
  rw [type2PredStepT, type2PredStep]
  exact ite_pair _ _ _ _

/-- `scan` in `findType2Conflicts`, threaded. -/
def scan2T (south : List String) (southPos southEnd : ℕ)
    (prevNorthBorder : Option ℤ) (nextNorthBorder : ℤ) (p : Conflicts × DGraph) :
    Conflicts × DGraph :=
  (List.range' southPos (southEnd - southPos)).foldl
    (fun p i =>
      match south.get? i with
      | none => p
      | some v =>
        let q := nodeT p.2 v
        if q.1.dummy.isSome then
          let r := predsT q.2 v
          r.1.foldl (type2PredStepT prevNorthBorder nextNorthBorder v) (p.1, r.2)
        else (p.1, q.2)) p

theorem scan2T_run (g : DGraph) (south : List String) (southPos southEnd : ℕ)
    (prevNB : Option ℤ) (nextNB : ℤ) (c : Conflicts) :
    scan2T south southPos southEnd prevNB nextNB (c, g) =
      (scan2 g south southPos southEnd prevNB nextNB c, g) := by
  rw [scan2T, scan2]
  refine foldl_thread g _ _ ?_ _ c
  intro a i
  cases hg : south.get? i with
  | none => rfl
  | some v =>
    dsimp only [nodeT, predsT]
    by_cases hd : ((g.label v).dummy.isSome = true)
    · rw [if_pos hd, if_pos hd]
      exact foldl_thread g _ _ (fun a' b => type2PredStepT_run g prevNB nextNB v a' b) _ a
    · rw [if_neg hd, if_neg hd]

/-- One enumerated step of `visitLayer` in `findType2Conflicts`, threaded. -/
def visitLayer2StepT (north south : List String)
    (st : (Conflicts × ℤ × Option ℤ × ℕ) × DGraph) (iv : ℕ × String) :
    (Conflicts × ℤ × Option ℤ × ℕ) × DGraph :=
  let c := st.1.1
  let prevNorthPos := st.1.2.1
  let nextNorthPos := st.1.2.2.1
  let southPos := st.1.2.2.2
  let southLookahead := iv.1
  let v := iv.2
  let q := nodeT st.2 v
  if q.1.dummy = some "border" then
    let pr := predsT q.2 v
    match pr.1 with
    | [] =>
      let r := scan2T south southPos south.length nextNorthPos (north.length : ℤ) (c, pr.2)
      ((r.1, prevNorthPos, nextNorthPos, southPos), r.2)
    | p :: _ =>
      let pn := nodeT pr.2 p
      let nextNorthPos' := (pn.1.order : ℤ)
      let r1 := scan2T south southPos southLookahead (some prevNorthPos) nextNorthPos'
        (c, pn.2)
      let southPos' := southLookahead
      let prevNorthPos' := nextNorthPos'
      let r2 := scan2T south southPos' south.length (some nextNorthPos')
        (north.length : ℤ) r1
      ((r2.1, prevNorthPos', some nextNorthPos', southPos'), r2.2)
  else
    let r := scan2T south southPos south.length nextNorthPos (north.length : ℤ) (c, q.2)
    ((r.1, prevNorthPos, nextNorthPos, southPos), r.2)

theorem visitLayer2StepT_run (g : DGraph) (north south : List String)
    (s : Conflicts × ℤ × Option ℤ × ℕ) (iv : ℕ × String) :
    visitLayer2StepT north south (s, g) iv = (visitLayer2Step g north south s iv, g) := by
  obtain ⟨c, pnp, nnp, sp⟩ := s
  obtain ⟨sl, v⟩ := iv
  rw [visitLayer2StepT, visitLayer2Step]
  dsimp only [nodeT, predsT]
  by_cases hb : (g.label v).dummy = some "border"
  · rw [if_pos hb, if_pos hb]
    cases hp : g.preds v with
    | nil =>
      dsimp only
      rw [scan2T_run]
    | cons p rest =>
      dsimp only [nodeT]
      rw [scan2T_run, scan2T_run]
  · rw [if_neg hb, if_neg hb]
    rw [scan2T_run]

/-- `visitLayer` of `findType2Conflicts`, threaded. -/
def visitLayer2T (north south : List String) (p : Conflicts × DGraph) :
    Conflicts × DGraph :=
  let r := south.enum.foldl (visitLayer2StepT north south) ((p.1, -1, none, 0), p.2)
  (r.1.1, r.2)

theorem visitLayer2T_run (g : DGraph) (north south : List String) (c : Conflicts) :
    visitLayer2T north south (c, g) = (visitLayer2 g north south c, g) := by
  rw [visitLayer2T, visitLayer2]
  rw [foldl_thread g _ _ (fun a b => visitLayer2StepT_run g north south a b)]

/-- `findType2Conflicts`, threaded. -/
def findType2ConflictsT (layering : List (List String)) (g : DGraph) :
    Conflicts × DGraph :=
  (layering.zip layering.tail).foldl (fun p pl => visitLayer2T pl.1 pl.2 p) ([], g)

theorem findType2ConflictsT_run (g : DGraph) (layering : List (List String)) :
    findType2ConflictsT layering g = (findType2Conflicts g layering, g) := by
  rw [findType2ConflictsT, findType2Conflicts]
  exact foldl_thread g _ _ (fun a b => visitLayer2T_run g b.1 b.2 a) _ []

/-- One step of the per-layer walk of `buildBlockGraph`, threaded (the
separation function now also threads the state). -/
def buildBlockGraphStepT (sepFnT : DGraph → String → String → ℚ × DGraph)
    (root : String → String) (st : (BlockGraph × Option String) × DGraph)
    (v : String) : (BlockGraph × Option String) × DGraph :=
  let vRoot := root v
  let bg := st.1.1.setNode vRoot
  match st.1.2 with
  | some u =>
    let uRoot := root u
    let prevMax := match bg.edgeW uRoot vRoot with
      | some q => q
      | none => 0
    let sp := sepFnT st.2 v u
    ((bg.setEdge uRoot vRoot (max sp.1 prevMax), some v), sp.2)
  | none => ((bg, some v), st.2)

theorem buildBlockGraphStepT_run (g : DGraph) (ns es : ℚ) (rev : Bool)
    (root : String → String) (s : BlockGraph × Option String) (v : String) :
    buildBlockGraphStepT (sepT ns es rev) root (s, g) v =
      (buildBlockGraphStep g (sep ns es rev) root s v, g) := by
  obtain ⟨bg, ou⟩ := s
  cases ou with
  | none => rfl
  | some u => rfl

/-- `buildBlockGraph`, threaded: read the graph label once, then walk the
layering. -/
def buildBlockGraphT (layering : List (List String)) (root : String → String)
    (reverseSep : Bool) (g : DGraph) : BlockGraph × DGraph :=
  let ga := graphLabelT g
  let sepFnT := sepT ga.1.1 ga.1.2.1 reverseSep
  layering.foldl
    (fun p layer =>
      let r := layer.foldl (buildBlockGraphStepT sepFnT root) ((p.1, none), p.2)
      (r.1.1, r.2))
    (⟨[], []⟩, ga.2)

theorem buildBlockGraphT_run (g : DGraph) (layering : List (List String))
    (root : String → String) (reverseSep : Bool) :
    buildBlockGraphT layering root reverseSep g =
      (buildBlockGraph g layering root reverseSep, g) := by
  rw [buildBlockGraphT, buildBlockGraph]
  dsimp only [graphLabelT]
  refine foldl_thread g _ _ ?_ _ (⟨[], []⟩ : BlockGraph)
  intro a layer
  rw [foldl_thread g _ _
    (fun a' b => buildBlockGraphStepT_run g g.nodesep g.edgesep reverseSep root a' b)]

/-- The per-vertex body of `verticalAlignment`, threaded: the neighbour read
goes through the graph state; the median loop over the cached positions is
unchanged. -/
def vaVertexStepT (conflicts : Conflicts) (pos : String → ℕ)
    (nfT : DGraph → String → List String × DGraph)
    (p : (VA × ℤ) × DGraph) (v : String) : (VA × ℤ) × DGraph :=
  let wp := nfT p.2 v
  let ws0 := wp.1
  if ws0.isEmpty then (p.1, wp.2)
  else
    let ws := sortByPos pos ws0
    let lo := (ws.length - 1) / 2
    let hi := ws.length / 2
    ((List.range' lo (hi + 1 - lo)).foldl (vaMedianStep conflicts pos v ws) p.1, wp.2)

theorem vaVertexStepT_run (g : DGraph) (conflicts : Conflicts) (pos : String → ℕ)
    (nfT : DGraph → String → List String × DGraph) (nf : String → List String)
    (hnfT : ∀ v, nfT g v = (nf v, g)) (q : VA × ℤ) (v : String) :
    vaVertexStepT conflicts pos nfT (q, g) v = (vaVertexStep conflicts pos nf q v, g) := by
  rw [vaVertexStepT, vaVertexStep]
  dsimp only
  rw [hnfT v]
  by_cases he : (nf v).isEmpty = true
  · rw [if_pos he, if_pos he]
  · rw [if_neg he, if_neg he]

/-- The per-layer body of `verticalAlignment`, threaded. -/
def vaLayerStepT (conflicts : Conflicts) (pos : String → ℕ)
    (nfT : DGraph → String → List String × DGraph)
    (p : VA × DGraph) (layer : List String) : VA × DGraph :=
  let r := layer.foldl (vaVertexStepT conflicts pos nfT) ((p.1, (-1 : ℤ)), p.2)
  (r.1.1, r.2)

theorem vaLayerStepT_run (g : DGraph) (conflicts : Conflicts) (pos : String → ℕ)
    (nfT : DGraph → String → List String × DGraph) (nf : String → List String)
    (hnfT : ∀ v, nfT g v = (nf v, g)) (st : VA) (layer : List String) :
    vaLayerStepT conflicts pos nfT (st, g) layer =
      (vaLayerStep conflicts pos nf st layer, g) := by
  rw [vaLayerStepT, vaLayerStep]
  rw [foldl_thread g _ _ (fun a b => vaVertexStepT_run g conflicts pos nfT nf hnfT a b)]

/-- `verticalAlignment`, threaded. -/
def verticalAlignmentT (layering : List (List String)) (conflicts : Conflicts)
    (nfT : DGraph → String → List String × DGraph) (g : DGraph) : VA × DGraph :=
  let pos := posOf layering
  layering.foldl (vaLayerStepT conflicts pos nfT) (⟨fun v => v, fun v => v⟩, g)

theorem verticalAlignmentT_run (g : DGraph) (layering : List (List String))
    (conflicts : Conflicts)
    (nfT : DGraph → String → List String × DGraph) (nf : String → List String)
    (hnfT : ∀ v, nfT g v = (nf v, g)) :
    verticalAlignmentT layering conflicts nfT g =
      (verticalAlignment g layering conflicts nf, g) := by
  rw [verticalAlignmentT, verticalAlignment]
  exact foldl_thread g _ _
    (fun a b => vaLayerStepT_run g conflicts (posOf layering) nfT nf hnfT a b) _ _

/-- The body of pass 2's `_.reduce`, threaded (`pass1` touches only the block
graph and the coordinate map, so only pass 2 consults the graph state). -/
def pass2StepT (rec : String → CState × DGraph → CState × DGraph)
    (p : (CState × MinV) × DGraph) (e : BEdge) : (CState × MinV) × DGraph :=
  let r := rec e.w (p.1.1, p.2)
  ((r.1, jsMinM p.1.2 (jsSub (xget r.1.xs e.w) (some e.weight))), r.2)

/-- Pass 2 of `horizontalCompaction`, threaded: `var node = g.node(v)` is read
through the state before the reduce, exactly as in the source. -/
def pass2T (bg : BlockGraph) (borderType : String) :
    ℕ → String → CState × DGraph → CState × DGraph
  | 0, _, sg => sg
  | (fuel+1), v, sg =>
    let s := sg.1
    if s.visited v = 2 then sg
    else
      let s1 : CState :=
        { s with visited := fun x => if x = v then s.visited v + 1 else s.visited x }
      let nd := nodeT sg.2 v
      let r := (bg.outEdges v).foldl (pass2StepT (pass2T bg borderType fuel))
        ((s1, MinV.inf), nd.2)
      let s2 := r.1.1
      if r.1.2 ≠ MinV.inf ∧ nd.1.borderType ≠ some borderType then
        match r.1.2 with
        | MinV.val q => ({ s2 with xs := xset s2.xs v (jsMax (xget s2.xs v) (some q)) }, r.2)
        | MinV.nan => ({ s2 with xs := xset s2.xs v none }, r.2)
        | MinV.inf => (s2, r.2)
      else (s2, r.2)

theorem pass2T_run (bg : BlockGraph) (g : DGraph) (borderType : String) :
    ∀ (fuel : ℕ) (v : String) (s : CState),
      pass2T bg borderType fuel v (s, g) = (pass2 bg g borderType fuel v s, g) := by
  intro fuel
  induction fuel with
  | zero => intro v s; rfl
  | succ fuel ih =>
    intro v s
    unfold pass2T pass2
    dsimp only [nodeT]
    by_cases hv : s.visited v = 2
    · rw [if_pos hv, if_pos hv]
    · rw [if_neg hv, if_neg hv]
      rw [foldl_thread g (pass2Step (pass2 bg g borderType fuel))
        (pass2StepT (pass2T bg borderType fuel)) ?hstep]
      case hstep =>
        intro a e
        obtain ⟨s0, m0⟩ := a
        rw [pass2StepT, pass2Step]
        dsimp only
        rw [ih e.w s0]
      dsimp only
      by_cases hc : ((bg.outEdges v).foldl (pass2Step (pass2 bg g borderType fuel))
          ({ s with visited := fun x => if x = v then s.visited v + 1 else s.visited x },
            MinV.inf)).2 ≠ MinV.inf ∧ (g.label v).borderType ≠ some borderType
      · rw [if_pos hc, if_pos hc]
        cases hm : ((bg.outEdges v).foldl (pass2Step (pass2 bg g borderType fuel))
            ({ s with visited := fun x => if x = v then s.visited v + 1 else s.visited x },
              MinV.inf)).2 with
        | inf => rfl
        | nan => rfl
        | val q => rfl
      · rw [if_neg hc, if_neg hc]

def compact2T (bg : BlockGraph) (borderType : String) (p : CState × DGraph) :
    CState × DGraph :=
  bg.nodes.foldl (fun p v => pass2T bg borderType (bg.nodes.length + 1) v p) p

theorem compact2T_run (bg : BlockGraph) (g : DGraph) (borderType : String)
    (s : CState) :
    compact2T bg borderType (s, g) = (compact2 bg g borderType s, g) := by
  rw [compact2T, compact2]
  exact foldl_thread g _ _
    (fun a b => pass2T_run bg g borderType (bg.nodes.length + 1) b a) _ s

/-- `horizontalCompaction`, threaded: block-graph construction and pass 2 read
the graph state; pass 1 and the final extension loop do not touch it. -/
def horizontalCompactionT (layering : List (List String)) (root align : String → String)
    (reverseSep : Bool) (g : DGraph) : XMap × DGraph :=
  let bgp := buildBlockGraphT layering root reverseSep g
  let blockG := bgp.1
  let s1 := compact1 blockG ⟨fun _ => 0, []⟩
  let borderType := if reverseSep then "borderLeft" else "borderRight"
  let s2p := compact2T blockG borderType (s1, bgp.2)
  (hcAssign root align layering.flatten s2p.1.xs, s2p.2)

theorem horizontalCompactionT_run (g : DGraph) (layering : List (List String))
    (root align : String → String) (reverseSep : Bool) :
    horizontalCompactionT layering root align reverseSep g =
      (horizontalCompaction g layering root align reverseSep, g) := by
  rw [horizontalCompactionT, horizontalCompaction]
  rw [buildBlockGraphT_run]
  dsimp only
  rw [compact2T_run]

/-- The `_.forIn` body of `findSmallestWidthAlignment`, threaded: one pass over
the map's entries pushing `x ± width/2` onto the two arrays. -/
def mwStepT (p : (List JQ × List JQ) × DGraph) (e : String × JQ) :
    (List JQ × List JQ) × DGraph :=
  let wp := widthT p.2 e.1
  let halfWidth := wp.1 / 2
  ((p.1.1 ++ [jsAdd e.2 (some halfWidth)], p.1.2 ++ [jsSub e.2 (some halfWidth)]), wp.2)

/-- The width of one alignment, threaded. -/
def mapWidthT (xs : XMap) (g : DGraph) : JQ × DGraph :=
  let r := xs.foldl mwStepT (([], []), g)
  (jsSub (jsMaxList r.1.1) (jsMinList r.1.2), r.2)

theorem mw_fold (g : DGraph) (xs : XMap) :
    ∀ acc : List JQ × List JQ,
      xs.foldl (fun a e => (a.1 ++ [jsAdd e.2 (some (width g e.1 / 2))],
          a.2 ++ [jsSub e.2 (some (width g e.1 / 2))])) acc
        = (acc.1 ++ xs.map (fun p => jsAdd p.2 (some (width g p.1 / 2))),
           acc.2 ++ xs.map (fun p => jsSub p.2 (some (width g p.1 / 2)))) := by
  induction xs with
  | nil => intro acc; simp
  | cons e rest ih =>
    intro acc
    rw [List.foldl_cons, ih]
    simp

theorem mapWidthT_run (g : DGraph) (xs : XMap) :
    mapWidthT xs g = (mapWidth g xs, g) := by
  rw [mapWidthT, mapWidth]
  have hstep : ∀ (a : List JQ × List JQ) (e : String × JQ),
      mwStepT (a, g) e = ((a.1 ++ [jsAdd e.2 (some (width g e.1 / 2))],
        a.2 ++ [jsSub e.2 (some (width g e.1 / 2))]), g) := fun a e => rfl
  rw [foldl_thread g (fun a e => (a.1 ++ [jsAdd e.2 (some (width g e.1 / 2))],
    a.2 ++ [jsSub e.2 (some (width g e.1 / 2))])) mwStepT hstep]
  rw [mw_fold g xs ([], [])]
  simp

/-- One step of `_.minBy` in `findSmallestWidthAlignment`, threaded. -/
def minByStepT (p : Option (XMap × ℚ) × DGraph) (xs : XMap) :
    Option (XMap × ℚ) × DGraph :=
  let wp := mapWidthT xs p.2
  match wp.1 with
  | none => (p.1, wp.2)
  | some w =>
    match p.1 with
    | none => (some (xs, w), wp.2)
    | some pr => if w < pr.2 then (some (xs, w), wp.2) else (p.1, wp.2)

theorem minByStepT_run (g : DGraph) (acc : Option (XMap × ℚ)) (xs : XMap) :
    minByStepT (acc, g) xs = (minByStep g acc xs, g) := by
  rw [minByStepT, minByStep]
  dsimp only
  rw [mapWidthT_run]
  dsimp only
  cases mapWidth g xs with
  | none => rfl
  | some w =>
    cases acc with
    | none => rfl
    | some pr => exact ite_pair _ _ _ _

/-- `_.minBy` over the candidate maps, threaded. -/
def minByWidthT (l : List XMap) (g : DGraph) : Option XMap × DGraph :=
  let r := l.foldl minByStepT (none, g)
  (r.1.map (fun pr => pr.1), r.2)

theorem minByWidthT_run (g : DGraph) (l : List XMap) :
    minByWidthT l g = (minByWidth g l, g) := by
  rw [minByWidthT, minByWidth]
  rw [foldl_thread g (minByStep g) minByStepT (fun a b => minByStepT_run g a b)]

/-- `findSmallestWidthAlignment`, threaded. -/
def findSmallestWidthAlignmentT (xss : Xss) (g : DGraph) : Option XMap × DGraph :=
  minByWidthT [xss.ul, xss.ur, xss.dl, xss.dr] g

theorem findSmallestWidthAlignmentT_run (g : DGraph) (xss : Xss) :
    findSmallestWidthAlignmentT xss g = (findSmallestWidthAlignment g xss, g) := by
  rw [findSmallestWidthAlignmentT, findSmallestWidthAlignment]
  exact minByWidthT_run g _

/-- Modelled from the spec: `buildLayerMatrix` (from `../util`, not among the
given sources) builds the layer matrix from the graph's rank/order attributes;
per the spec it only reads them, so its threaded rendering returns the graph
state unchanged. -/
def buildLayerMatrixT (g : DGraph) : List (List String) × DGraph :=
  (buildLayerMatrix g, g)

/-- The four biased runs of `positionX`, threaded in source order: conflicts
first, then the `ul`, `ur`, `dl`, `dr` alignments, each aligning and then
compacting, with the neighbour capability reading predecessors for the `u`
runs and successors for the `d` runs. -/
def positionXssT (g : DGraph) : Xss × DGraph :=
  let lp := buildLayerMatrixT g
  let layering := lp.1
  let c1p := findType1ConflictsT layering lp.2
  let c2p := findType2ConflictsT layering c1p.2
  let conflicts := c1p.1 ++ c2p.1
  let layD := layering.reverse
  let va1 := verticalAlignmentT layering conflicts predsT c2p.2
  let ul := horizontalCompactionT layering va1.1.root va1.1.align false va1.2
  let va2 := verticalAlignmentT (layering.map List.reverse) conflicts predsT ul.2
  let ur0 := horizontalCompactionT (layering.map List.reverse) va2.1.root va2.1.align
    true va2.2
  let va3 := verticalAlignmentT layD conflicts succsT ur0.2
  let dl := horizontalCompactionT layD va3.1.root va3.1.align false va3.2
  let va4 := verticalAlignmentT (layD.map List.reverse) conflicts succsT dl.2
  let dr0 := horizontalCompactionT (layD.map List.reverse) va4.1.root va4.1.align
    true va4.2
  ({ ul := ul.1, ur := negXMap ur0.1, dl := dl.1, dr := negXMap dr0.1 }, dr0.2)

theorem positionXssT_run (g : DGraph) : positionXssT g = (positionXss g, g) := by
  rw [positionXssT, positionXss, buildLayerMatrixT]
  dsimp only
  rw [findType1ConflictsT_run]
  dsimp only
  rw [findType2ConflictsT_run]
  dsimp only
  rw [verticalAlignmentT_run g _ _ predsT g.preds (fun v => rfl)]
  dsimp only
  rw [horizontalCompactionT_run]
  dsimp only
  rw [verticalAlignmentT_run g _ _ predsT g.preds (fun v => rfl)]
  dsimp only
  rw [horizontalCompactionT_run]
  dsimp only
  rw [verticalAlignmentT_run g _ _ succsT g.succs (fun v => rfl)]
  dsimp only
  rw [horizontalCompactionT_run]
  dsimp only
  rw [verticalAlignmentT_run g _ _ succsT g.succs (fun v => rfl)]
  dsimp only
  rw [horizontalCompactionT_run]

/-- The aligned maps, threaded. -/
def alignedXssT (g : DGraph) : Xss × DGraph :=
  let xp := positionXssT g
  let xss := xp.1
  let fp := findSmallestWidthAlignmentT xss xp.2
  match fp.1 with
  | some alignTo => (alignCoordinates xss alignTo, fp.2)
  | none => (xss, fp.2)

theorem alignedXssT_run (g : DGraph) : alignedXssT g = (alignedXss g, g) := by
  rw [alignedXssT, alignedXss, positionXssT_run]
  dsimp only
  rw [findSmallestWidthAlignmentT_run]
  dsimp only
  cases findSmallestWidthAlignment g (positionXss g) with
  | none => rfl
  | some alignTo => rfl

/-- `positionX`, threaded: align the four runs, read the graph-level `align`
attribute, and balance. -/
def positionXT (g : DGraph) : XMap × DGraph :=
  let ap := alignedXssT g
  let gp := graphLabelT ap.2
  (balance ap.1 gp.1.2.2, gp.2)

theorem positionXT_run (g : DGraph) : positionXT g = (positionX g, g) := by
  rw [positionXT, positionX, alignedXssT_run]
  rfl

/-- C10: `positionX` leaves its input graph unchanged. In the state-threaded
rendering, where every access the source makes to the graph — node labels,
predecessor and successor lists, the graph label — passes through the graph
state in source order, the state returned by the whole pipeline is exactly the
input graph (no stage performs a write), and the coordinate map computed along
the way is `positionX g`; the conflict store, root/align maps, block graph and
coordinate maps are all built as fresh values. -/
theorem c10_positionX_frame (g : DGraph) :
    (positionXT g).2 = g ∧ (positionXT g).1 = positionX g := by
  rw [positionXT_run]
  exact ⟨rfl, rfl⟩

end BK
